import Mathlib

/-!
Packing of coordinate tables into per-level tensor indices (`src/tensor.cpp`)

A shallow embedding of `getUniqueEntries`, `packIndices` and `pack`, followed by
theorems about the indices and the stored-value count they produce.

Conventions of the embedding:

* `std::vector` is `List`; an element access outside the container is the
  failure `PackError.outOfBounds`.  In `packIndices` a reference that is bound
  but never read (`levelCoords` and `index` at a `Values` level) is not an
  access; `packIndicesChecked` is the same function with the subscripts of
  these bindings tested as well.
* `int` is `Int` (coordinates are 32-bit values), `size_t` is `Nat`; the
  conversions between them that the code performs are `toSizeT` and `toInt`,
  and the `size_t` product kept in `nnz` is reduced modulo `2^64`.
* `iassert` and `tassert` are fatal when their condition is false: the call fails and
  yields no result.
* The diagnostic printing of `pack` has no effect on the result and is left out.  Memory
  is taken to be sufficient, and in `pack` the allocation of the value buffer is taken to
  succeed; `allocValues` is the allocation with the one size the library itself refuses
  (above `max_size()`), and a theorem that derives the stored-value count from the extents
  and states that `pack` returns carries the bound `maxValues`.
-/

namespace taco

/-! ## Data model -/

/-- Modelled from the spec: the storage discipline of a level, `Level::Dense`,
`Level::Sparse` or the terminal `Level::Values` (declared in `format.h`). -/
inductive LevelType where
  | Dense
  | Sparse
  | Values
  deriving DecidableEq, Repr

/-- Modelled from the spec: a level of a format; the code reads only its `type`
(declared in `format.h`). -/
structure Level where
  type : LevelType
  deriving DecidableEq, Repr

/-- Modelled from the spec: a format is the ordered sequence of its levels, what
`format.getLevels()` returns (declared in `format.h`). -/
abbrev Format := List Level

/-- Modelled from the spec: the scalar-type tag; `Double` is the one supported kind
(declared in `component_types.h`). -/
inductive ComponentType where
  | Bool
  | Int
  | Float
  | Double
  deriving DecidableEq, Repr

/-- Modelled from the spec: the ways in which a call can fail. A failed `iassert` and the
failed `tassert` on the scalar type (macros declared in `error.h`) are fatal; the others
are an element access outside its container and the `std::length_error` of `reserve`. -/
inductive PackError where
  | assertion
  | unsupportedType
  | outOfBounds
  | lengthError
  deriving DecidableEq, Repr

/-- Modelled from the spec: `PackedTensor::IndexArray`, a sequence of integers
(declared in `packed_tensor.h`). -/
abbrev IndexArray := List Int

/-- Modelled from the spec: `PackedTensor::Index`, the index arrays of one level: none for
a Dense level, the segment-end array and the coordinate array for a Sparse level. -/
abbrev Index := List IndexArray

/-- Modelled from the spec: `PackedTensor::Indices`, one `Index` per level. -/
abbrev Indices := List Index

/-- Modelled from the spec: the produced tensor (declared in `packed_tensor.h`): the
stored-value count `nnz`, the value buffer, represented by its length `numValues`
(`std::vector<double> values(nnz)`), and the per-level indices. -/
structure PackedTensor where
  nnz : Nat
  numValues : Nat
  indices : Indices
  deriving DecidableEq, Repr

deriving instance DecidableEq for Except

/-! ## Machine integers -/

/-- The conversion `int → size_t` (`size_t curr = *begin`): reduction modulo `2^64`. -/
def toSizeT (x : Int) : Nat := (x % (2 ^ 64 : Int)).toNat

/-- The conversion `size_t → int` (`(int)dims[i]`, `push_back(curr)` into a
`vector<int>`): the value modulo `2^32`, read as a signed 32-bit number. -/
def toInt (n : Nat) : Int :=
  if n % 2 ^ 32 < 2 ^ 31 then ((n % 2 ^ 32 : Nat) : Int) else ((n % 2 ^ 32 : Nat) : Int) - 2 ^ 32

/-! ## `getUniqueEntries` -/

/-- The loop `for (auto it = begin+1; it != end; ++it)` of `getUniqueEntries`: the first
argument is the distance `end - it`, `it` is the position of the iterator in `v`. -/
def uniqueLoop (v : List Int) : Nat → Nat → Nat → List Int → Except PackError (List Int)
  | 0, _, _, uniqueEntries => .ok uniqueEntries
  | n + 1, it, curr, uniqueEntries =>
    match v[it]? with
    | none => .error .outOfBounds
    | some x =>
      let next := toSizeT x
      if curr ≤ next then
        if curr < next then uniqueLoop v n (it + 1) next (uniqueEntries ++ [toInt next])
        else uniqueLoop v n (it + 1) curr uniqueEntries
      else .error .assertion

/-- The function `getUniqueEntries(v.begin()+begin, v.begin()+end)`: the distinct entries of
the range, which it asserts to be ascending.  An iterator range with `end` before `begin`
can only be left through a failure. -/
def getUniqueEntries (v : List Int) (begin end_ : Nat) : Except PackError (List Int) :=
  if end_ < begin then .error .outOfBounds
  else if begin ≠ end_ then
    match v[begin]? with
    | none => .error .outOfBounds
    | some x => uniqueLoop v (end_ - (begin + 1)) (begin + 1) (toSizeT x) [toInt (toSizeT x)]
  else .ok []

/-! ## `packIndices` -/

/-- The scan `while (cend < end && levelCoords[cend] == j) cend++`: the first argument is
the distance `end - cend`. -/
def scan (levelCoords : Option (List Int)) (j : Int) : Nat → Nat → Except PackError Nat
  | 0, cend => .ok cend
  | n + 1, cend =>
    match levelCoords with
    | none => .error .outOfBounds
    | some lc =>
      match lc[cend]? with
      | none => .error .outOfBounds
      | some x => if x = j then scan levelCoords j n (cend + 1) else .ok cend

/-- The loop over the child values `j` shared by the Dense and the Sparse case of
`packIndices`: scan the run of `j`, pack it at the next level (`recurse`), continue behind
the run. -/
def childLoop (recurse : Nat → Nat → Indices → Except PackError Indices)
    (levelCoords : Option (List Int)) (end_ : Nat) :
    List Int → Nat → Indices → Except PackError Indices
  | [], _, indices => .ok indices
  | j :: js, cbegin, indices =>
    match scan levelCoords j (end_ - cbegin) cbegin with
    | .error e => .error e
    | .ok cend =>
      match recurse cbegin cend indices with
      | .error e => .error e
      | .ok indices1 => childLoop recurse levelCoords end_ js cend indices1

/-- The values `0, 1, ..., n-1` of `for (int j=0; j < n; ++j)`; none when `n ≤ 0`. -/
def denseValues (n : Int) : List Int := (List.range n.toNat).map (fun (j : Nat) => (j : Int))

/-- The two updates of the Sparse case: `index[0].push_back(index[1].size() +
indexValues.size())`, then `index[1].insert(index[1].end(), ...)`. -/
def sparseStep (index : Index) (seg crd indexValues : List Int) : Index :=
  (index.set 0 (seg ++ [((crd.length + indexValues.length : Nat) : Int)])).set 1
    (crd ++ indexValues)

/-- The function `packIndices` at level `i`, by recursion on the levels from `i` on:
the first list is `levels[i], levels[i+1], ...`, so `levels[i]` is its head and is out of
bounds when it is empty. -/
def packIndicesFrom (dims : List Nat) (coords : List (List Int)) :
    List Level → Nat → Nat → Nat → Indices → Except PackError Indices
  | [], _, _, _, _ => .error .outOfBounds
  | level :: rest, i, begin, end_, indices =>
    match level.type with
    | .Dense =>
      match dims[i]? with
      | none => .error .outOfBounds
      | some d =>
        childLoop (fun cbegin cend ind => packIndicesFrom dims coords rest (i + 1) cbegin cend ind)
          coords[i]? end_ (denseValues (toInt d)) begin indices
    | .Sparse =>
      match coords[i]? with
      | none => .error .outOfBounds
      | some levelCoords =>
        match getUniqueEntries levelCoords begin end_ with
        | .error e => .error e
        | .ok indexValues =>
          match indices[i]? with
          | none => .error .outOfBounds
          | some index =>
            match index[0]?, index[1]? with
            | some seg, some crd =>
              childLoop
                (fun cbegin cend ind => packIndicesFrom dims coords rest (i + 1) cbegin cend ind)
                (some levelCoords) end_ indexValues begin
                (indices.set i (sparseStep index seg crd indexValues))
            | _, _ => .error .outOfBounds
    | .Values => .ok indices

/-- The function `packIndices(dims, coords, begin, end, levels, i, indices)`. -/
def packIndices (dims : List Nat) (coords : List (List Int)) (begin end_ : Nat)
    (levels : List Level) (i : Nat) (indices : Indices) : Except PackError Indices :=
  packIndicesFrom dims coords (levels.drop i) i begin end_ indices

/-! ## `pack` -/

/-- The first loop of `pack` over the levels from `i` on: it allocates the index of each
level and keeps the running value count `nnz`. -/
def initIndices (dimensions : List Nat) (numCoords : Nat) :
    List Level → Nat → Indices → Nat → Except PackError (Indices × Nat)
  | [], _, indices, nnz => .ok (indices, nnz)
  | level :: rest, i, indices, nnz =>
    match level.type with
    | .Dense =>
      match dimensions[i]? with
      | none => .error .outOfBounds
      | some d => initIndices dimensions numCoords rest (i + 1) (indices ++ [[]]) (nnz * d % 2 ^ 64)
    | .Sparse =>
      match (indices ++ [[[], []]])[i]? with
      | none => .error .outOfBounds
      | some index =>
        match index[0]? with
        | none => .error .outOfBounds
        | some a =>
          initIndices dimensions numCoords rest (i + 1)
            ((indices ++ [[[], []]]).set i (index.set 0 (a ++ [0]))) numCoords
    | .Values => initIndices dimensions numCoords rest (i + 1) indices nnz

/-- The function `pack(dimensions, ctype, format, coords, vals)`; the value pointer
`vals` is never read.  The allocation of the value buffer, `std::vector<double>
values(nnz)`, is taken to succeed here; `allocValues` is that allocation with the size the
library refuses. -/
def pack (dimensions : List Nat) (ctype : ComponentType) (format : Format)
    (coords : List (List Int)) : Except PackError PackedTensor :=
  match coords with
  | [] => .error .assertion
  | c0 :: _ =>
    if format.length = 0 then .error .lengthError
    else
      match initIndices dimensions c0.length format 0 [] 1 with
      | .error e => .error e
      | .ok (indices, nnz) =>
        match packIndices dimensions coords 0 c0.length format 0 indices with
        | .error e => .error e
        | .ok indices1 =>
          if ctype = .Double then .ok ⟨nnz, nnz, indices1⟩ else .error .unsupportedType

/-! ## Specification-level notions -/

/-- The number of input tuples, `coords[0].size()`. -/
def numCoords (coords : List (List Int)) : Nat := (coords.headD []).length

/-- The extents of the Dense levels among `levels[i], levels[i+1], ...`, in order. -/
def denseExtents (dims : List Nat) : List Level → Nat → List Nat
  | [], _ => []
  | level :: rest, i =>
    if level.type = .Dense then dims.getD i 0 :: denseExtents dims rest (i + 1)
    else denseExtents dims rest (i + 1)

/-- The running value count over the levels from `i` on, stated as a fold: multiplied by
the extent (in `size_t` arithmetic, modulo `2^64`) at a Dense level, reset to the tuple
count at every Sparse level, unchanged at a Values level. -/
def runningCount (dims : List Nat) (tuples : Nat) : List Level → Nat → Nat → Nat
  | [], _, count => count
  | level :: rest, i, count =>
    match level.type with
    | .Dense => runningCount dims tuples rest (i + 1) (count * dims.getD i 0 % 2 ^ 64)
    | .Sparse => runningCount dims tuples rest (i + 1) tuples
    | .Values => runningCount dims tuples rest (i + 1) count

/-- The running value count in the words of the specification: multiplied by the extent at
a Dense level, reset to the tuple count at the first Sparse level only (`seen` tells
whether a Sparse level has been met). -/
def runningCountFirstSparse (dims : List Nat) (tuples : Nat) :
    List Level → Nat → Bool → Nat → Nat
  | [], _, _, count => count
  | level :: rest, i, seen, count =>
    match level.type with
    | .Dense => runningCountFirstSparse dims tuples rest (i + 1) seen (count * dims.getD i 0)
    | .Sparse =>
      runningCountFirstSparse dims tuples rest (i + 1) true (if seen then count else tuples)
    | .Values => runningCountFirstSparse dims tuples rest (i + 1) seen count

/-! ### Traversal of the produced indices -/

/-- The segment-end array of level `i` (`indices[i][0]`). -/
def segArray (indices : Indices) (i : Nat) : List Int := (indices.getD i []).getD 0 []

/-- The coordinate array of level `i` (`indices[i][1]`). -/
def crdArray (indices : Indices) (i : Nat) : List Int := (indices.getD i []).getD 1 []

/-- The slice of a coordinate array between the segment ends `s` and `e`. -/
def segment (crd : List Int) (s e : Int) : List Int :=
  (crd.drop s.toNat).take (e.toNat - s.toNat)

/-- The segments of a Sparse index: the slices between consecutive segment ends. -/
def segments (seg crd : List Int) : List (List Int) :=
  List.zipWith (segment crd) seg seg.tail

/-- The children of parent position `p` at the Sparse level `i`, as pairs (child position,
coordinate): the coordinates stored at the positions `k` with
`segment-ends[p] ≤ k < segment-ends[p+1]`. -/
def sparseChildren (indices : Indices) (i p : Nat) : List (Nat × Int) :=
  match (segArray indices i)[p]?, (segArray indices i)[p + 1]? with
  | some s, some e =>
    (List.range' s.toNat (e.toNat - s.toNat)).filterMap
      (fun k => ((crdArray indices i)[k]?).map (fun x => (k, x)))
  | _, _ => []

/-- The children of parent position `p` at a Dense level: the coordinates `0..extent-1`,
child `j` at position `p * extent + j`. -/
def denseChildren (extent p : Nat) : List (Nat × Int) :=
  (List.range extent).map (fun j => (p * extent + j, (j : Int)))

/-- The coordinate tuples reached from position `p` of level `i` by traversing the indices
through the levels `levels[i], levels[i+1], ...` down to the Values level. -/
def traverse (dims : List Nat) (indices : Indices) : List Level → Nat → Nat → List (List Int)
  | [], _, _ => []
  | level :: rest, i, p =>
    match level.type with
    | .Values => [[]]
    | .Dense =>
      (denseChildren (dims.getD i 0) p).flatMap
        (fun kx => (traverse dims indices rest (i + 1) kx.1).map (fun t => kx.2 :: t))
    | .Sparse =>
      (sparseChildren indices i p).flatMap
        (fun kx => (traverse dims indices rest (i + 1) kx.1).map (fun t => kx.2 :: t))

/-! ### The coordinate table -/

/-- The coordinates of tuple `r` at the levels `i, i+1, ...`. -/
def rowFrom (coords : List (List Int)) (i r : Nat) : List Int :=
  (coords.drop i).map (fun col => col.getD r 0)

/-- The input tuples, in input order. -/
def rows (coords : List (List Int)) : List (List Int) :=
  (List.range (numCoords coords)).map (rowFrom coords 0)

/-- Lexicographic comparison `a ≤ b` of two tuples. -/
def lexLe : List Int → List Int → Bool
  | [], _ => true
  | _ :: _, [] => false
  | a :: as, b :: bs => decide (a < b) || (decide (a = b) && lexLe as bs)

/-- The table is sorted lexicographically by (level 0, level 1, ...). -/
def LexSorted (coords : List (List Int)) : Prop :=
  (rows coords).Pairwise (fun a b => lexLe a b = true)

instance (coords : List (List Int)) : Decidable (LexSorted coords) := by
  unfold LexSorted; infer_instance

/-- All coordinate sequences have the length of the first one. -/
def IsTable (coords : List (List Int)) : Prop :=
  ∀ col ∈ coords, col.length = numCoords coords

instance (coords : List (List Int)) : Decidable (IsTable coords) := by
  unfold IsTable; infer_instance

/-- All coordinates are non-negative `int` values: an `int` is below `2^31`. -/
def NonNegative (coords : List (List Int)) : Prop :=
  ∀ col ∈ coords, ∀ x ∈ col, 0 ≤ x ∧ x < 2 ^ 31

instance (coords : List (List Int)) : Decidable (NonNegative coords) := by
  unfold NonNegative; infer_instance

/-- At every Dense level the extent is an `int` (it is below `2^31`) and the coordinates
are smaller than it. -/
def DenseBounded (dims : List Nat) (lv : List Level) (coords : List (List Int)) : Prop :=
  ∀ i, i < lv.length → (lv.getD i ⟨.Values⟩).type = .Dense →
    i < dims.length ∧ dims.getD i 0 < 2 ^ 31 ∧ ∀ x ∈ coords.getD i [], x < (dims.getD i 0 : Int)

instance (dims : List Nat) (lv : List Level) (coords : List (List Int)) :
    Decidable (DenseBounded dims lv coords) := by
  unfold DenseBounded; infer_instance

/-- At every Dense level the coordinates are smaller than the extent. -/
def BelowExtent (dims : List Nat) (lv : List Level) (coords : List (List Int)) : Prop :=
  ∀ i, i < lv.length → (lv.getD i ⟨.Values⟩).type = .Dense →
    i < dims.length ∧ ∀ x ∈ coords.getD i [], x < (dims.getD i 0 : Int)

instance (dims : List Nat) (lv : List Level) (coords : List (List Int)) :
    Decidable (BelowExtent dims lv coords) := by
  unfold BelowExtent; infer_instance

/-! ### Counting parent entries -/

/-- The number of iterations of the Dense loop `for (int j=0; j < (int)dims[i]; ++j)`. -/
def denseCount (d : Nat) : Nat := (toInt d).toNat

/-- The number `P(i)` of parent entries of level `i`: `P(0) = 1`, `P(i+1) = P(i) *
fanout(extent(i))` when level `i` is Dense and the length of the coordinate array of level
`i` when it is Sparse; no entries behind a Values level. -/
def parentEntries (fanout : Nat → Nat) (dims : List Nat) (indices : Indices)
    (levels : List Level) : Nat → Nat
  | 0 => 1
  | i + 1 =>
    match (levels.getD i ⟨.Values⟩).type with
    | .Dense => parentEntries fanout dims indices levels i * fanout (dims.getD i 0)
    | .Sparse => (crdArray indices i).length
    | .Values => 0

/-! ### Invariants used in the proofs -/

/-- The indices are ready for the call of `packIndices` at level `i` that processes parent
position `p`: every Sparse level met on the way down has one segment end per processed
parent, the last one being the length of its coordinate array. -/
def Ready (dims : List Nat) (ind : Indices) : List Level → Nat → Nat → Prop
  | [], _, _ => True
  | level :: rest, i, p =>
    match level.type with
    | .Values => True
    | .Dense => Ready dims ind rest (i + 1) (p * denseCount (dims.getD i 0))
    | .Sparse =>
      ∃ seg crd, ind[i]? = some [seg, crd] ∧ seg.length = p + 1 ∧
        seg.getLast? = some (crd.length : Int) ∧ Ready dims ind rest (i + 1) crd.length

/-- Every Sparse index of `a` is extended in `b`: both arrays grow at the end only. -/
def Ext (a b : Indices) : Prop :=
  ∀ (l : Nat) (seg crd : List Int), a[l]? = some [seg, crd] →
    ∃ seg1 crd1 : List Int, b[l]? = some [seg1, crd1] ∧ seg <+: seg1 ∧ crd <+: crd1

/-- The invariant of a Sparse index: the segment ends start with 0, are nondecreasing, lie
between 0 and the length of the coordinate array, which is the last of them, and every
segment satisfies `P`. -/
def SegInv (P : List Int → Prop) (index : Index) : Prop :=
  ∃ seg crd, index = [seg, crd] ∧ seg.head? = some 0 ∧ seg.Sorted (· ≤ ·) ∧
    seg.getLast? = some (crd.length : Int) ∧ (∀ a ∈ seg, 0 ≤ a ∧ a ≤ (crd.length : Int)) ∧
    ∀ p s e, seg[p]? = some s → seg[p + 1]? = some e → P (segment crd s e)

/-- The tuples `b ≤ r < e` are sorted lexicographically on the levels from `i` on. -/
def SortedFrom (coords : List (List Int)) (i b e : Nat) : Prop :=
  ∀ r r1, b ≤ r → r < r1 → r1 < e → lexLe (rowFrom coords i r) (rowFrom coords i r1) = true

/-- The levels from `i` on are Dense or Sparse up to a final Values level behind the last
coordinate sequence, every sequence has `N` non-negative entries, and at a Dense level
the entries are below the extent, which is below `2^31`. -/
def InputOK (dims : List Nat) (coords : List (List Int)) (N : Nat) : List Level → Nat → Prop
  | [], _ => False
  | level :: rest, i =>
    match level.type with
    | .Values => rest = [] ∧ coords.length ≤ i
    | .Dense =>
      (∃ col d, coords[i]? = some col ∧ col.length = N ∧ dims[i]? = some d ∧ d < 2 ^ 31 ∧
        ∀ x ∈ col, 0 ≤ x ∧ x < (d : Int)) ∧ InputOK dims coords N rest (i + 1)
    | .Sparse =>
      (∃ col, coords[i]? = some col ∧ col.length = N ∧ ∀ x ∈ col, 0 ≤ x ∧ x < 2 ^ 31) ∧
        InputOK dims coords N rest (i + 1)

/-- Some level before the Values level is Sparse before any leaf is reached: an empty range
of tuples is then traversed to no tuple. -/
def Strict : List Level → Prop
  | [] => False
  | level :: rest =>
    match level.type with
    | .Values => False
    | .Dense => Strict rest
    | .Sparse => True

/-- The formats whose traversal yields input tuples only: below every Dense level there is
a Sparse level before the Values level. -/
def SoundFmt : List Level → Prop
  | [] => False
  | level :: rest =>
    match level.type with
    | .Values => True
    | .Dense => SoundFmt rest ∧ Strict rest
    | .Sparse => SoundFmt rest

/-! ### The unique entries of a range, in the words of the specification -/

/-- The entries of the iterator range `[begin, end)` of `v`, in order. -/
def entries (v : List Int) (begin end_ : Nat) : List Int := (v.drop begin).take (end_ - begin)

/-- The distinct entries of a sequence that follows the entry `prev`: every entry is
compared, as a `size_t`, against the immediately preceding entry; it must not be smaller,
and it is kept when it is greater. -/
def uniqueFrom (prev : Int) : List Int → Except PackError (List Int)
  | [] => .ok []
  | x :: xs =>
    if toSizeT prev ≤ toSizeT x then
      match uniqueFrom x xs with
      | .error e => .error e
      | .ok u => .ok (if toSizeT prev < toSizeT x then toInt (toSizeT x) :: u else u)
    else .error .assertion

/-- The distinct entries of a sequence with the adjacent-pair check: the first entry, then
the entries greater than their predecessor. -/
def uniqueAdjacent : List Int → Except PackError (List Int)
  | [] => .ok []
  | x :: xs =>
    match uniqueFrom x xs with
    | .error e => .error e
    | .ok u => .ok (toInt (toSizeT x) :: u)

/-- A sequence of `int` values that are all non-negative or all negative. -/
def SameSign (xs : List Int) : Prop :=
  (∀ x ∈ xs, 0 ≤ x ∧ x < 2 ^ 31) ∨ (∀ x ∈ xs, -(2 ^ 31) ≤ x ∧ x < 0)

instance (xs : List Int) : Decidable (SameSign xs) := by
  unfold SameSign; infer_instance

/-- On the entries of `xs` the conversions `int → size_t → int` lose nothing and the
conversion `int → size_t` keeps the order. -/
def Faithful (xs : List Int) : Prop :=
  (∀ x ∈ xs, toInt (toSizeT x) = x) ∧
    ∀ x ∈ xs, ∀ y ∈ xs, (toSizeT x ≤ toSizeT y ↔ x ≤ y)

/-! ### The recursive calls of a level -/

/-- The recursive calls that the child loop makes when every call returns, in order, as
triples (child value `j`, `cbegin`, `cend`): the scans of `childLoop` without the calls. -/
def childRanges (levelCoords : Option (List Int)) (end_ : Nat) :
    List Int → Nat → Except PackError (List (Int × Nat × Nat))
  | [], _ => .ok []
  | j :: js, cbegin =>
    match scan levelCoords j (end_ - cbegin) cbegin with
    | .error e => .error e
    | .ok cend =>
      match childRanges levelCoords end_ js cend with
      | .error e => .error e
      | .ok rs => .ok ((j, cbegin, cend) :: rs)

/-- The calls `recurse cbegin cend` on the given ranges in order, each on the indices the
previous one has left. -/
def callAll (recurse : Nat → Nat → Indices → Except PackError Indices) :
    List (Int × Nat × Nat) → Indices → Except PackError Indices
  | [], indices => .ok indices
  | (_, cbegin, cend) :: rs, indices =>
    match recurse cbegin cend indices with
    | .error e => .error e
    | .ok indices1 => callAll recurse rs indices1

/-- The recursive calls of `packIndices` at level `i` on the range `[begin, end)`: the child
values are `0..(int)dims[i]-1` at a Dense level and the unique entries of the range at a
Sparse level; there are none at a Values level. -/
def levelChildRanges (dims : List Nat) (coords : List (List Int)) (level : Level)
    (i begin end_ : Nat) : Except PackError (List (Int × Nat × Nat)) :=
  match level.type with
  | .Dense =>
    match dims[i]? with
    | none => .error .outOfBounds
    | some d => childRanges coords[i]? end_ (denseValues (toInt d)) begin
  | .Sparse =>
    match coords[i]? with
    | none => .error .outOfBounds
    | some levelCoords =>
      match getUniqueEntries levelCoords begin end_ with
      | .error e => .error e
      | .ok indexValues => childRanges (some levelCoords) end_ indexValues begin
  | .Values => .ok []

/-- The ranges follow one another from `b` to `e`: the first begins at `b`, each begins
where the one before ends, and the last ends at `e`. -/
def Consecutive : Nat → Nat → List (Int × Nat × Nat) → Prop
  | b, e, [] => b = e
  | b, e, (_, cb, ce) :: rs => cb = b ∧ cb ≤ ce ∧ Consecutive ce e rs

/-- The part of `pack` that runs before the call of `packIndices`: the assertion on the
coordinate table, the reservation of the indices and the first loop over the levels. -/
def packSetup (dimensions : List Nat) (format : Format) (coords : List (List Int)) :
    Except PackError (Indices × Nat) :=
  match coords with
  | [] => .error .assertion
  | c0 :: _ =>
    if format.length = 0 then .error .lengthError
    else initIndices dimensions c0.length format 0 [] 1

/-- Every index of `a` is in `b` with the same number of arrays, each array of `a` being a
prefix of the array of `b` at the same place: the arrays grow at the end only. -/
def Grows (a b : Indices) : Prop :=
  ∀ (l : Nat) (index : Index), a[l]? = some index →
    ∃ index1 : Index, b[l]? = some index1 ∧ index1.length = index.length ∧
      ∀ (k : Nat) (arr : IndexArray), index[k]? = some arr →
        ∃ arr1 : IndexArray, index1[k]? = some arr1 ∧ arr <+: arr1

/-! ## The subscripts at the head of `packIndices` -/

/-- The function `packIndices` at level `i` with every subscript that the code evaluates
tested against its container, the ones at the head of the function included:
`coords[i]` and `(*indices)[i]` are evaluated before the switch, at a Values level too.
The rest is `packIndicesFrom`. -/
def packIndicesChecked (dims : List Nat) (coords : List (List Int)) :
    List Level → Nat → Nat → Nat → Indices → Except PackError Indices
  | [], _, _, _, _ => .error .outOfBounds
  | level :: rest, i, begin, end_, indices =>
    match coords[i]?, indices[i]? with
    | some levelCoords, some index =>
      match level.type with
      | .Dense =>
        match dims[i]? with
        | none => .error .outOfBounds
        | some d =>
          childLoop
            (fun cbegin cend ind => packIndicesChecked dims coords rest (i + 1) cbegin cend ind)
            (some levelCoords) end_ (denseValues (toInt d)) begin indices
      | .Sparse =>
        match getUniqueEntries levelCoords begin end_ with
        | .error e => .error e
        | .ok indexValues =>
          match index[0]?, index[1]? with
          | some seg, some crd =>
            childLoop
              (fun cbegin cend ind => packIndicesChecked dims coords rest (i + 1) cbegin cend ind)
              (some levelCoords) end_ indexValues begin
              (indices.set i (sparseStep index seg crd indexValues))
          | _, _ => .error .outOfBounds
      | .Values => .ok indices
    | _, _ => .error .outOfBounds

/-- The function `pack` with the subscripts of `packIndices` tested as in
`packIndicesChecked`. -/
def packChecked (dimensions : List Nat) (ctype : ComponentType) (format : Format)
    (coords : List (List Int)) : Except PackError PackedTensor :=
  match packSetup dimensions format coords with
  | .error e => .error e
  | .ok (indices, nnz) =>
    match packIndicesChecked dimensions coords format 0 0 (numCoords coords) indices with
    | .error e => .error e
    | .ok indices1 =>
      if ctype = .Double then .ok ⟨nnz, nnz, indices1⟩ else .error .unsupportedType

/-- Tuple `r` has the coordinates of tuple `k` at all levels before `l`. -/
def AgreeBefore (coords : List (List Int)) (l r k : Nat) : Prop :=
  ∀ m, m < l → (coords.getD m []).getD r 0 = (coords.getD m []).getD k 0

instance (coords : List (List Int)) (l r k : Nat) : Decidable (AgreeBefore coords l r k) := by
  unfold AgreeBefore; infer_instance

/-- Level `l`, a Dense level, is in order for the tuples that agree with tuple `k` at the
levels before `l`: the extent is an `int` (it is below `2^31`), the coordinate sequence has
an entry for every tuple, and on those tuples the coordinates are smaller than the extent
and ascend. -/
def DenseRun (dims : List Nat) (coords : List (List Int)) (l k : Nat) : Prop :=
  l < dims.length ∧ dims.getD l 0 < 2 ^ 31 ∧ numCoords coords ≤ (coords.getD l []).length ∧
  (∀ r, r < numCoords coords → AgreeBefore coords l r k →
    (coords.getD l []).getD r 0 < (dims.getD l 0 : Int)) ∧
  (∀ r1, r1 < numCoords coords → ∀ r, r ≤ r1 → AgreeBefore coords l r k →
    AgreeBefore coords l r1 k → (coords.getD l []).getD r 0 ≤ (coords.getD l []).getD r1 0)

instance (dims : List Nat) (coords : List (List Int)) (l k : Nat) :
    Decidable (DenseRun dims coords l k) := by
  unfold DenseRun; infer_instance

/-- The largest number of elements of a `std::vector<double>`, its `max_size()`:
`PTRDIFF_MAX / sizeof(double)` on the 64-bit target. -/
def maxValues : Nat := 2 ^ 60 - 1

/-- The allocation `std::vector<double> values(nnz)`, the statement of `pack` between the
test of the scalar type and the construction of the result: the constructor throws
`std::length_error` when `nnz` exceeds `max_size()`. `pack` takes it to succeed;
a statement that `pack` returns with a count that the extents determine carries the
bound. -/
def allocValues (nnz : Nat) : Except PackError Nat :=
  if nnz ≤ maxValues then .ok nnz else .error .lengthError

/-! ## Theorems -/

/-! ### Elementary facts about the loops -/
theorem scan_bounds (lc : Option (List Int)) (j : Int) :
    ∀ n cend ce, scan lc j n cend = .ok ce → cend ≤ ce ∧ ce ≤ cend + n := by
  intro n
  induction n with
  | zero => intro cend ce h; simp [scan] at h; omega
  | succ n ih =>
    intro cend ce h
    unfold scan at h
    split at h
    · cases h
    · split at h
      · cases h
      · split at h
        · have := ih _ _ h; omega
        · cases h; omega

theorem scan_total (col : List Int) (j : Int) :
    ∀ n cend, cend + n ≤ col.length → ∃ ce, scan (some col) j n cend = .ok ce := by
  intro n
  induction n with
  | zero => intro cend _; exact ⟨cend, rfl⟩
  | succ n ih =>
    intro cend h
    have hlt : cend < col.length := by omega
    unfold scan
    simp only [List.getElem?_eq_getElem hlt]
    split
    · exact ih (cend + 1) (by omega)
    · exact ⟨cend, rfl⟩

/-- Total-correctness rule for the child loop: an invariant `I` on (remaining values,
`cbegin`, indices) that every iteration re-establishes holds at the end, and the loop
returns. -/
theorem childLoop_total (recurse : Nat → Nat → Indices → Except PackError Indices)
    (lc : Option (List Int)) (e : Nat) (I : List Int → Nat → Indices → Prop)
    (hstep : ∀ j js cb ind, I (j :: js) cb ind →
      ∃ ce ind1, scan lc j (e - cb) cb = .ok ce ∧ recurse cb ce ind = .ok ind1 ∧ I js ce ind1) :
    ∀ js cb ind, I js cb ind →
      ∃ cb1 ind1, childLoop recurse lc e js cb ind = .ok ind1 ∧ I [] cb1 ind1 := by
  intro js
  induction js with
  | nil => intro cb ind h; exact ⟨cb, ind, rfl, h⟩
  | cons j js ih =>
    intro cb ind h
    obtain ⟨ce, ind1, h1, h2, h3⟩ := hstep j js cb ind h
    obtain ⟨cb2, ind2, h4, h5⟩ := ih ce ind1 h3
    exact ⟨cb2, ind2, by simp [childLoop, h1, h2, h4], h5⟩

/-- Partial-correctness rule for the child loop: if the loop returns, an invariant that
every completed iteration preserves holds at the end. -/
theorem childLoop_partial (recurse : Nat → Nat → Indices → Except PackError Indices)
    (lc : Option (List Int)) (e : Nat) (I : List Int → Nat → Indices → Prop)
    (hstep : ∀ j js cb ind ce ind1, I (j :: js) cb ind → scan lc j (e - cb) cb = .ok ce →
      recurse cb ce ind = .ok ind1 → I js ce ind1) :
    ∀ js cb ind ind2, I js cb ind → childLoop recurse lc e js cb ind = .ok ind2 →
      ∃ cb2, I [] cb2 ind2 := by
  intro js
  induction js with
  | nil =>
    intro cb ind ind2 h hr
    simp [childLoop] at hr
    exact ⟨cb, hr ▸ h⟩
  | cons j js ih =>
    intro cb ind ind2 h hr
    unfold childLoop at hr
    split at hr
    · cases hr
    · rename_i ce hs
      split at hr
      · cases hr
      · rename_i ind1 hrec
        exact ih ce ind1 ind2 (hstep j js cb ind ce ind1 h hs hrec) hr

/-! ### Machine integers and `getUniqueEntries` -/
theorem toSizeT_of_nonneg (x : Int) (h0 : 0 ≤ x) (h1 : x < 2 ^ 31) : toSizeT x = x.toNat := by
  unfold toSizeT
  rw [Int.emod_eq_of_lt h0 (by omega)]

theorem toInt_of_lt (n : Nat) (h : n < 2 ^ 31) : toInt n = (n : Int) := by
  unfold toInt
  have h1 : n % 2 ^ 32 = n := Nat.mod_eq_of_lt (by omega)
  rw [h1, if_pos h]

theorem toInt_toSizeT (x : Int) (h0 : 0 ≤ x) (h1 : x < 2 ^ 31) : toInt (toSizeT x) = x := by
  rw [toSizeT_of_nonneg x h0 h1, toInt_of_lt _ (by omega)]
  omega

/-- What a returning run of the loop of `getUniqueEntries` yields on non-negative entries:
the accumulated entries stay strictly ascending and are the old ones and the ones read. -/
theorem uniqueLoop_spec (v : List Int) (hv : ∀ x ∈ v, 0 ≤ x ∧ x < 2 ^ 31) :
    ∀ n it curr acc u, uniqueLoop v n it curr acc = .ok u →
      acc.Sorted (· < ·) → (∀ a ∈ acc, a ≤ (curr : Int)) → (curr : Int) ∈ acc →
      u.Sorted (· < ·) ∧
        ∀ x, x ∈ u ↔ x ∈ acc ∨ ∃ r, it ≤ r ∧ r < it + n ∧ v[r]? = some x := by
  intro n
  induction n with
  | zero =>
    intro it curr acc u h hs _ _
    simp only [uniqueLoop, Except.ok.injEq] at h
    subst h
    refine ⟨hs, fun x => ⟨Or.inl, ?_⟩⟩
    rintro (h | ⟨r, h1, h2, _⟩)
    · exact h
    · omega
  | succ n ih =>
    intro it curr acc u h hs hle hmem
    unfold uniqueLoop at h
    split at h
    · cases h
    · rename_i x hx
      have hxv := hv x (List.getElem?_mem hx)
      have hsz := toSizeT_of_nonneg x hxv.1 hxv.2
      have hti := toInt_toSizeT x hxv.1 hxv.2
      simp only at h
      split at h
      · rename_i hcn
        split at h
        · rename_i hlt
          rw [hti] at h
          have hcx : (curr : Int) < x := by rw [hsz] at hlt; omega
          have hs1 : (acc ++ [x]).Sorted (· < ·) := by
            refine List.pairwise_append.2 ⟨hs, List.pairwise_singleton _ _, ?_⟩
            intro a ha b hb
            rw [List.mem_singleton.1 hb]
            exact lt_of_le_of_lt (hle a ha) hcx
          have hle1 : ∀ a ∈ acc ++ [x], a ≤ ((toSizeT x : Nat) : Int) := by
            intro a ha
            rw [hsz]
            rcases List.mem_append.1 ha with ha | ha
            · have := hle a ha; omega
            · rw [List.mem_singleton.1 ha]; omega
          have hm1 : ((toSizeT x : Nat) : Int) ∈ acc ++ [x] := by
            rw [hsz, Int.toNat_of_nonneg hxv.1]; simp
          obtain ⟨h1, h2⟩ := ih (it + 1) (toSizeT x) (acc ++ [x]) u h hs1 hle1 hm1
          refine ⟨h1, fun y => ?_⟩
          rw [h2 y]
          constructor
          · rintro (hy | ⟨r, hr1, hr2, hr3⟩)
            · rcases List.mem_append.1 hy with hy | hy
              · exact Or.inl hy
              · rw [List.mem_singleton.1 hy]
                exact Or.inr ⟨it, Nat.le_refl _, by omega, hx⟩
            · exact Or.inr ⟨r, by omega, by omega, hr3⟩
          · rintro (hy | ⟨r, hr1, hr2, hr3⟩)
            · exact Or.inl (List.mem_append_left _ hy)
            · rcases Nat.eq_or_lt_of_le hr1 with heq | hlt1
              · subst heq
                rw [hx] at hr3
                cases hr3
                exact Or.inl (by simp)
              · exact Or.inr ⟨r, by omega, by omega, hr3⟩
        · rename_i hnlt
          have hcx : (curr : Int) = x := by rw [hsz] at hnlt hcn; omega
          obtain ⟨h1, h2⟩ := ih (it + 1) curr acc u h hs hle hmem
          refine ⟨h1, fun y => ?_⟩
          rw [h2 y]
          constructor
          · rintro (hy | ⟨r, hr1, hr2, hr3⟩)
            · exact Or.inl hy
            · exact Or.inr ⟨r, by omega, by omega, hr3⟩
          · rintro (hy | ⟨r, hr1, hr2, hr3⟩)
            · exact Or.inl hy
            · rcases Nat.eq_or_lt_of_le hr1 with heq | hlt1
              · subst heq
                rw [hx] at hr3
                cases hr3
                exact Or.inl (hcx ▸ hmem)
              · exact Or.inr ⟨r, by omega, by omega, hr3⟩
      · cases h

/-- A returning call of `getUniqueEntries` on non-negative entries yields a strictly
ascending sequence whose members are the entries of the range. -/
theorem getUniqueEntries_spec (v : List Int) (hv : ∀ x ∈ v, 0 ≤ x ∧ x < 2 ^ 31)
    (b e : Nat) (u : List Int) (h : getUniqueEntries v b e = .ok u) :
    u.Sorted (· < ·) ∧ ∀ x, x ∈ u ↔ ∃ r, b ≤ r ∧ r < e ∧ v[r]? = some x := by
  unfold getUniqueEntries at h
  split at h
  · cases h
  · rename_i hbe
    split at h
    · rename_i hne
      split at h
      · cases h
      · rename_i x hx
        have hxv := hv x (List.getElem?_mem hx)
        rw [toInt_toSizeT x hxv.1 hxv.2] at h
        have hsz := toSizeT_of_nonneg x hxv.1 hxv.2
        obtain ⟨h1, h2⟩ := uniqueLoop_spec v hv _ _ _ _ _ h (List.sorted_singleton x)
          (by intro a ha; rw [List.mem_singleton.1 ha, hsz]; omega)
          (by rw [hsz, Int.toNat_of_nonneg hxv.1]; simp)
        refine ⟨h1, fun y => ?_⟩
        rw [h2 y]
        constructor
        · rintro (hy | ⟨r, hr1, hr2, hr3⟩)
          · rw [List.mem_singleton.1 hy]
            exact ⟨b, Nat.le_refl _, by omega, hx⟩
          · exact ⟨r, by omega, by omega, hr3⟩
        · rintro ⟨r, hr1, hr2, hr3⟩
          rcases Nat.eq_or_lt_of_le hr1 with heq | hlt1
          · subst heq
            rw [hx] at hr3
            cases hr3
            exact Or.inl (by simp)
          · exact Or.inr ⟨r, by omega, by omega, hr3⟩
    · simp only [Except.ok.injEq] at h
      subst h
      refine ⟨List.sorted_nil, fun y => ?_⟩
      simp only [List.not_mem_nil, false_iff, not_exists, not_and]
      intro r h1 h2
      omega

theorem uniqueLoop_total (v : List Int) (hv : ∀ x ∈ v, 0 ≤ x ∧ x < 2 ^ 31) :
    ∀ n it (curr : Nat) acc, it + n ≤ v.length →
      (∀ r, it ≤ r → r < it + n → (curr : Int) ≤ v.getD r 0) →
      (∀ r r1, it ≤ r → r ≤ r1 → r1 < it + n → v.getD r 0 ≤ v.getD r1 0) →
      ∃ u, uniqueLoop v n it curr acc = .ok u := by
  intro n
  induction n with
  | zero => intro it curr acc _ _ _; exact ⟨acc, rfl⟩
  | succ n ih =>
    intro it curr acc hlen hcur hasc
    have hit : it < v.length := by omega
    have hx : v[it]? = some v[it] := List.getElem?_eq_getElem hit
    have hgd : ∀ r, r < v.length → v.getD r 0 = v[r]?.getD 0 := fun r _ =>
      List.getD_eq_getElem?_getD _ _ _
    have hxv := hv v[it] (List.getElem_mem _)
    have hsz := toSizeT_of_nonneg _ hxv.1 hxv.2
    have hc := hcur it (Nat.le_refl _) (by omega)
    rw [List.getD_eq_getElem?_getD, hx, Option.getD_some] at hc
    unfold uniqueLoop
    simp only [hx]
    have hle : curr ≤ toSizeT v[it] := by rw [hsz]; omega
    rw [if_pos hle]
    split
    · apply ih (it + 1) _ _ (by omega)
      · intro r h1 h2
        have := hasc it r (Nat.le_refl _) (by omega) (by omega)
        rw [List.getD_eq_getElem?_getD v it, hx, Option.getD_some] at this
        rw [hsz, Int.toNat_of_nonneg hxv.1]
        exact this
      · intro r r1 h1 h2 h3
        exact hasc r r1 (by omega) h2 (by omega)
    · apply ih (it + 1) _ _ (by omega)
      · intro r h1 h2
        exact hcur r (by omega) (by omega)
      · intro r r1 h1 h2 h3
        exact hasc r r1 (by omega) h2 (by omega)

/-- On a range of non-negative entries in ascending order `getUniqueEntries` returns. -/
theorem getUniqueEntries_total (v : List Int) (hv : ∀ x ∈ v, 0 ≤ x ∧ x < 2 ^ 31)
    (b e : Nat) (hbe : b ≤ e) (he : e ≤ v.length)
    (hasc : ∀ r r1, b ≤ r → r ≤ r1 → r1 < e → v.getD r 0 ≤ v.getD r1 0) :
    ∃ u, getUniqueEntries v b e = .ok u := by
  unfold getUniqueEntries
  rw [if_neg (by omega)]
  split
  · rename_i hne
    have hb : b < v.length := by omega
    have hx : v[b]? = some v[b] := List.getElem?_eq_getElem hb
    have hxv := hv v[b] (List.getElem_mem _)
    simp only [hx]
    apply uniqueLoop_total v hv (e - (b + 1)) (b + 1) _ _ (by omega)
    · intro r h1 h2
      have := hasc b r (Nat.le_refl _) (by omega) (by omega)
      rw [List.getD_eq_getElem?_getD v b, hx, Option.getD_some] at this
      rw [toSizeT_of_nonneg _ hxv.1 hxv.2, Int.toNat_of_nonneg hxv.1]
      exact this
    · intro r r1 h1 h2 h3
      exact hasc r r1 (by omega) h2 (by omega)
  · exact ⟨[], rfl⟩

/-! ### What a returning call of `packIndices` does to the indices -/

/-- Induction principle for returning calls of `packIndices` at levels `≥ i0`: a reflexive
and transitive relation between indices that every Sparse update at a level `≥ i0`
satisfies relates the indices before and after the call. -/
theorem packIndicesFrom_induct (dims : List Nat) (coords : List (List Int))
    (Q : Indices → Indices → Prop) (hrefl : ∀ a, Q a a)
    (htrans : ∀ a b c, Q a b → Q b c → Q a c) (i0 : Nat)
    (hstep : ∀ i (ind : Indices) col b e u (index : Index) seg crd, i0 ≤ i →
      coords[i]? = some col → getUniqueEntries col b e = .ok u → ind[i]? = some index →
      index[0]? = some seg → index[1]? = some crd →
      Q ind (ind.set i (sparseStep index seg crd u))) :
    ∀ levels i b e ind ind1, i0 ≤ i →
      packIndicesFrom dims coords levels i b e ind = .ok ind1 → Q ind ind1 := by
  intro levels
  induction levels with
  | nil => intro i b e ind ind1 _ h; simp [packIndicesFrom] at h
  | cons level rest ih =>
    intro i b e ind ind1 hi h
    obtain ⟨t⟩ := level
    cases t
    · simp only [packIndicesFrom] at h
      split at h
      · cases h
      · obtain ⟨_, hq⟩ := childLoop_partial _ _ _ (fun _ _ ind2 => Q ind ind2)
          (fun j js cb ind2 ce ind3 hq _ hr =>
            htrans _ _ _ hq (ih (i + 1) cb ce ind2 ind3 (by omega) hr))
          _ _ _ _ (hrefl ind) h
        exact hq
    · simp only [packIndicesFrom] at h
      split at h
      · cases h
      · rename_i col hcol
        split at h
        · cases h
        · rename_i u hu
          split at h
          · cases h
          · rename_i index hindex
            split at h
            · rename_i seg crd hseg hcrd
              have h0 := hstep i ind col b e u index seg crd hi hcol hu hindex hseg hcrd
              obtain ⟨_, hq⟩ := childLoop_partial _ _ _ (fun _ _ ind2 => Q ind ind2)
                (fun j js cb ind2 ce ind3 hq _ hr =>
                  htrans _ _ _ hq (ih (i + 1) cb ce ind2 ind3 (by omega) hr))
                _ _ _ _ h0 h
              exact hq
            · cases h
    · simp only [packIndicesFrom, Except.ok.injEq] at h
      exact h ▸ hrefl ind

/-- The Sparse update of an index that consists of a segment-end and a coordinate array. -/
theorem sparseStep_pair (seg crd seg0 crd0 u : List Int) (index : Index)
    (hindex : index = [seg0, crd0]) (hseg : index[0]? = some seg)
    (hcrd : index[1]? = some crd) :
    seg = seg0 ∧ crd = crd0 ∧
      sparseStep index seg crd u
        = [seg0 ++ [((crd0.length + u.length : Nat) : Int)], crd0 ++ u] := by
  subst hindex
  simp only [List.getElem?_cons_zero, Option.some.injEq, List.getElem?_cons_succ] at hseg hcrd
  subst hseg
  subst hcrd
  simp [sparseStep]

/-- A returning call at a level `≥ i0` leaves the indices of the levels below `i0` as they
are and keeps the number of indices. -/
theorem packIndicesFrom_frame (dims : List Nat) (coords : List (List Int)) (i0 : Nat)
    (levels : List Level) (i b e : Nat) (ind ind1 : Indices) (hi : i0 ≤ i)
    (h : packIndicesFrom dims coords levels i b e ind = .ok ind1) :
    ind1.length = ind.length ∧ ∀ l, l < i0 → ind1[l]? = ind[l]? := by
  refine packIndicesFrom_induct dims coords
    (fun a b => b.length = a.length ∧ ∀ l, l < i0 → b[l]? = a[l]?)
    (fun a => ⟨rfl, fun _ _ => rfl⟩)
    (fun a b c h1 h2 => ⟨h2.1.trans h1.1, fun l hl => (h2.2 l hl).trans (h1.2 l hl)⟩) i0
    ?_ levels i b e ind ind1 hi h
  intro i ind col b e u index seg crd hi _ _ _ _ _
  refine ⟨by simp, fun l hl => ?_⟩
  rw [List.getElem?_set]
  rw [if_neg (by omega)]

/-- A returning call extends every Sparse index at the end only. -/
theorem packIndicesFrom_ext (dims : List Nat) (coords : List (List Int))
    (levels : List Level) (i b e : Nat) (ind ind1 : Indices)
    (h : packIndicesFrom dims coords levels i b e ind = .ok ind1) : Ext ind ind1 := by
  refine packIndicesFrom_induct dims coords Ext
    (fun a l seg crd hl => ⟨seg, crd, hl, List.prefix_refl _, List.prefix_refl _⟩)
    (fun a b c h1 h2 l seg crd hl => by
      obtain ⟨s1, c1, hb, hs1, hc1⟩ := h1 l seg crd hl
      obtain ⟨s2, c2, hc, hs2, hc2⟩ := h2 l s1 c1 hb
      exact ⟨s2, c2, hc, hs1.trans hs2, hc1.trans hc2⟩) 0
    ?_ levels i b e ind ind1 (Nat.zero_le _) h
  intro i ind col b e u index seg crd _ _ _ hindex hseg hcrd l seg0 crd0 hl
  by_cases hli : i = l
  · subst hli
    rw [hindex] at hl
    obtain ⟨h1, h2, h3⟩ := sparseStep_pair seg crd seg0 crd0 u index (Option.some.inj hl) hseg hcrd
    have hlt : i < ind.length := (List.getElem?_eq_some.1 hindex).1
    refine ⟨seg0 ++ [((crd0.length + u.length : Nat) : Int)], crd0 ++ u, ?_,
      List.prefix_append _ _, List.prefix_append _ _⟩
    rw [List.getElem?_set, if_pos rfl, if_pos hlt, h3]
  · refine ⟨seg0, crd0, ?_, List.prefix_refl _, List.prefix_refl _⟩
    rw [List.getElem?_set, if_neg hli]
    exact hl

/-! ### The invariant of a Sparse index -/
theorem segment_append (crd u : List Int) (s e : Int) (hs : 0 ≤ s) (he : e ≤ (crd.length : Int)) :
    segment (crd ++ u) s e = segment crd s e := by
  unfold segment
  by_cases hse : s ≤ e
  · rw [List.drop_append_of_le_length (by omega), List.take_append_of_le_length]
    rw [List.length_drop]
    omega
  · have h0 : e.toNat - s.toNat = 0 := by omega
    rw [h0, List.take_zero, List.take_zero]

theorem segment_new (crd u : List Int) :
    segment (crd ++ u) (crd.length : Int) ((crd.length + u.length : Nat) : Int) = u := by
  unfold segment
  have h1 : ((crd.length + u.length : Nat) : Int).toNat - ((crd.length : Nat) : Int).toNat
      = u.length := by omega
  rw [h1]
  simp

theorem sparseStep_segInv (P : List Int → Prop) (seg crd u : List Int) (hP : P u)
    (h : SegInv P [seg, crd]) :
    SegInv P [seg ++ [((crd.length + u.length : Nat) : Int)], crd ++ u] := by
  obtain ⟨seg0, crd0, heq, hhead, hsorted, hlast, hbound, hsegs⟩ := h
  simp only [List.cons.injEq, and_true] at heq
  obtain ⟨rfl, rfl⟩ := heq
  have hne : seg ≠ [] := by rintro rfl; simp at hlast
  refine ⟨_, _, rfl, ?_, ?_, ?_, ?_, ?_⟩
  · cases seg with
    | nil => exact absurd rfl hne
    | cons a t => simpa using hhead
  · refine List.pairwise_append.2 ⟨hsorted, List.pairwise_singleton _ _, ?_⟩
    intro a ha b hb
    rw [List.mem_singleton.1 hb]
    have := (hbound a ha).2
    push_cast
    omega
  · rw [List.getLast?_concat]
    simp
  · intro a ha
    rcases List.mem_append.1 ha with ha | ha
    · have := hbound a ha
      simp only [List.length_append]
      push_cast
      omega
    · rw [List.mem_singleton.1 ha]
      simp only [List.length_append]
      push_cast
      omega
  · intro p s e hs he
    rcases Nat.lt_trichotomy (p + 1) seg.length with hlt | heq | hgt
    · rw [List.getElem?_append_left (by omega)] at hs
      rw [List.getElem?_append_left hlt] at he
      rw [segment_append crd u s e (hbound s (List.getElem?_mem hs)).1
        (hbound e (List.getElem?_mem he)).2]
      exact hsegs p s e hs he
    · rw [List.getElem?_append_left (by omega)] at hs
      rw [List.getElem?_append_right (by omega)] at he
      have hp : p = seg.length - 1 := by omega
      have hs2 : seg.getLast? = some s := by
        rw [List.getLast?_eq_getElem?, ← hp]; exact hs
      rw [hlast] at hs2
      have he2 : e = ((crd.length + u.length : Nat) : Int) := by
        rw [heq] at he
        simpa using he.symm
      rw [← Option.some.inj hs2, he2, segment_new]
      exact hP
    · rw [List.getElem?_eq_none (by simp; omega)] at he
      cases he

/-- A returning call of `packIndices` keeps the invariant of every Sparse index, when the
segments that `getUniqueEntries` yields satisfy `P`. -/
theorem packIndicesFrom_segInv (dims : List Nat) (coords : List (List Int))
    (P : List Int → Prop)
    (hP : ∀ col ∈ coords, ∀ b e u, getUniqueEntries col b e = .ok u → P u)
    (levels : List Level) (i b e : Nat) (ind ind1 : Indices)
    (h : packIndicesFrom dims coords levels i b e ind = .ok ind1) :
    ∀ (l : Nat) (x : Index), ind[l]? = some x → SegInv P x →
      ∃ y, ind1[l]? = some y ∧ SegInv P y := by
  refine packIndicesFrom_induct dims coords
    (fun a b => ∀ (l : Nat) (x : Index), a[l]? = some x → SegInv P x →
      ∃ y, b[l]? = some y ∧ SegInv P y)
    (fun a l x hl hx => ⟨x, hl, hx⟩)
    (fun a b c h1 h2 l x hl hx => by
      obtain ⟨y, hy1, hy2⟩ := h1 l x hl hx
      exact h2 l y hy1 hy2) 0
    ?_ levels i b e ind ind1 (Nat.zero_le _) h
  intro i ind col b e u index seg crd _ hcol hu hindex hseg hcrd l x hl hx
  by_cases hli : i = l
  · subst hli
    rw [hindex] at hl
    cases hl
    obtain ⟨seg0, crd0, heq, hrest⟩ := hx
    obtain ⟨h1, h2, h3⟩ := sparseStep_pair seg crd seg0 crd0 u index heq hseg hcrd
    have hlt : i < ind.length := (List.getElem?_eq_some.1 hindex).1
    refine ⟨_, by rw [List.getElem?_set, if_pos rfl, if_pos hlt], ?_⟩
    rw [h3]
    exact sparseStep_segInv P seg0 crd0 u (hP col (List.getElem?_mem hcol) b e u hu)
      ⟨seg0, crd0, rfl, hrest⟩
  · exact ⟨x, by rw [List.getElem?_set, if_neg hli]; exact hl, hx⟩

/-! ### The structure of `pack` -/

/-- A returning call of `pack`, taken apart. -/
theorem pack_ok (dims : List Nat) (ctype : ComponentType) (format : Format)
    (coords : List (List Int)) (r : PackedTensor) (h : pack dims ctype format coords = .ok r) :
    ∃ ind0 nnz, coords ≠ [] ∧ format ≠ [] ∧ ctype = .Double ∧
      initIndices dims (numCoords coords) format 0 [] 1 = .ok (ind0, nnz) ∧
      packIndicesFrom dims coords format 0 0 (numCoords coords) ind0 = .ok r.indices ∧
      r.nnz = nnz := by
  unfold pack at h
  split at h
  · cases h
  · rename_i c0 cs
    split at h
    · cases h
    · rename_i hf
      split at h
      · cases h
      · rename_i ind nnz hinit
        split at h
        · cases h
        · rename_i ind1 hpk
          split at h
          · rename_i hct
            cases h
            refine ⟨ind, nnz, by simp, ?_, hct, by simpa [numCoords] using hinit,
              by simpa [numCoords, packIndices] using hpk, rfl⟩
            intro hnil
            exact hf (by rw [hnil]; rfl)
          · cases h

/-- The indices that the first loop of `pack` allocates: it appends to the ones it has
and gives every Sparse level the index with the segment-end array [0]. -/
theorem initIndices_sparse (dims : List Nat) (tuples : Nat) :
    ∀ levels i (ind : Indices) nnz ind1 nnz1, ind.length ≤ i →
      initIndices dims tuples levels i ind nnz = .ok (ind1, nnz1) →
      (∀ l, l < ind.length → ind1[l]? = ind[l]?) ∧
        ∀ k, levels[k]? = some (⟨.Sparse⟩ : Level) → ind1[i + k]? = some [[0], []] := by
  intro levels
  induction levels with
  | nil =>
    intro i ind nnz ind1 nnz1 _ h
    simp only [initIndices, Except.ok.injEq, Prod.mk.injEq] at h
    refine ⟨fun l _ => by rw [h.1], fun k hk => by simp at hk⟩
  | cons level rest ih =>
    intro i ind nnz ind1 nnz1 hlen h
    obtain ⟨t⟩ := level
    cases t
    · simp only [initIndices] at h
      split at h
      · cases h
      · obtain ⟨h1, h2⟩ := ih (i + 1) _ _ _ _ (by simp; omega) h
        refine ⟨fun l hl => ?_, fun k hk => ?_⟩
        · rw [h1 l (by simp; omega), List.getElem?_append_left hl]
        · cases k with
          | zero => simp at hk
          | succ k =>
            have := h2 k (by simpa using hk)
            rw [← this]
            congr 1
            omega
    · simp only [initIndices] at h
      split at h
      · cases h
      · rename_i index hindex
        have hi : i = ind.length := by
          have := (List.getElem?_eq_some.1 hindex).1
          simp at this
          omega
        subst hi
        rw [List.getElem?_append_right (Nat.le_refl _)] at hindex
        simp only [Nat.sub_self, List.getElem?_cons_zero, Option.some.injEq] at hindex
        subst hindex
        simp only [List.getElem?_cons_zero, List.nil_append, List.set_cons_zero] at h
        have hset : (ind ++ [[[], []]]).set ind.length [[0], []] = ind ++ [[[0], []]] := by
          rw [List.set_append_right _ _ (Nat.le_refl _)]
          simp
        rw [hset] at h
        obtain ⟨h1, h2⟩ := ih (ind.length + 1) _ _ _ _ (by simp) h
        refine ⟨fun l hl => ?_, fun k hk => ?_⟩
        · rw [h1 l (by simp; omega), List.getElem?_append_left hl]
        · cases k with
          | zero =>
            rw [Nat.add_zero, h1 ind.length (by simp),
              List.getElem?_append_right (Nat.le_refl _)]
            simp
          | succ k =>
            have := h2 k (by simpa using hk)
            rw [← this]
            congr 1
            omega
    · simp only [initIndices] at h
      obtain ⟨h1, h2⟩ := ih (i + 1) _ _ _ _ (by omega) h
      refine ⟨h1, fun k hk => ?_⟩
      cases k with
      | zero => simp at hk
      | succ k =>
        have := h2 k (by simpa using hk)
        rw [← this]
        congr 1
        omega

theorem segInv_initial (P : List Int → Prop) : SegInv P [[0], []] := by
  refine ⟨[0], [], rfl, rfl, List.sorted_singleton _, rfl, ?_, ?_⟩
  · intro a ha
    rw [List.mem_singleton.1 ha]
    simp
  · intro p s e _ he
    simp at he

/-- Every Sparse level of a result of `pack` has an index that satisfies the invariant. -/
theorem pack_segInv (dims : List Nat) (ctype : ComponentType) (format : Format)
    (coords : List (List Int)) (r : PackedTensor) (P : List Int → Prop)
    (hP : ∀ col ∈ coords, ∀ b e u, getUniqueEntries col b e = .ok u → P u)
    (h : pack dims ctype format coords = .ok r) (i : Nat)
    (hi : format[i]? = some (⟨.Sparse⟩ : Level)) :
    ∃ index, r.indices[i]? = some index ∧ SegInv P index := by
  obtain ⟨ind0, nnz, _, _, _, hinit, hpk, _⟩ := pack_ok dims ctype format coords r h
  have h0 := (initIndices_sparse dims _ format 0 [] 1 ind0 nnz (Nat.le_refl _) hinit).2 i hi
  rw [Nat.zero_add] at h0
  exact packIndicesFrom_segInv dims coords P hP format 0 0 _ ind0 r.indices hpk i _ h0
    (segInv_initial P)

theorem segments_length_sum (crd : List Int) :
    ∀ (t : List Int) (a0 : Int), (a0 :: t).Sorted (· ≤ ·) →
      (∀ a ∈ a0 :: t, 0 ≤ a ∧ a ≤ (crd.length : Int)) →
      (((segments (a0 :: t) crd).map List.length).sum : Int)
        = ((a0 :: t).getLast?.getD 0) - a0 := by
  intro t
  induction t with
  | nil => intro a0 _ _; simp [segments]
  | cons a1 t ih =>
    intro a0 hs hb
    have hs1 : (a1 :: t).Sorted (· ≤ ·) := (List.pairwise_cons.1 hs).2
    have h01 : a0 ≤ a1 := (List.pairwise_cons.1 hs).1 a1 (List.mem_cons_self _ _)
    have hb0 := hb a0 (List.mem_cons_self _ _)
    have hb1 := hb a1 (List.mem_cons_of_mem _ (List.mem_cons_self _ _))
    have ih1 := ih a1 hs1 (fun a ha => hb a (List.mem_cons_of_mem _ ha))
    have hlen : (segment crd a0 a1).length = a1.toNat - a0.toNat := by
      unfold segment
      rw [List.length_take, List.length_drop]
      omega
    have hlast : (a0 :: a1 :: t).getLast? = (a1 :: t).getLast? := by
      simp [List.getLast?_cons_cons]
    simp only [segments, List.tail_cons, List.zipWith_cons_cons, List.map_cons, List.sum_cons,
      Nat.cast_add] at ih1 ⊢
    rw [hlast, hlen]
    have : (((List.zipWith (segment crd) (a1 :: t) t).map List.length).sum : Int)
        = (a1 :: t).getLast?.getD 0 - a1 := by exact_mod_cast ih1
    rw [this]
    omega

/-! ### Counting the segments -/
theorem denseValues_length (n : Int) : (denseValues n).length = n.toNat := by
  unfold denseValues
  rw [List.length_map, List.length_range]

theorem ready_congr (dims : List Nat) (ind ind1 : Indices) :
    ∀ levels i p, (∀ l, i ≤ l → ind1[l]? = ind[l]?) →
      Ready dims ind levels i p → Ready dims ind1 levels i p := by
  intro levels
  induction levels with
  | nil => intro i p _ _; trivial
  | cons level rest ih =>
    intro i p hl h
    obtain ⟨t⟩ := level
    cases t
    · simp only [Ready] at h ⊢
      exact ih (i + 1) _ (fun l h1 => hl l (by omega)) h
    · simp only [Ready] at h ⊢
      obtain ⟨seg, crd, h1, h2, h3, h4⟩ := h
      exact ⟨seg, crd, by rw [hl i (Nat.le_refl _)]; exact h1, h2, h3,
        ih (i + 1) _ (fun l h1 => hl l (by omega)) h4⟩
    · trivial

/-- A returning call of `packIndices` at level `i` for parent position `p` leaves the
indices ready for parent position `p + 1`. -/
theorem packIndicesFrom_ready (dims : List Nat) (coords : List (List Int)) :
    ∀ levels i b e p ind ind1, Ready dims ind levels i p →
      packIndicesFrom dims coords levels i b e ind = .ok ind1 →
      Ready dims ind1 levels i (p + 1) := by
  intro levels
  induction levels with
  | nil => intro i b e p ind ind1 _ h; simp [packIndicesFrom] at h
  | cons level rest ih =>
    intro i b e p ind ind1 hr h
    obtain ⟨t⟩ := level
    cases t
    · simp only [packIndicesFrom] at h
      split at h
      · cases h
      · rename_i d hd
        simp only [Ready, List.getD_eq_getElem?_getD, hd, Option.getD_some] at hr ⊢
        obtain ⟨_, k, hk, hrk⟩ := childLoop_partial _ _ _
          (fun rem _ ind2 => ∃ k, k + rem.length = denseCount d ∧
            Ready dims ind2 rest (i + 1) (p * denseCount d + k))
          (fun j js cb ind2 ce ind3 hq _ hrec => by
            obtain ⟨k, hk, hrk⟩ := hq
            refine ⟨k + 1, by simp at hk; omega, ?_⟩
            exact ih (i + 1) cb ce _ ind2 ind3 hrk hrec)
          _ _ _ _ ⟨0, by rw [denseValues_length, denseCount, Nat.zero_add], hr⟩ h
        simp only [List.length_nil, Nat.add_zero] at hk
        subst hk
        rw [Nat.add_mul, Nat.one_mul]
        exact hrk
    · simp only [packIndicesFrom] at h
      split at h
      · cases h
      · rename_i col hcol
        split at h
        · cases h
        · rename_i u hu
          split at h
          · cases h
          · rename_i index hindex
            split at h
            · rename_i seg crd hseg hcrd
              simp only [Ready] at hr ⊢
              obtain ⟨seg0, crd0, h1, h2, h3, h4⟩ := hr
              rw [hindex] at h1
              obtain ⟨rfl, rfl, hstep⟩ :=
                sparseStep_pair seg crd seg0 crd0 u index (Option.some.inj h1) hseg hcrd
              rw [hstep] at h
              have hlt : i < ind.length := (List.getElem?_eq_some.1 hindex).1
              obtain ⟨_, ⟨k, hk, hrk⟩, hfix⟩ := childLoop_partial _ _ _
                (fun rem _ ind2 => (∃ k, k + rem.length = u.length ∧
                    Ready dims ind2 rest (i + 1) (crd.length + k)) ∧
                  ind2[i]? = some [seg ++ [((crd.length + u.length : Nat) : Int)], crd ++ u])
                (fun j js cb ind2 ce ind3 hq _ hrec => by
                  obtain ⟨⟨k, hk, hrk⟩, hfix⟩ := hq
                  refine ⟨⟨k + 1, by simp at hk; omega, ?_⟩, ?_⟩
                  · exact ih (i + 1) cb ce _ ind2 ind3 hrk hrec
                  · rw [(packIndicesFrom_frame dims coords (i + 1) rest (i + 1) cb ce ind2 ind3
                      (Nat.le_refl _) hrec).2 i (by omega)]
                    exact hfix)
                _ _ _ _
                ⟨⟨0, by simp, ready_congr dims ind _ rest (i + 1) _
                    (fun l hl => by rw [List.getElem?_set, if_neg (by omega)]) h4⟩,
                  by rw [List.getElem?_set, if_pos rfl, if_pos hlt]⟩ h
              simp only [List.length_nil, Nat.add_zero] at hk
              subst hk
              refine ⟨_, _, hfix, by simp [h2], by rw [List.getLast?_concat]; simp, ?_⟩
              simpa using hrk
            · cases h
    · trivial

/-- Where every Sparse level has the index with the segment-end array [0], the indices are
ready for the root position 0. -/
theorem ready_initial (dims : List Nat) (ind : Indices) :
    ∀ levels i, (∀ k, levels[k]? = some (⟨.Sparse⟩ : Level) → ind[i + k]? = some [[0], []]) →
      Ready dims ind levels i 0 := by
  intro levels
  induction levels with
  | nil => intro i _; trivial
  | cons level rest ih =>
    intro i h
    have hrest : ∀ k, rest[k]? = some (⟨.Sparse⟩ : Level) → ind[i + 1 + k]? = some [[0], []] := by
      intro k hk
      have := h (k + 1) (by simpa using hk)
      rw [← this]
      congr 1
      omega
    obtain ⟨t⟩ := level
    cases t
    · simp only [Ready, Nat.zero_mul]
      exact ih (i + 1) hrest
    · simp only [Ready]
      exact ⟨[0], [], by simpa using h 0 (by simp), rfl, rfl, ih (i + 1) hrest⟩
    · trivial

/-- The indices of a result of `pack` are ready for a second root position. -/
theorem pack_ready (dims : List Nat) (ctype : ComponentType) (format : Format)
    (coords : List (List Int)) (r : PackedTensor) (h : pack dims ctype format coords = .ok r) :
    Ready dims r.indices format 0 1 := by
  obtain ⟨ind0, nnz, _, _, _, hinit, hpk, _⟩ := pack_ok dims ctype format coords r h
  have h0 := (initIndices_sparse dims _ format 0 [] 1 ind0 nnz (Nat.le_refl _) hinit).2
  exact packIndicesFrom_ready dims coords format 0 0 _ 0 ind0 r.indices
    (ready_initial dims ind0 format 0 h0) hpk

/-! ### The stored-value count -/
theorem initIndices_count (dims : List Nat) (tuples : Nat) :
    ∀ levels i ind nnz ind1 nnz1,
      initIndices dims tuples levels i ind nnz = .ok (ind1, nnz1) →
      nnz1 = runningCount dims tuples levels i nnz := by
  intro levels
  induction levels with
  | nil => intro i ind nnz ind1 nnz1 h; simp [initIndices] at h; simp [runningCount, h.2]
  | cons level rest ih =>
    intro i ind nnz ind1 nnz1 h
    obtain ⟨t⟩ := level
    cases t
    · simp only [initIndices] at h
      split at h
      · cases h
      · rename_i d hd
        have := ih _ _ _ _ _ h
        simp [runningCount, this, List.getD_eq_getElem?_getD, hd]
    · simp only [initIndices] at h
      split at h
      · cases h
      · split at h
        · cases h
        · have := ih _ _ _ _ _ h
          simp [runningCount, this]
    · simp only [initIndices] at h
      have := ih _ _ _ _ _ h
      simp [runningCount, this]

theorem pack_nnz (dims : List Nat) (ctype : ComponentType) (format : Format)
    (coords : List (List Int)) (r : PackedTensor) (h : pack dims ctype format coords = .ok r) :
    r.nnz = runningCount dims (numCoords coords) format 0 1 := by
  unfold pack at h
  split at h
  · cases h
  · rename_i c0 cs
    split at h
    · cases h
    · split at h
      · cases h
      · rename_i ind nnz hinit
        split at h
        · cases h
        · split at h
          · cases h
            simpa [numCoords] using initIndices_count _ _ _ _ _ _ _ _ hinit
          · cases h

theorem runningCount_noSparse (dims : List Nat) (tuples : Nat) :
    ∀ levels i count, (∀ l ∈ levels, l.type ≠ .Sparse) → count < 2 ^ 64 →
      runningCount dims tuples levels i count
        = count * (denseExtents dims levels i).prod % 2 ^ 64 := by
  intro levels
  induction levels with
  | nil =>
    intro i count _ hc
    simp only [runningCount, denseExtents, List.prod_nil, Nat.mul_one]
    exact (Nat.mod_eq_of_lt hc).symm
  | cons level rest ih =>
    intro i count hl hc
    have hrest : ∀ l ∈ rest, l.type ≠ .Sparse := fun l hm => hl l (List.mem_cons_of_mem _ hm)
    have hlev := hl level (List.mem_cons_self _ _)
    obtain ⟨t⟩ := level
    cases t
    · simp only [runningCount, denseExtents, if_true, List.prod_cons]
      rw [ih (i + 1) _ hrest (Nat.mod_lt _ (by norm_num)), Nat.mod_mul_mod, Nat.mul_assoc]
    · exact absurd rfl hlev
    · simp only [runningCount, denseExtents]
      rw [ih (i + 1) _ hrest hc]
      simp

theorem runningCount_afterSparse (dims : List Nat) (tuples : Nat) :
    ∀ pre post i count,
      runningCount dims tuples (pre ++ (⟨.Sparse⟩ : Level) :: post) i count
        = runningCount dims tuples post (i + pre.length + 1) tuples := by
  intro pre
  induction pre with
  | nil => intro post i count; simp [runningCount]
  | cons level rest ih =>
    intro post i count
    obtain ⟨t⟩ := level
    have hi : i + 1 + rest.length + 1 = i + (rest.length + 1) + 1 := by omega
    cases t <;>
      (rw [List.cons_append]; simp only [runningCount, List.length_cons]; rw [ih, hi])

/-! ### All-Dense formats -/
theorem packIndicesFrom_allDense (dims : List Nat) (coords : List (List Int)) (N : Nat) :
    ∀ k i b e ind, b ≤ e → e ≤ N →
      (∀ l, i ≤ l → l < i + k → ∃ col, coords[l]? = some col ∧ N ≤ col.length) →
      (∀ l, i ≤ l → l < i + k → ∃ d, dims[l]? = some d) →
      packIndicesFrom dims coords (List.replicate k (⟨.Dense⟩ : Level) ++ [⟨.Values⟩]) i b e ind
        = .ok ind := by
  intro k
  induction k with
  | zero => intro i b e ind _ _ _ _; simp [packIndicesFrom]
  | succ k ih =>
    intro i b e ind hbe heN hcol hdim
    obtain ⟨col, hc, hlen⟩ := hcol i (Nat.le_refl _) (by omega)
    obtain ⟨d, hd⟩ := hdim i (Nat.le_refl _) (by omega)
    rw [List.replicate_succ, List.cons_append]
    simp only [packIndicesFrom, hd, hc]
    have key := childLoop_total
      (fun cbegin cend ind => packIndicesFrom dims coords
        (List.replicate k (⟨.Dense⟩ : Level) ++ [⟨.Values⟩]) (i + 1) cbegin cend ind)
      (some col) e (fun _ cb ind1 => cb ≤ e ∧ ind1 = ind)
      (by
        rintro j js cb ind1 ⟨hcb, rfl⟩
        obtain ⟨ce, hs⟩ := scan_total col j (e - cb) cb (by omega)
        have hb := scan_bounds _ _ _ _ _ hs
        refine ⟨ce, ind1, hs, ?_, by omega, rfl⟩
        exact ih (i + 1) cb ce ind1 hb.1 (by omega)
          (fun l h1 h2 => hcol l (by omega) (by omega))
          (fun l h1 h2 => hdim l (by omega) (by omega)))
      (denseValues (toInt d)) b ind ⟨hbe, rfl⟩
    obtain ⟨cb1, ind1, h1, _, h2⟩ := key
    rw [h1, h2]

theorem initIndices_allDense (dims : List Nat) (tuples : Nat) :
    ∀ k i ind nnz, (∀ l, i ≤ l → l < i + k → ∃ d, dims[l]? = some d) →
      ∃ nnz1, initIndices dims tuples (List.replicate k (⟨.Dense⟩ : Level) ++ [⟨.Values⟩]) i ind nnz
        = .ok (ind ++ List.replicate k [], nnz1) := by
  intro k
  induction k with
  | zero => intro i ind nnz _; exact ⟨nnz, by simp [initIndices]⟩
  | succ k ih =>
    intro i ind nnz hdim
    obtain ⟨d, hd⟩ := hdim i (Nat.le_refl _) (by omega)
    obtain ⟨nnz1, h⟩ := ih (i + 1) (ind ++ [[]]) (nnz * d % 2 ^ 64)
      (fun l h1 h2 => hdim l (by omega) (by omega))
    refine ⟨nnz1, ?_⟩
    rw [List.replicate_succ, List.cons_append]
    simp only [initIndices, hd, h]
    simp [List.replicate_succ]

theorem denseExtents_allDense (dims : List Nat) :
    ∀ k i, dims.length = i + k →
      denseExtents dims (List.replicate k (⟨.Dense⟩ : Level) ++ [⟨.Values⟩]) i = dims.drop i := by
  intro k
  induction k with
  | zero =>
    intro i h
    simp [denseExtents, List.drop_eq_nil_of_le (Nat.le_of_eq h)]
    omega
  | succ k ih =>
    intro i h
    have hi : i < dims.length := by omega
    rw [List.replicate_succ, List.cons_append]
    simp only [denseExtents, if_true]
    rw [ih (i + 1) (by omega), List.drop_eq_getElem_cons hi, List.getD_eq_getElem?_getD,
      List.getElem?_eq_getElem hi]
    rfl

/-- Where the first loop of `pack` returns, no Values level precedes a Sparse level. -/
theorem initIndices_noValuesBefore (dims : List Nat) (tuples : Nat) :
    ∀ levels i (ind : Indices) nnz ind1 nnz1, ind.length ≤ i →
      initIndices dims tuples levels i ind nnz = .ok (ind1, nnz1) →
      ∀ k : Nat, levels[k]? = some (⟨.Sparse⟩ : Level) →
        ind.length = i ∧
          ∀ k1 : Nat, k1 < k → ∃ l : Level, levels[k1]? = some l ∧ l.type ≠ .Values := by
  intro levels
  induction levels with
  | nil => intro i ind nnz ind1 nnz1 _ _ k hk; simp at hk
  | cons level rest ih =>
    intro i ind nnz ind1 nnz1 hlen h k hk
    obtain ⟨t⟩ := level
    cases t
    · simp only [initIndices] at h
      split at h
      · cases h
      · cases k with
        | zero => simp at hk
        | succ k =>
          obtain ⟨h1, h2⟩ := ih (i + 1) _ _ _ _ (by simp; omega) h k (by simpa using hk)
          simp at h1
          refine ⟨h1, fun k1 hk1 => ?_⟩
          cases k1 with
          | zero => exact ⟨⟨.Dense⟩, by simp, by decide⟩
          | succ k1 => simpa using h2 k1 (by omega)
    · simp only [initIndices] at h
      split at h
      · cases h
      · rename_i index hindex
        have hi : i = ind.length := by
          have := (List.getElem?_eq_some.1 hindex).1
          simp at this
          omega
        subst hi
        rw [List.getElem?_append_right (Nat.le_refl _)] at hindex
        simp only [Nat.sub_self, List.getElem?_cons_zero, Option.some.injEq] at hindex
        subst hindex
        simp only [List.getElem?_cons_zero, List.nil_append, List.set_cons_zero] at h
        cases k with
        | zero => exact ⟨rfl, fun k1 hk1 => by omega⟩
        | succ k =>
          obtain ⟨_, h2⟩ := ih (ind.length + 1) _ _ _ _ (by simp) h k (by simpa using hk)
          refine ⟨rfl, fun k1 hk1 => ?_⟩
          cases k1 with
          | zero => exact ⟨⟨.Sparse⟩, by simp, by decide⟩
          | succ k1 => simpa using h2 k1 (by omega)
    · simp only [initIndices] at h
      cases k with
      | zero => simp at hk
      | succ k =>
        obtain ⟨h1, _⟩ := ih (i + 1) _ _ _ _ (by omega) h k (by simpa using hk)
        omega

/-- Along a prefix of Dense and Sparse levels, indices that are ready at the root for
position `p0` are ready at level `j` for position `P(j)`. -/
theorem ready_parentEntries (dims : List Nat) (ind : Indices) (levels : List Level) :
    ∀ j, (∀ k : Nat, k < j → ∃ l : Level, levels[k]? = some l ∧ l.type ≠ .Values) →
      Ready dims ind levels 0 1 →
      Ready dims ind (levels.drop j) j (parentEntries denseCount dims ind levels j) := by
  intro j
  induction j with
  | zero => intro _ h; simpa [parentEntries] using h
  | succ j ih =>
    intro hk h
    have hj := ih (fun k hk1 => hk k (by omega)) h
    obtain ⟨l, hl, hlv⟩ := hk j (Nat.lt_succ_self _)
    obtain ⟨hlt, hlj⟩ := List.getElem?_eq_some.1 hl
    rw [List.drop_eq_getElem_cons hlt, hlj] at hj
    have hgd : levels.getD j ⟨.Values⟩ = l := by
      rw [List.getD_eq_getElem?_getD, hl, Option.getD_some]
    obtain ⟨t⟩ := l
    cases t
    · simp only [Ready] at hj
      simp only [parentEntries, hgd]
      exact hj
    · simp only [Ready] at hj
      obtain ⟨seg, crd, h1, _, _, h4⟩ := hj
      simp only [parentEntries, hgd, crdArray, List.getD_eq_getElem?_getD, h1, Option.getD_some,
        List.getElem?_cons_succ, List.getElem?_cons_zero]
      exact h4
    · exact absurd rfl hlv

/-! ### Runs, rows and the traversal -/

/-- What the scan returns on a sequence that is long enough: the end of the run of `j`
that starts at `cb`. -/
theorem scan_spec (col : List Int) (j : Int) :
    ∀ n cb ce, cb + n ≤ col.length → scan (some col) j n cb = .ok ce →
      cb ≤ ce ∧ ce ≤ cb + n ∧ (∀ r, cb ≤ r → r < ce → col.getD r 0 = j) ∧
        (ce < cb + n → col.getD ce 0 ≠ j) := by
  intro n
  induction n with
  | zero =>
    intro cb ce _ h
    simp only [scan, Except.ok.injEq] at h
    subst h
    exact ⟨Nat.le_refl _, Nat.le_refl _, fun r h1 h2 => by omega, fun h => by omega⟩
  | succ n ih =>
    intro cb ce hlen h
    have hlt : cb < col.length := by omega
    have hg : col.getD cb 0 = col[cb] := by
      rw [List.getD_eq_getElem?_getD, List.getElem?_eq_getElem hlt, Option.getD_some]
    unfold scan at h
    simp only [List.getElem?_eq_getElem hlt] at h
    split at h
    · rename_i hj
      obtain ⟨h1, h2, h3, h4⟩ := ih (cb + 1) ce (by omega) h
      refine ⟨by omega, by omega, fun r hr1 hr2 => ?_, fun hc => h4 (by omega)⟩
      rcases Nat.eq_or_lt_of_le hr1 with heq | hlt1
      · rw [← heq, hg]; exact hj
      · exact h3 r (by omega) hr2
    · rename_i hj
      simp only [Except.ok.injEq] at h
      subst h
      exact ⟨Nat.le_refl _, by omega, fun r h1 h2 => by omega, fun _ => by rw [hg]; exact hj⟩

theorem rowFrom_cons (coords : List (List Int)) (i r : Nat) (col : List Int)
    (h : coords[i]? = some col) :
    rowFrom coords i r = col.getD r 0 :: rowFrom coords (i + 1) r := by
  obtain ⟨hlt, hc⟩ := List.getElem?_eq_some.1 h
  unfold rowFrom
  rw [List.drop_eq_getElem_cons hlt, hc, List.map_cons]

theorem rowFrom_nil (coords : List (List Int)) (i r : Nat) (h : coords.length ≤ i) :
    rowFrom coords i r = [] := by
  unfold rowFrom
  rw [List.drop_eq_nil_of_le h, List.map_nil]

theorem lexLe_cons (a b : Int) (as bs : List Int) :
    lexLe (a :: as) (b :: bs) = true ↔ a < b ∨ (a = b ∧ lexLe as bs = true) := by
  simp [lexLe]

theorem ext_refl (a : Indices) : Ext a a :=
  fun _ seg crd hl => ⟨seg, crd, hl, List.prefix_refl _, List.prefix_refl _⟩

theorem ext_trans (a b c : Indices) (h1 : Ext a b) (h2 : Ext b c) : Ext a c := by
  intro l seg crd hl
  obtain ⟨s1, c1, hb, hs1, hc1⟩ := h1 l seg crd hl
  obtain ⟨s2, c2, hc, hs2, hc2⟩ := h2 l s1 c1 hb
  exact ⟨s2, c2, hc, hs1.trans hs2, hc1.trans hc2⟩

theorem mem_traverse_values (dims : List Nat) (ind : Indices) (rest : List Level) (i p : Nat)
    (t : List Int) : t ∈ traverse dims ind ((⟨.Values⟩ : Level) :: rest) i p ↔ t = [] := by
  simp [traverse]

theorem mem_traverse_dense (dims : List Nat) (ind : Indices) (rest : List Level) (i p : Nat)
    (t : List Int) :
    t ∈ traverse dims ind ((⟨.Dense⟩ : Level) :: rest) i p ↔
      ∃ j, j < dims.getD i 0 ∧
        ∃ tl, tl ∈ traverse dims ind rest (i + 1) (p * dims.getD i 0 + j) ∧
          t = (j : Int) :: tl := by
  simp only [traverse, denseChildren, List.mem_flatMap, List.mem_map, List.mem_range]
  constructor
  · rintro ⟨kx, ⟨j, hj, rfl⟩, tl, htl, rfl⟩
    exact ⟨j, hj, tl, htl, rfl⟩
  · rintro ⟨j, hj, tl, htl, rfl⟩
    exact ⟨_, ⟨j, hj, rfl⟩, tl, htl, rfl⟩

theorem mem_traverse_sparse (dims : List Nat) (ind : Indices) (rest : List Level) (i p : Nat)
    (t : List Int) :
    t ∈ traverse dims ind ((⟨.Sparse⟩ : Level) :: rest) i p ↔
      ∃ k x, (k, x) ∈ sparseChildren ind i p ∧
        ∃ tl, tl ∈ traverse dims ind rest (i + 1) k ∧ t = x :: tl := by
  simp only [traverse, List.mem_flatMap, List.mem_map]
  constructor
  · rintro ⟨⟨k, x⟩, hkx, tl, htl, rfl⟩
    exact ⟨k, x, hkx, tl, htl, rfl⟩
  · rintro ⟨k, x, hkx, tl, htl, rfl⟩
    exact ⟨(k, x), hkx, tl, htl, rfl⟩

/-- The children of the parent position whose segment a call of `packIndices` has stored:
the entries of `u`, at the positions behind the old coordinate array. -/
theorem mem_sparseChildren (ind : Indices) (i p : Nat) (seg crd u seg2 crd2 : List Int)
    (hind : ind[i]? = some [seg2, crd2])
    (hseg : seg ++ [((crd.length + u.length : Nat) : Int)] <+: seg2)
    (hcrd : crd ++ u <+: crd2) (hp : seg.length = p + 1)
    (hlast : seg.getLast? = some (crd.length : Int)) (k : Nat) (x : Int) :
    (k, x) ∈ sparseChildren ind i p ↔ ∃ t, k = crd.length + t ∧ u[t]? = some x := by
  obtain ⟨s3, rfl⟩ := hseg
  obtain ⟨c3, rfl⟩ := hcrd
  have h1 : segArray ind i = seg ++ [((crd.length + u.length : Nat) : Int)] ++ s3 := by
    simp [segArray, List.getD_eq_getElem?_getD, hind]
  have h2 : crdArray ind i = crd ++ u ++ c3 := by
    simp [crdArray, List.getD_eq_getElem?_getD, hind]
  have hsp : (seg ++ [((crd.length + u.length : Nat) : Int)] ++ s3)[p]?
      = some (crd.length : Int) := by
    rw [List.append_assoc, List.getElem?_append_left (by omega), ← hlast,
      List.getLast?_eq_getElem?]
    congr 1
    omega
  have hsp1 : (seg ++ [((crd.length + u.length : Nat) : Int)] ++ s3)[p + 1]?
      = some ((crd.length + u.length : Nat) : Int) := by
    rw [List.append_assoc, List.getElem?_append_right (by omega)]
    simp [hp]
  unfold sparseChildren
  rw [h1, h2, hsp, hsp1]
  simp only [List.mem_filterMap, List.mem_range'_1, Option.map_eq_some', Prod.mk.injEq]
  have hw : ((crd.length + u.length : Nat) : Int).toNat - ((crd.length : Nat) : Int).toNat
      = u.length := by omega
  rw [hw, Int.toNat_natCast]
  constructor
  · rintro ⟨k1, ⟨hk1, hk2⟩, y, hy, rfl, rfl⟩
    refine ⟨k1 - crd.length, by omega, ?_⟩
    rw [List.append_assoc, List.getElem?_append_right hk1,
      List.getElem?_append_left (by omega)] at hy
    exact hy
  · rintro ⟨t, rfl, ht⟩
    have htl : t < u.length := (List.getElem?_eq_some.1 ht).1
    refine ⟨crd.length + t, ⟨by omega, by omega⟩, x, ?_, rfl, rfl⟩
    rw [List.append_assoc, List.getElem?_append_right (by omega),
      List.getElem?_append_left (by omega)]
    rw [← ht]
    congr 1
    omega

theorem sorted_getElem?_lt (js : List Int) (hjs : js.Sorted (· < ·)) (t1 t : Nat) (a b : Int)
    (h1 : js[t1]? = some a) (h2 : js[t]? = some b) (hlt : t1 < t) : a < b := by
  obtain ⟨hl1, rfl⟩ := List.getElem?_eq_some.1 h1
  obtain ⟨hl2, rfl⟩ := List.getElem?_eq_some.1 h2
  exact List.pairwise_iff_getElem.1 hjs t1 t hl1 hl2 hlt

/-- The tuples of a range that is sorted from level `i` on ascend at level `i`. -/
theorem sortedFrom_ascending (coords : List (List Int)) (i b e : Nat) (col : List Int)
    (hcol : coords[i]? = some col) (hsorted : SortedFrom coords i b e) :
    ∀ r r1, b ≤ r → r ≤ r1 → r1 < e → col.getD r 0 ≤ col.getD r1 0 := by
  intro r r1 h1 h2 h3
  rcases Nat.eq_or_lt_of_le h2 with heq | hlt
  · rw [heq]
  · have := hsorted r r1 h1 hlt h3
    rw [rowFrom_cons coords i r col hcol, rowFrom_cons coords i r1 col hcol, lexLe_cons] at this
    rcases this with h | ⟨h, _⟩
    · exact le_of_lt h
    · exact le_of_eq h

/-- A run of equal coordinates at level `i` is sorted from level `i + 1` on. -/
theorem sortedFrom_run (coords : List (List Int)) (i b e cb ce : Nat) (col : List Int) (j : Int)
    (hcol : coords[i]? = some col) (hsorted : SortedFrom coords i b e)
    (hb : b ≤ cb) (he : ce ≤ e) (hrun : ∀ r, cb ≤ r → r < ce → col.getD r 0 = j) :
    SortedFrom coords (i + 1) cb ce := by
  intro r r1 h1 h2 h3
  have := hsorted r r1 (by omega) h2 (by omega)
  rw [rowFrom_cons coords i r col hcol, rowFrom_cons coords i r1 col hcol, lexLe_cons,
    hrun r h1 (by omega), hrun r1 (by omega) h3] at this
  rcases this with h | ⟨_, h⟩
  · exact absurd h (lt_irrefl _)
  · exact h

/-- The child loop on a sorted range whose coordinates at this level all occur in the
strictly ascending list `js` of child values: it returns, the run of the `t`-th value is
packed for parent position `q0 + t` of the next level, and runs cover the range. -/
theorem childLoop_sorted (dims : List Nat) (coords : List (List Int)) (rest : List Level)
    (i : Nat) (col : List Int) (b e q0 : Nat) (js : List Int) (ind0 : Indices)
    (hcol : coords[i]? = some col) (hlen : e ≤ col.length) (hbe : b ≤ e)
    (hsorted : SortedFrom coords i b e) (hjs : js.Sorted (· < ·))
    (hH : ∀ r, b ≤ r → r < e → col.getD r 0 ∈ js)
    (hready : Ready dims ind0 rest (i + 1) q0)
    (IH : ∀ cb ce q ind, cb ≤ ce → ce ≤ e → SortedFrom coords (i + 1) cb ce →
      Ready dims ind rest (i + 1) q →
      ∃ ind1, packIndicesFrom dims coords rest (i + 1) cb ce ind = .ok ind1 ∧
        ∀ ind2, Ext ind1 ind2 →
          (∀ r, cb ≤ r → r < ce →
            rowFrom coords (i + 1) r ∈ traverse dims ind2 rest (i + 1) q) ∧
          (SoundFmt rest → (cb < ce ∨ Strict rest) →
            ∀ tl ∈ traverse dims ind2 rest (i + 1) q,
              ∃ r, cb ≤ r ∧ r < ce ∧ rowFrom coords (i + 1) r = tl)) :
    ∃ ind1,
      childLoop (fun cbegin cend ind => packIndicesFrom dims coords rest (i + 1) cbegin cend ind)
        (some col) e js b ind0 = .ok ind1 ∧
      ind1[i]? = ind0[i]? ∧
      ∀ ind2, Ext ind1 ind2 →
        (∀ r, b ≤ r → r < e → ∃ t, js[t]? = some (col.getD r 0) ∧
          rowFrom coords (i + 1) r ∈ traverse dims ind2 rest (i + 1) (q0 + t)) ∧
        (SoundFmt rest → ((∀ x ∈ js, ∃ r, b ≤ r ∧ r < e ∧ col.getD r 0 = x) ∨ Strict rest) →
          ∀ t x, js[t]? = some x → ∀ tl ∈ traverse dims ind2 rest (i + 1) (q0 + t),
            ∃ r, b ≤ r ∧ r < e ∧ col.getD r 0 = x ∧ rowFrom coords (i + 1) r = tl) := by
  have hasc := sortedFrom_ascending coords i b e col hcol hsorted
  obtain ⟨cb1, ind1, hloop, t, hdrop, htlen, hb1, he1, hH1, _, hfix, hcs⟩ := childLoop_total
    (fun cbegin cend ind => packIndicesFrom dims coords rest (i + 1) cbegin cend ind)
    (some col) e
    (fun rem cb ind => ∃ t, js.drop t = rem ∧ t ≤ js.length ∧ b ≤ cb ∧ cb ≤ e ∧
      (∀ r, cb ≤ r → r < e → col.getD r 0 ∈ rem) ∧
      Ready dims ind rest (i + 1) (q0 + t) ∧ ind[i]? = ind0[i]? ∧
      ∀ ind2, Ext ind ind2 →
        (∀ r, b ≤ r → r < cb → ∃ t1, t1 < t ∧ js[t1]? = some (col.getD r 0) ∧
          rowFrom coords (i + 1) r ∈ traverse dims ind2 rest (i + 1) (q0 + t1)) ∧
        (SoundFmt rest → ((∀ x ∈ js, ∃ r, b ≤ r ∧ r < e ∧ col.getD r 0 = x) ∨ Strict rest) →
          ∀ t1 x, t1 < t → js[t1]? = some x →
            ∀ tl ∈ traverse dims ind2 rest (i + 1) (q0 + t1),
              ∃ r, b ≤ r ∧ r < cb ∧ col.getD r 0 = x ∧ rowFrom coords (i + 1) r = tl))
    (by
      rintro j js1 cb ind ⟨t, hdrop, htlen, hb1, he1, hH1, hrdy, hfix, hcs⟩
      have hjt : js[t]? = some j := by
        have := List.getElem?_drop js t 0
        rw [hdrop] at this
        simpa using this.symm
      have htlt : t < js.length := (List.getElem?_eq_some.1 hjt).1
      have hdrop1 : js.drop (t + 1) = js1 := by
        have := congrArg (List.drop 1) hdrop
        simpa [List.drop_drop, Nat.add_comm] using this
      have hgt : ∀ x ∈ js1, j < x := by
        have h1 : (js.drop t).Sorted (· < ·) := hjs.sublist (List.drop_sublist t js)
        rw [hdrop] at h1
        exact (List.pairwise_cons.1 h1).1
      obtain ⟨ce, hs⟩ := scan_total col j (e - cb) cb (by omega)
      obtain ⟨hs1, hs2, hrun, hstop⟩ := scan_spec col j (e - cb) cb ce (by omega) hs
      have hce : ce ≤ e := by omega
      obtain ⟨ind1, hrec, hcs1⟩ := IH cb ce (q0 + t) ind hs1 hce
        (sortedFrom_run coords i b e cb ce col j hcol hsorted hb1 hce hrun) hrdy
      have hext1 := packIndicesFrom_ext dims coords rest (i + 1) cb ce ind ind1 hrec
      refine ⟨ce, ind1, hs, hrec, t + 1, hdrop1, by omega, by omega, hce, ?_, ?_, ?_, ?_⟩
      · intro r hr1 hr2
        rcases List.mem_cons.1 (hH1 r (by omega) hr2) with hrj | hrm
        · exfalso
          have hne := hstop (by omega)
          rcases List.mem_cons.1 (hH1 ce hs1 (by omega)) with hcj | hcm
          · exact hne hcj
          · have h1 := hgt _ hcm
            have h2 := hasc ce r (by omega) hr1 hr2
            omega
        · exact hrm
      · have := packIndicesFrom_ready dims coords rest (i + 1) cb ce (q0 + t) ind ind1 hrdy hrec
        rw [Nat.add_assoc] at this
        exact this
      · rw [(packIndicesFrom_frame dims coords (i + 1) rest (i + 1) cb ce ind ind1
          (Nat.le_refl _) hrec).2 i (by omega)]
        exact hfix
      · intro ind2 hext2
        have hext := ext_trans _ _ _ hext1 hext2
        obtain ⟨hcov, hsnd⟩ := hcs ind2 hext
        obtain ⟨hcov1, hsnd1⟩ := hcs1 ind2 hext2
        constructor
        · intro r hr1 hr2
          by_cases hrc : r < cb
          · obtain ⟨t1, ht1, h1, h2⟩ := hcov r hr1 hrc
            exact ⟨t1, by omega, h1, h2⟩
          · refine ⟨t, by omega, ?_, hcov1 r (by omega) hr2⟩
            rw [hrun r (by omega) hr2]
            exact hjt
        · intro hsf hmode t1 x ht1 hx tl htl
          by_cases htt : t1 < t
          · obtain ⟨r, h1, h2, h3, h4⟩ := hsnd hsf hmode t1 x htt hx tl htl
            exact ⟨r, h1, by omega, h3, h4⟩
          · have hteq : t1 = t := by omega
            subst hteq
            rw [hjt] at hx
            cases hx
            have hne : cb < ce ∨ Strict rest := by
              rcases hmode with hocc | hstrict
              · left
                obtain ⟨r0, hr1, hr2, hr3⟩ := hocc j (List.getElem?_mem hjt)
                have hr0 : cb ≤ r0 := by
                  by_contra hlt
                  obtain ⟨t0, ht0, h1, _⟩ := (hcs ind (ext_refl ind)).1 r0 hr1 (by omega)
                  rw [hr3] at h1
                  exact absurd (sorted_getElem?_lt js hjs t0 t1 j j h1 hjt ht0) (lt_irrefl _)
                have hcbj : col.getD cb 0 = j := by
                  rcases List.mem_cons.1 (hH1 cb (Nat.le_refl _) (by omega)) with h | h
                  · exact h
                  · have h1 := hgt _ h
                    have h2 := hasc cb r0 hb1 hr0 hr2
                    omega
                by_contra hle
                exact hstop (by omega) (by rw [show ce = cb by omega]; exact hcbj)
              · exact Or.inr hstrict
            obtain ⟨r, h1, h2, h3⟩ := hsnd1 hsf hne tl htl
            exact ⟨r, by omega, h2, hrun r h1 h2, h3⟩)
    js b ind0
    ⟨0, rfl, Nat.zero_le _, Nat.le_refl _, hbe, hH, hready, rfl,
      fun ind2 _ => ⟨fun r h1 h2 => by omega, fun _ _ t1 x h => by omega⟩⟩
  have hcb : cb1 = e := by
    by_contra hne
    have := hH1 cb1 (Nat.le_refl _) (by omega)
    simp at this
  subst hcb
  refine ⟨ind1, hloop, hfix, fun ind2 hext => ?_⟩
  obtain ⟨hcov, hsnd⟩ := hcs ind2 hext
  refine ⟨fun r h1 h2 => ?_, fun hsf hmode t1 x hx tl htl => ?_⟩
  · obtain ⟨t1, _, h3, h4⟩ := hcov r h1 h2
    exact ⟨t1, h3, h4⟩
  · have : t1 < t := by
      have := (List.getElem?_eq_some.1 hx).1
      have := List.drop_eq_nil_iff.1 hdrop
      omega
    exact hsnd hsf hmode t1 x this hx tl htl

theorem denseValues_sorted (n : Nat) : (denseValues (n : Int)).Sorted (· < ·) := by
  unfold denseValues
  rw [Int.toNat_natCast]
  refine List.pairwise_map.2 ?_
  exact (List.pairwise_lt_range n).imp (fun h => by exact_mod_cast h)

theorem denseValues_getElem? (n t : Nat) (x : Int) :
    (denseValues (n : Int))[t]? = some x ↔ t < n ∧ x = (t : Int) := by
  unfold denseValues
  rw [Int.toNat_natCast, List.getElem?_map]
  by_cases h : t < n
  · rw [List.getElem?_range h]
    simp [h, eq_comm]
  · rw [List.getElem?_eq_none (by simpa using h)]
    simp [h]

theorem getD_of_lt (col : List Int) (r : Nat) (h : r < col.length) :
    col[r]? = some (col.getD r 0) := by
  rw [List.getD_eq_getElem?_getD, List.getElem?_eq_getElem h, Option.getD_some]

/-- The main theorem on `packIndices`: on a range of tuples that is sorted from level `i`
on, with indices ready for parent position `p`, the call returns; in the indices it
leaves, and in every extension of them, every tuple of the range is reached from position
`p` of level `i`, and for a format of the class `SoundFmt` nothing else is. -/
theorem packIndicesFrom_sorted (dims : List Nat) (coords : List (List Int)) (N : Nat) :
    ∀ levels i b e p ind, InputOK dims coords N levels i → b ≤ e → e ≤ N →
      SortedFrom coords i b e → Ready dims ind levels i p →
      ∃ ind1, packIndicesFrom dims coords levels i b e ind = .ok ind1 ∧
        ∀ ind2, Ext ind1 ind2 →
          (∀ r, b ≤ r → r < e → rowFrom coords i r ∈ traverse dims ind2 levels i p) ∧
          (SoundFmt levels → (b < e ∨ Strict levels) →
            ∀ tl ∈ traverse dims ind2 levels i p,
              ∃ r, b ≤ r ∧ r < e ∧ rowFrom coords i r = tl) := by
  intro levels
  induction levels with
  | nil => intro i b e p ind h; exact absurd h (by simp [InputOK])
  | cons level rest ih =>
    intro i b e p ind hin hbe heN hsorted hready
    obtain ⟨t⟩ := level
    cases t
    · -- Dense
      simp only [InputOK] at hin
      obtain ⟨⟨col, d, hcol, hclen, hd, hdlt, hcb⟩, hrest⟩ := hin
      have hgd : dims.getD i 0 = d := by
        rw [List.getD_eq_getElem?_getD, hd, Option.getD_some]
      have hdc : denseCount d = d := by
        rw [denseCount, toInt_of_lt d hdlt, Int.toNat_natCast]
      simp only [Ready, hgd, hdc] at hready
      obtain ⟨ind1, hloop, _, hcs⟩ := childLoop_sorted dims coords rest i col b e (p * d)
        (denseValues (d : Int)) ind hcol (by omega) hbe hsorted (denseValues_sorted d)
        (fun r h1 h2 => by
          have hx := hcb _ (List.getElem?_mem (getD_of_lt col r (by omega)))
          refine List.getElem?_mem (n := (col.getD r 0).toNat) ?_
          rw [denseValues_getElem?]
          omega)
        hready
        (fun cb ce q ind3 h1 h2 h3 h4 => ih (i + 1) cb ce q ind3 hrest h1 (by omega) h3 h4)
      refine ⟨ind1, ?_, fun ind2 hext => ?_⟩
      · simp only [packIndicesFrom, hd, hcol, toInt_of_lt d hdlt]
        exact hloop
      · obtain ⟨hcov, hsnd⟩ := hcs ind2 hext
        constructor
        · intro r h1 h2
          obtain ⟨t, ht, hmem⟩ := hcov r h1 h2
          obtain ⟨htd, hte⟩ := (denseValues_getElem? d t _).1 ht
          rw [rowFrom_cons coords i r col hcol, mem_traverse_dense, hgd]
          exact ⟨t, htd, _, hmem, by rw [hte]⟩
        · intro hsf _ tl htl
          simp only [SoundFmt] at hsf
          rw [mem_traverse_dense, hgd] at htl
          obtain ⟨j, hj, tl1, htl1, rfl⟩ := htl
          obtain ⟨r, h1, h2, h3, h4⟩ := hsnd hsf.1 (Or.inr hsf.2) j (j : Int)
            ((denseValues_getElem? d j _).2 ⟨hj, rfl⟩) tl1 htl1
          exact ⟨r, h1, h2, by rw [rowFrom_cons coords i r col hcol, h3, h4]⟩
    · -- Sparse
      simp only [InputOK] at hin
      obtain ⟨⟨col, hcol, hclen, hnn⟩, hrest⟩ := hin
      simp only [Ready] at hready
      obtain ⟨seg, crd, hind, hp, hlast, hrdy⟩ := hready
      have hasc := sortedFrom_ascending coords i b e col hcol hsorted
      obtain ⟨u, hu⟩ := getUniqueEntries_total col hnn b e hbe (by omega) hasc
      obtain ⟨hus, hum⟩ := getUniqueEntries_spec col hnn b e u hu
      have hlt : i < ind.length := (List.getElem?_eq_some.1 hind).1
      have hstep : sparseStep [seg, crd] seg crd u
          = [seg ++ [((crd.length + u.length : Nat) : Int)], crd ++ u] := by
        simp [sparseStep]
      obtain ⟨ind1, hloop, hfix, hcs⟩ := childLoop_sorted dims coords rest i col b e crd.length
        u (ind.set i [seg ++ [((crd.length + u.length : Nat) : Int)], crd ++ u]) hcol
        (by omega) hbe hsorted hus
        (fun r h1 h2 => (hum _).2 ⟨r, h1, h2, getD_of_lt col r (by omega)⟩)
        (ready_congr dims ind _ rest (i + 1) _
          (fun l hl => by rw [List.getElem?_set, if_neg (by omega)]) hrdy)
        (fun cb ce q ind3 h1 h2 h3 h4 => ih (i + 1) cb ce q ind3 hrest h1 (by omega) h3 h4)
      rw [List.getElem?_set, if_pos rfl, if_pos hlt] at hfix
      refine ⟨ind1, ?_, fun ind2 hext => ?_⟩
      · simp only [packIndicesFrom, hcol, hu, hind, List.getElem?_cons_zero,
          List.getElem?_cons_succ, hstep]
        exact hloop
      · obtain ⟨hcov, hsnd⟩ := hcs ind2 hext
        obtain ⟨seg2, crd2, hind2, hp1, hp2⟩ := hext i _ _ hfix
        have hch := mem_sparseChildren ind2 i p seg crd u seg2 crd2 hind2 hp1 hp2 hp hlast
        constructor
        · intro r h1 h2
          obtain ⟨t, ht, hmem⟩ := hcov r h1 h2
          rw [rowFrom_cons coords i r col hcol, mem_traverse_sparse]
          exact ⟨crd.length + t, col.getD r 0, (hch _ _).2 ⟨t, rfl, ht⟩, _, hmem, rfl⟩
        · intro hsf _ tl htl
          simp only [SoundFmt] at hsf
          rw [mem_traverse_sparse] at htl
          obtain ⟨k, x, hkx, tl1, htl1, rfl⟩ := htl
          obtain ⟨t, rfl, ht⟩ := (hch k x).1 hkx
          obtain ⟨r, h1, h2, h3, h4⟩ := hsnd hsf
            (Or.inl (fun y hy => by
              obtain ⟨r, h1, h2, h3⟩ := (hum y).1 hy
              refine ⟨r, h1, h2, ?_⟩
              rw [List.getD_eq_getElem?_getD, h3, Option.getD_some]))
            t x ht tl1 htl1
          exact ⟨r, h1, h2, by rw [rowFrom_cons coords i r col hcol, h3, h4]⟩
    · -- Values
      simp only [InputOK] at hin
      obtain ⟨rfl, hlen⟩ := hin
      refine ⟨ind, by simp [packIndicesFrom], fun ind2 _ => ⟨fun r _ _ => ?_, fun _ hne tl htl => ?_⟩⟩
      · rw [rowFrom_nil coords i r hlen, mem_traverse_values]
      · rw [mem_traverse_values] at htl
        rcases hne with hlt | hs
        · exact ⟨b, Nat.le_refl _, hlt, by rw [rowFrom_nil coords i b hlen, htl]⟩
        · simp [Strict] at hs

/-! ### From the hypotheses on the input to the invariants -/
theorem initIndices_total (dims : List Nat) (tuples : Nat) :
    ∀ (lv : List Level) i (ind : Indices) nnz, ind.length = i →
      (∀ l ∈ lv, l.type ≠ .Values) →
      (∀ k : Nat, k < lv.length → (lv.getD k ⟨.Values⟩).type = .Dense → i + k < dims.length) →
      ∃ ind1 nnz1, initIndices dims tuples (lv ++ [⟨.Values⟩]) i ind nnz = .ok (ind1, nnz1) := by
  intro lv
  induction lv with
  | nil => intro i ind nnz _ _ _; exact ⟨ind, nnz, by simp [initIndices]⟩
  | cons level rest ih =>
    intro i ind nnz hlen hlv hd
    have hrest : ∀ l ∈ rest, l.type ≠ .Values := fun l hl => hlv l (List.mem_cons_of_mem _ hl)
    have hd1 : ∀ k : Nat, k < rest.length → (rest.getD k ⟨.Values⟩).type = .Dense →
        i + 1 + k < dims.length := by
      intro k hk hkd
      have := hd (k + 1) (by simp; omega) (by simpa using hkd)
      omega
    have hl0 := hlv level (List.mem_cons_self _ _)
    obtain ⟨t⟩ := level
    cases t
    · have h0 := hd 0 (by simp) (by simp)
      obtain ⟨ind1, nnz1, h⟩ := ih (i + 1) (ind ++ [[]])
        (nnz * dims[i] % 2 ^ 64) (by simp [hlen]) hrest hd1
      refine ⟨ind1, nnz1, ?_⟩
      rw [List.cons_append]
      simp only [initIndices, List.getElem?_eq_getElem (show i < dims.length by omega)]
      exact h
    · obtain ⟨ind1, nnz1, h⟩ := ih (i + 1) (ind ++ [[[0], []]]) tuples (by simp [hlen]) hrest hd1
      refine ⟨ind1, nnz1, ?_⟩
      subst hlen
      rw [List.cons_append]
      simp only [initIndices, List.getElem?_append_right (Nat.le_refl _), Nat.sub_self,
        List.getElem?_cons_zero, List.nil_append, List.set_cons_zero]
      rw [List.set_append_right _ _ (Nat.le_refl _)]
      simpa using h
    · exact absurd rfl hl0

theorem inputOK_of (dims : List Nat) (coords : List (List Int)) (N : Nat) :
    ∀ (lv : List Level) i, (∀ l ∈ lv, l.type ≠ .Values) → coords.length = i + lv.length →
      (∀ col ∈ coords, col.length = N ∧ ∀ x ∈ col, 0 ≤ x ∧ x < 2 ^ 31) →
      (∀ k : Nat, k < lv.length → (lv.getD k ⟨.Values⟩).type = .Dense →
        i + k < dims.length ∧ dims.getD (i + k) 0 < 2 ^ 31 ∧
          ∀ x ∈ coords.getD (i + k) [], x < (dims.getD (i + k) 0 : Int)) →
      InputOK dims coords N (lv ++ [⟨.Values⟩]) i := by
  intro lv
  induction lv with
  | nil =>
    intro i _ hlen _ _
    simp only [List.nil_append, InputOK, true_and]
    simp at hlen
    omega
  | cons level rest ih =>
    intro i hlv hlen hcols hd
    have hrest : ∀ l ∈ rest, l.type ≠ .Values := fun l hl => hlv l (List.mem_cons_of_mem _ hl)
    have hd1 : ∀ k : Nat, k < rest.length → (rest.getD k ⟨.Values⟩).type = .Dense →
        i + 1 + k < dims.length ∧ dims.getD (i + 1 + k) 0 < 2 ^ 31 ∧
          ∀ x ∈ coords.getD (i + 1 + k) [], x < (dims.getD (i + 1 + k) 0 : Int) := by
      intro k hk hkd
      have := hd (k + 1) (by simp; omega) (by simpa using hkd)
      rw [show i + (k + 1) = i + 1 + k by omega] at this
      exact this
    have hi : i < coords.length := by simp at hlen; omega
    have hcol : coords[i]? = some coords[i] := List.getElem?_eq_getElem hi
    have hc := hcols coords[i] (List.getElem_mem _)
    have hnext := ih (i + 1) hrest (by simp at hlen; omega) hcols hd1
    have hl0 := hlv level (List.mem_cons_self _ _)
    obtain ⟨t⟩ := level
    cases t
    · obtain ⟨h1, h2, h3⟩ := hd 0 (by simp) (by simp)
      rw [Nat.add_zero] at h1 h2 h3
      have hgd : dims.getD i 0 = dims[i] := by
        rw [List.getD_eq_getElem?_getD, List.getElem?_eq_getElem h1, Option.getD_some]
      have hgc : coords.getD i [] = coords[i] := by
        rw [List.getD_eq_getElem?_getD, hcol, Option.getD_some]
      rw [hgd] at h2 h3
      rw [hgc] at h3
      rw [List.cons_append]
      simp only [InputOK]
      exact ⟨⟨coords[i], dims[i], hcol, hc.1, List.getElem?_eq_getElem h1, h2,
        fun x hx => ⟨(hc.2 x hx).1, h3 x hx⟩⟩, hnext⟩
    · rw [List.cons_append]
      simp only [InputOK]
      exact ⟨⟨coords[i], hcol, hc.1, hc.2⟩, hnext⟩
    · exact absurd rfl hl0

theorem mem_rows (coords : List (List Int)) (t : List Int) :
    t ∈ rows coords ↔ ∃ r, r < numCoords coords ∧ rowFrom coords 0 r = t := by
  simp [rows]

theorem sortedFrom_of_lexSorted (coords : List (List Int)) (h : LexSorted coords) :
    SortedFrom coords 0 0 (numCoords coords) := by
  intro r r1 _ h2 h3
  unfold LexSorted rows at h
  rw [List.pairwise_map] at h
  have := List.pairwise_iff_getElem.1 h r r1 (by simp; omega) (by simpa using h3) h2
  simpa using this

/-- The result of `pack` on a sorted table for a format of Dense and Sparse levels: it
exists, every input tuple is reached from the root, and for a format of the class
`SoundFmt` with a Sparse level on the way down only input tuples are reached. -/
theorem pack_sorted (dims : List Nat) (lv : List Level) (coords : List (List Int))
    (hne : lv ≠ []) (hlv : ∀ l ∈ lv, l.type ≠ .Values) (hrank : coords.length = lv.length)
    (htable : IsTable coords) (hnn : NonNegative coords) (hsorted : LexSorted coords)
    (hdense : DenseBounded dims lv coords) :
    ∃ r, pack dims .Double (lv ++ [⟨.Values⟩]) coords = .ok r ∧
      (∀ t, t ∈ rows coords → t ∈ traverse dims r.indices (lv ++ [⟨.Values⟩]) 0 0) ∧
      (SoundFmt (lv ++ [⟨.Values⟩]) → Strict (lv ++ [⟨.Values⟩]) →
        ∀ t, t ∈ traverse dims r.indices (lv ++ [⟨.Values⟩]) 0 0 → t ∈ rows coords) := by
  obtain ⟨ind0, nnz, hinit⟩ := initIndices_total dims (numCoords coords) lv 0 [] 1 rfl hlv
    (fun k hk hkd => by rw [Nat.zero_add]; exact (hdense k hk hkd).1)
  have hrdy := ready_initial dims ind0 (lv ++ [⟨.Values⟩]) 0
    (initIndices_sparse dims _ _ 0 [] 1 ind0 nnz (Nat.le_refl _) hinit).2
  have hin := inputOK_of dims coords (numCoords coords) lv 0 hlv (by omega)
    (fun col hcol => ⟨htable col hcol, hnn col hcol⟩)
    (fun k hk hkd => by rw [Nat.zero_add]; exact hdense k hk hkd)
  obtain ⟨ind1, hpk, hcs⟩ := packIndicesFrom_sorted dims coords (numCoords coords)
    (lv ++ [⟨.Values⟩]) 0 0 (numCoords coords) 0 ind0 hin (Nat.zero_le _) (Nat.le_refl _)
    (sortedFrom_of_lexSorted coords hsorted) hrdy
  obtain ⟨hcov, hsnd⟩ := hcs ind1 (ext_refl ind1)
  refine ⟨⟨nnz, nnz, ind1⟩, ?_, ?_, ?_⟩
  · cases coords with
    | nil =>
      cases lv with
      | nil => exact absurd rfl hne
      | cons l lv => simp at hrank
    | cons c0 cs =>
      simp only [numCoords, List.headD_cons] at hinit hpk
      simp [pack, hinit, packIndices, hpk]
  · intro t ht
    obtain ⟨r, hr, rfl⟩ := (mem_rows coords t).1 ht
    exact hcov r (Nat.zero_le _) hr
  · intro hsf hst t ht
    obtain ⟨r, _, hr, rfl⟩ := hsnd hsf (Or.inr hst) t ht
    exact (mem_rows coords _).2 ⟨r, hr, rfl⟩

/-! ### Formats of Sparse levels, and the format [Dense, Sparse, Values] -/
theorem soundFmt_allSparse :
    ∀ k, SoundFmt (List.replicate k (⟨.Sparse⟩ : Level) ++ [⟨.Values⟩]) := by
  intro k
  induction k with
  | zero => simp [SoundFmt]
  | succ k ih =>
    rw [List.replicate_succ, List.cons_append]
    simp only [SoundFmt]
    exact ih

theorem denseBounded_allSparse (dims : List Nat) (coords : List (List Int)) (k : Nat) :
    DenseBounded dims (List.replicate k (⟨.Sparse⟩ : Level)) coords := by
  intro i hi hd
  rw [List.length_replicate] at hi
  rw [List.getD_eq_getElem?_getD, List.getElem?_replicate, if_pos hi] at hd
  simp at hd

theorem mem_segment (crd : List Int) (s e v : Int) :
    v ∈ segment crd s e ↔
      ∃ k, s.toNat ≤ k ∧ k < s.toNat + (e.toNat - s.toNat) ∧ crd[k]? = some v := by
  unfold segment
  rw [List.mem_iff_getElem?]
  constructor
  · rintro ⟨k, hk⟩
    by_cases hlt : k < e.toNat - s.toNat
    · rw [List.getElem?_take_of_lt hlt, List.getElem?_drop] at hk
      exact ⟨s.toNat + k, by omega, by omega, hk⟩
    · rw [List.getElem?_eq_none (by simp; omega)] at hk
      cases hk
  · rintro ⟨k, h1, h2, h3⟩
    refine ⟨k - s.toNat, ?_⟩
    rw [List.getElem?_take_of_lt (by omega), List.getElem?_drop]
    rw [← h3]
    congr 1
    omega

theorem mem_sparseChildren_segment (ind : Indices) (i p : Nat) (seg crd : List Int)
    (s e : Int) (hind : ind[i]? = some [seg, crd]) (hs : seg[p]? = some s)
    (he : seg[p + 1]? = some e) (v : Int) :
    (∃ k, (k, v) ∈ sparseChildren ind i p) ↔ v ∈ segment crd s e := by
  have h1 : segArray ind i = seg := by simp [segArray, List.getD_eq_getElem?_getD, hind]
  have h2 : crdArray ind i = crd := by simp [crdArray, List.getD_eq_getElem?_getD, hind]
  rw [mem_segment]
  unfold sparseChildren
  rw [h1, h2, hs, he]
  simp only [List.mem_filterMap, List.mem_range'_1, Option.map_eq_some', Prod.mk.injEq]
  constructor
  · rintro ⟨k, k1, ⟨hk1, hk2⟩, y, hy, rfl, rfl⟩
    exact ⟨k1, hk1, hk2, hy⟩
  · rintro ⟨k, hk1, hk2, hy⟩
    exact ⟨k, k, ⟨hk1, hk2⟩, v, hy, rfl, rfl⟩

/-- A returning call of `packIndices` leaves an empty index empty. -/
theorem packIndicesFrom_empty (dims : List Nat) (coords : List (List Int))
    (levels : List Level) (i b e : Nat) (ind ind1 : Indices)
    (h : packIndicesFrom dims coords levels i b e ind = .ok ind1) :
    ∀ l : Nat, ind[l]? = some [] → ind1[l]? = some [] := by
  refine packIndicesFrom_induct dims coords
    (fun a b => ∀ l : Nat, a[l]? = some [] → b[l]? = some [])
    (fun a l hl => hl) (fun a b c h1 h2 l hl => h2 l (h1 l hl)) 0
    ?_ levels i b e ind ind1 (Nat.zero_le _) h
  intro i ind col b e u index seg crd _ _ _ hindex hseg _ l hl
  by_cases hli : i = l
  · subst hli
    rw [hindex] at hl
    cases hl
    simp at hseg
  · rw [List.getElem?_set, if_neg hli]
    exact hl

/-! ### `getUniqueEntries` compares adjacent entries -/

theorem entries_cons (v : List Int) (b e : Nat) (hb : b < e) (he : e ≤ v.length) :
    entries v b e = v.getD b 0 :: entries v (b + 1) e := by
  have hlt : b < v.length := by omega
  unfold entries
  rw [List.drop_eq_getElem_cons hlt, show e - b = (e - (b + 1)) + 1 by omega,
    List.take_succ_cons, List.getD_eq_getElem?_getD, List.getElem?_eq_getElem hlt,
    Option.getD_some]

theorem entries_self (v : List Int) (b : Nat) : entries v b b = [] := by
  simp [entries]

theorem entries_length (v : List Int) (b e : Nat) (he : e ≤ v.length) :
    (entries v b e).length = e - b := by
  unfold entries
  rw [List.length_take, List.length_drop]
  omega

theorem mem_entries (v : List Int) (b e : Nat) (x : Int) :
    x ∈ entries v b e ↔ ∃ r, b ≤ r ∧ r < e ∧ v[r]? = some x := by
  unfold entries
  rw [List.mem_iff_getElem?]
  constructor
  · rintro ⟨k, hk⟩
    by_cases hlt : k < e - b
    · rw [List.getElem?_take_of_lt hlt, List.getElem?_drop] at hk
      exact ⟨b + k, by omega, by omega, hk⟩
    · rw [List.getElem?_eq_none (by simp; omega)] at hk
      cases hk
  · rintro ⟨k, h1, h2, h3⟩
    refine ⟨k - b, ?_⟩
    rw [List.getElem?_take_of_lt (by omega), List.getElem?_drop, ← h3]
    congr 1
    omega

/-- The loop of `getUniqueEntries` is the adjacent-pair computation: `curr` is always the
entry just before the iterator. -/
theorem uniqueLoop_eq_uniqueFrom (v : List Int) :
    ∀ n it prev acc, it + n ≤ v.length →
      uniqueLoop v n it (toSizeT prev) acc
        = match uniqueFrom prev (entries v it (it + n)) with
          | .error e => .error e
          | .ok u => .ok (acc ++ u) := by
  intro n
  induction n with
  | zero =>
    intro it prev acc _
    simp [uniqueLoop, entries_self, uniqueFrom]
  | succ n ih =>
    intro it prev acc hlen
    have hlt : it < v.length := by omega
    have hx : v[it]? = some (v.getD it 0) := getD_of_lt v it hlt
    rw [entries_cons v it (it + (n + 1)) (by omega) hlen]
    have hn : it + (n + 1) = it + 1 + n := by omega
    unfold uniqueLoop
    simp only [hx, uniqueFrom]
    by_cases hle : toSizeT prev ≤ toSizeT (v.getD it 0)
    · rw [if_pos hle, if_pos hle]
      by_cases hlt2 : toSizeT prev < toSizeT (v.getD it 0)
      · rw [if_pos hlt2, ih (it + 1) (v.getD it 0) _ (by omega), hn]
        cases uniqueFrom (v.getD it 0) (entries v (it + 1) (it + 1 + n)) with
        | error e => rfl
        | ok u => simp only [if_pos hlt2, List.append_assoc, List.singleton_append]
      · rw [if_neg hlt2]
        have heq : toSizeT prev = toSizeT (v.getD it 0) := by omega
        rw [heq, ih (it + 1) (v.getD it 0) _ (by omega), hn]
        cases uniqueFrom (v.getD it 0) (entries v (it + 1) (it + 1 + n)) with
        | error e => rfl
        | ok u => simp
    · rw [if_neg hle, if_neg hle]

/-- The function `getUniqueEntries` on a range inside `v` is the adjacent-pair computation on
the entries of the range. -/
theorem getUniqueEntries_eq_uniqueAdjacent (v : List Int) (b e : Nat) (hbe : b ≤ e)
    (he : e ≤ v.length) : getUniqueEntries v b e = uniqueAdjacent (entries v b e) := by
  unfold getUniqueEntries
  rw [if_neg (by omega)]
  by_cases hne : b = e
  · subst hne
    simp [entries_self, uniqueAdjacent]
  · have hlt : b < v.length := by omega
    rw [if_pos hne, entries_cons v b e (by omega) he]
    simp only [getD_of_lt v b hlt, uniqueAdjacent]
    rw [show e - (b + 1) = e - (b + 1) from rfl,
      uniqueLoop_eq_uniqueFrom v (e - (b + 1)) (b + 1) (v.getD b 0) _ (by omega),
      show b + 1 + (e - (b + 1)) = e by omega]
    cases uniqueFrom (v.getD b 0) (entries v (b + 1) e) with
    | error e => rfl
    | ok u => simp

theorem faithful_of_sameSign (xs : List Int) (h : SameSign xs) : Faithful xs := by
  rcases h with h | h
  · refine ⟨fun x hx => toInt_toSizeT x (h x hx).1 (h x hx).2, fun x hx y hy => ?_⟩
    rw [toSizeT_of_nonneg x (h x hx).1 (h x hx).2, toSizeT_of_nonneg y (h y hy).1 (h y hy).2]
    have := h x hx
    have := h y hy
    omega
  · have hsz : ∀ x ∈ xs, ((toSizeT x : Nat) : Int) = x + 2 ^ 64 := by
      intro x hx
      have := h x hx
      unfold toSizeT
      omega
    refine ⟨fun x hx => ?_, fun x hx y hy => ?_⟩
    · have h1 := hsz x hx
      have h2 := h x hx
      unfold toInt
      split <;> omega
    · have h1 := hsz x hx
      have h2 := hsz y hy
      omega

theorem faithful_sublist (xs ys : List Int) (h : Faithful ys) (hs : ∀ x ∈ xs, x ∈ ys) :
    Faithful xs :=
  ⟨fun x hx => h.1 x (hs x hx), fun x hx y hy => h.2 x (hs x hx) y (hs y hy)⟩

/-- The adjacent-pair computation behind the entry `p`: it returns exactly when the entries
ascend from `p` on, and then yields, strictly ascending, the entries other than `p`;
otherwise the assertion fails. -/
theorem uniqueFrom_spec :
    ∀ (xs : List Int) (p : Int), Faithful (p :: xs) →
      (List.Chain (· ≤ ·) p xs →
        ∃ u, uniqueFrom p xs = .ok u ∧ u.Sorted (· < ·) ∧ (∀ y ∈ u, p < y) ∧
          ∀ y, y ∈ u ↔ (y ∈ xs ∧ y ≠ p)) ∧
      (¬ List.Chain (· ≤ ·) p xs → uniqueFrom p xs = .error .assertion) := by
  intro xs
  induction xs with
  | nil =>
    intro p _
    exact ⟨fun _ => ⟨[], rfl, List.sorted_nil, by simp, by simp⟩,
      fun h => absurd List.Chain.nil h⟩
  | cons x xs ih =>
    intro p hF
    have hFx : Faithful (x :: xs) :=
      faithful_sublist _ _ hF (fun y hy => List.mem_cons_of_mem _ hy)
    have hpx : toSizeT p ≤ toSizeT x ↔ p ≤ x :=
      hF.2 p (List.mem_cons_self _ _) x (List.mem_cons_of_mem _ (List.mem_cons_self _ _))
    have hxp : toSizeT x ≤ toSizeT p ↔ x ≤ p :=
      hF.2 x (List.mem_cons_of_mem _ (List.mem_cons_self _ _)) p (List.mem_cons_self _ _)
    have hrx : toInt (toSizeT x) = x :=
      hF.1 x (List.mem_cons_of_mem _ (List.mem_cons_self _ _))
    obtain ⟨ih1, ih2⟩ := ih x hFx
    constructor
    · intro hc
      obtain ⟨hle, hc1⟩ := List.chain_cons.1 hc
      obtain ⟨u, hu, hs, hgt, hmem⟩ := ih1 hc1
      simp only [uniqueFrom, if_pos (hpx.2 hle), hu, hrx]
      by_cases hlt : p < x
      · have hlt2 : toSizeT p < toSizeT x := by
          have := hxp.not.2 (not_le.2 hlt)
          omega
        rw [if_pos hlt2]
        refine ⟨_, rfl, List.sorted_cons.2 ⟨hgt, hs⟩, ?_, ?_⟩
        · intro y hy
          rcases List.mem_cons.1 hy with rfl | hy
          · exact hlt
          · exact lt_trans hlt (hgt y hy)
        · intro y
          rw [List.mem_cons, hmem y, List.mem_cons]
          constructor
          · rintro (rfl | ⟨h1, h2⟩)
            · exact ⟨Or.inl rfl, ne_of_gt hlt⟩
            · exact ⟨Or.inr h1, ne_of_gt (lt_trans hlt (hgt y ((hmem y).2 ⟨h1, h2⟩)))⟩
          · rintro ⟨h1 | h1, h2⟩
            · exact Or.inl h1
            · by_cases hyx : y = x
              · exact Or.inl hyx
              · exact Or.inr ⟨h1, hyx⟩
      · have heq : p = x := le_antisymm hle (not_lt.1 hlt)
        subst heq
        rw [if_neg (lt_irrefl _)]
        refine ⟨u, rfl, hs, hgt, fun y => ?_⟩
        rw [hmem y, List.mem_cons]
        constructor
        · rintro ⟨h1, h2⟩
          exact ⟨Or.inr h1, h2⟩
        · rintro ⟨h1 | h1, h2⟩
          · exact absurd h1 h2
          · exact ⟨h1, h2⟩
    · intro hc
      by_cases hle : p ≤ x
      · have hc1 : ¬ List.Chain (· ≤ ·) x xs := fun h => hc (List.chain_cons.2 ⟨hle, h⟩)
        simp only [uniqueFrom, if_pos (hpx.2 hle), ih2 hc1]
      · simp only [uniqueFrom, if_neg (hpx.not.2 hle)]

/-- The adjacent-pair computation on a sequence: it returns exactly when no entry is smaller
than its predecessor, and then yields the strictly ascending sequence of the entries;
otherwise the assertion fails. -/
theorem uniqueAdjacent_spec (xs : List Int) (hF : Faithful xs) :
    (xs.Chain' (· ≤ ·) →
      ∃ u, uniqueAdjacent xs = .ok u ∧ u.Sorted (· < ·) ∧ ∀ y, y ∈ u ↔ y ∈ xs) ∧
    (¬ xs.Chain' (· ≤ ·) → uniqueAdjacent xs = .error .assertion) := by
  cases xs with
  | nil =>
    exact ⟨fun _ => ⟨[], rfl, List.sorted_nil, fun y => Iff.rfl⟩, fun h => absurd trivial h⟩
  | cons x xs =>
    obtain ⟨h1, h2⟩ := uniqueFrom_spec xs x hF
    have hrx : toInt (toSizeT x) = x := hF.1 x (List.mem_cons_self _ _)
    constructor
    · intro hc
      obtain ⟨u, hu, hs, hgt, hmem⟩ := h1 hc
      simp only [uniqueAdjacent, hu, hrx]
      refine ⟨_, rfl, List.sorted_cons.2 ⟨hgt, hs⟩, fun y => ?_⟩
      rw [List.mem_cons, hmem y, List.mem_cons]
      constructor
      · rintro (h | ⟨h, _⟩)
        · exact Or.inl h
        · exact Or.inr h
      · rintro (h | h)
        · exact Or.inl h
        · by_cases hyx : y = x
          · exact Or.inl hyx
          · exact Or.inr ⟨h, hyx⟩
    · intro hc
      simp only [uniqueAdjacent, h2 hc]

/-- A sequence has an entry smaller than its predecessor exactly when it is not a chain. -/
theorem chain'_iff_no_descent :
    ∀ xs : List Int, xs.Chain' (· ≤ ·) ↔
      ¬ ∃ k, k + 1 < xs.length ∧ xs.getD (k + 1) 0 < xs.getD k 0 := by
  intro xs
  induction xs with
  | nil => simp
  | cons x xs ih =>
    cases xs with
    | nil => simp
    | cons y ys =>
      rw [List.chain'_cons, ih]
      constructor
      · rintro ⟨hxy, hno⟩ ⟨k, hk, hd⟩
        cases k with
        | zero => simp at hd; omega
        | succ k => exact hno ⟨k, by simpa using hk, by simpa using hd⟩
      · intro hno
        refine ⟨?_, ?_⟩
        · by_contra hxy
          exact hno ⟨0, by simp, by simpa using not_le.1 hxy⟩
        · rintro ⟨k, hk, hd⟩
          exact hno ⟨k + 1, by simpa using hk, by simpa using hd⟩

theorem sorted_iff_chain' (xs : List Int) : xs.Sorted (· ≤ ·) ↔ xs.Chain' (· ≤ ·) :=
  List.chain'_iff_pairwise.symm

/-! ### The child ranges partition the active range -/

/-- When the scans return, the child loop is the sequence of calls on the child ranges. -/
theorem childLoop_eq_callAll (recurse : Nat → Nat → Indices → Except PackError Indices)
    (lc : Option (List Int)) (e : Nat) :
    ∀ js cb rs ind, childRanges lc e js cb = .ok rs →
      childLoop recurse lc e js cb ind = callAll recurse rs ind := by
  intro js
  induction js with
  | nil =>
    intro cb rs ind h
    simp only [childRanges, Except.ok.injEq] at h
    subst h
    rfl
  | cons j js ih =>
    intro cb rs ind h
    unfold childRanges at h
    split at h
    · cases h
    · rename_i ce hs
      split at h
      · cases h
      · rename_i rs1 hrs
        simp only [Except.ok.injEq] at h
        subst h
        simp only [childLoop, hs, callAll]
        cases recurse cb ce ind with
        | error err => rfl
        | ok ind1 => exact ih ce rs1 ind1 hrs

theorem consecutive_bounds :
    ∀ (rs : List (Int × Nat × Nat)) (b e : Nat), Consecutive b e rs →
      b ≤ e ∧ ∀ x ∈ rs, b ≤ x.2.1 ∧ x.2.1 ≤ x.2.2 ∧ x.2.2 ≤ e := by
  intro rs
  induction rs with
  | nil => intro b e h; simp only [Consecutive] at h; exact ⟨by omega, by simp⟩
  | cons x rs ih =>
    intro b e h
    obtain ⟨j, cb, ce⟩ := x
    simp only [Consecutive] at h
    obtain ⟨h1, h2, h3⟩ := h
    obtain ⟨h4, h5⟩ := ih ce e h3
    refine ⟨by omega, fun y hy => ?_⟩
    rcases List.mem_cons.1 hy with rfl | hy
    · exact ⟨by simp; omega, h2, h4⟩
    · have := h5 y hy
      exact ⟨by omega, this.2.1, this.2.2⟩

/-- Consecutive ranges are pairwise disjoint: each ends before the later ones begin. -/
theorem consecutive_pairwise :
    ∀ (rs : List (Int × Nat × Nat)) (b e : Nat), Consecutive b e rs →
      rs.Pairwise (fun x y => x.2.2 ≤ y.2.1) := by
  intro rs
  induction rs with
  | nil => intro b e _; exact List.Pairwise.nil
  | cons x rs ih =>
    intro b e h
    obtain ⟨j, cb, ce⟩ := x
    simp only [Consecutive] at h
    obtain ⟨_, _, h3⟩ := h
    exact List.pairwise_cons.2 ⟨fun y hy => ((consecutive_bounds rs ce e h3).2 y hy).1,
      ih ce e h3⟩

/-- On a range whose coordinates ascend and all occur in the strictly ascending list `js`
of child values, the child ranges exist, one per child value, follow one another from `b`
to `e`, and the range of value `j` holds exactly the positions whose coordinate is `j`. -/
theorem childRanges_partition (col : List Int) (e : Nat) (he : e ≤ col.length) :
    ∀ js b, b ≤ e → js.Sorted (· < ·) →
      (∀ r, b ≤ r → r < e → col.getD r 0 ∈ js) →
      (∀ r r1, b ≤ r → r ≤ r1 → r1 < e → col.getD r 0 ≤ col.getD r1 0) →
      ∃ rs, childRanges (some col) e js b = .ok rs ∧ rs.map (fun x => x.1) = js ∧
        Consecutive b e rs ∧
        ∀ x ∈ rs, ∀ r, (x.2.1 ≤ r ∧ r < x.2.2) ↔ (b ≤ r ∧ r < e ∧ col.getD r 0 = x.1) := by
  intro js
  induction js with
  | nil =>
    intro b hbe _ hH _
    refine ⟨[], rfl, rfl, ?_, by simp⟩
    simp only [Consecutive]
    by_contra hne
    have := hH b (Nat.le_refl _) (by omega)
    simp at this
  | cons j js ih =>
    intro b hbe hjs hH hasc
    have hgt : ∀ x ∈ js, j < x := (List.pairwise_cons.1 hjs).1
    obtain ⟨ce, hs⟩ := scan_total col j (e - b) b (by omega)
    obtain ⟨hs1, hs2, hrun, hstop⟩ := scan_spec col j (e - b) b ce (by omega) hs
    have hce : ce ≤ e := by omega
    have hH1 : ∀ r, ce ≤ r → r < e → col.getD r 0 ∈ js := by
      intro r hr1 hr2
      rcases List.mem_cons.1 (hH r (by omega) hr2) with hrj | hrm
      · exfalso
        have hne := hstop (by omega)
        rcases List.mem_cons.1 (hH ce hs1 (by omega)) with hcj | hcm
        · exact hne hcj
        · have h1 := hgt _ hcm
          have h2 := hasc ce r hs1 hr1 hr2
          omega
      · exact hrm
    obtain ⟨rs, hrs, hmap, hcons, hchar⟩ := ih ce hce (List.pairwise_cons.1 hjs).2 hH1
      (fun r r1 h1 h2 h3 => hasc r r1 (by omega) h2 h3)
    refine ⟨(j, b, ce) :: rs, by simp only [childRanges, hs, hrs], by simp [hmap],
      (show b = b ∧ b ≤ ce ∧ Consecutive ce e rs from ⟨rfl, hs1, hcons⟩), ?_⟩
    intro x hx r
    rcases List.mem_cons.1 hx with rfl | hx
    · show (b ≤ r ∧ r < ce) ↔ (b ≤ r ∧ r < e ∧ col.getD r 0 = j)
      constructor
      · rintro ⟨h1, h2⟩
        exact ⟨h1, by omega, hrun r h1 h2⟩
      · rintro ⟨h1, h2, h3⟩
        refine ⟨h1, ?_⟩
        by_contra hge
        have := hgt _ (hH1 r (by omega) h2)
        omega
    · rw [hchar x hx r]
      constructor
      · rintro ⟨h1, h2, h3⟩
        exact ⟨by omega, h2, h3⟩
      · rintro ⟨h1, h2, h3⟩
        refine ⟨?_, h2, h3⟩
        by_contra hlt
        have hxj : x.1 ∈ js := by
          rw [← hmap]
          exact List.mem_map_of_mem _ hx
        have := hgt _ hxj
        have := hrun r h1 (by omega)
        omega

/-- The recursive calls of a returning call of `packIndices`: they are the calls on the
child ranges of the level. -/
theorem packIndicesFrom_calls (dims : List Nat) (coords : List (List Int)) (level : Level)
    (rest : List Level) (i b e : Nat) (ind ind1 : Indices) (rs : List (Int × Nat × Nat))
    (hrs : levelChildRanges dims coords level i b e = .ok rs)
    (h : packIndicesFrom dims coords (level :: rest) i b e ind = .ok ind1) :
    ∃ ind0, callAll (fun cb ce x => packIndicesFrom dims coords rest (i + 1) cb ce x) rs ind0
      = .ok ind1 := by
  obtain ⟨t⟩ := level
  cases t
  · simp only [levelChildRanges] at hrs
    simp only [packIndicesFrom] at h
    split at hrs
    · cases hrs
    · rename_i d hd
      simp only [hd] at h
      rw [childLoop_eq_callAll _ _ _ _ _ _ _ hrs] at h
      exact ⟨ind, h⟩
  · simp only [levelChildRanges] at hrs
    simp only [packIndicesFrom] at h
    split at hrs
    · cases hrs
    · rename_i col hcol
      split at hrs
      · cases hrs
      · rename_i u hu
        simp only [hcol, hu] at h
        split at h
        · cases h
        · split at h
          · rw [childLoop_eq_callAll _ _ _ _ _ _ _ hrs] at h
            exact ⟨_, h⟩
          · cases h
  · simp only [levelChildRanges, Except.ok.injEq] at hrs
    subst hrs
    simp only [packIndicesFrom, Except.ok.injEq] at h
    exact ⟨ind1, rfl⟩

/-- On an ascending range of `int` values of one sign `getUniqueEntries` returns the strictly
ascending sequence of the entries of the range. -/
theorem getUniqueEntries_range_spec (v : List Int) (b e : Nat) (hbe : b ≤ e)
    (he : e ≤ v.length) (hasc : (entries v b e).Sorted (· ≤ ·))
    (hsign : SameSign (entries v b e)) :
    ∃ u, getUniqueEntries v b e = .ok u ∧ u.Sorted (· < ·) ∧
      ∀ y, y ∈ u ↔ y ∈ entries v b e := by
  obtain ⟨u, hu, hs, hmem⟩ := (uniqueAdjacent_spec _ (faithful_of_sameSign _ hsign)).1
    ((sorted_iff_chain' _).1 hasc)
  rw [← getUniqueEntries_eq_uniqueAdjacent v b e hbe he] at hu
  exact ⟨u, hu, hs, hmem⟩

theorem sorted_entries_positions (v : List Int) (b e : Nat) (he : e ≤ v.length)
    (h : (entries v b e).Sorted (· ≤ ·)) :
    ∀ r r1, b ≤ r → r ≤ r1 → r1 < e → v.getD r 0 ≤ v.getD r1 0 := by
  intro r r1 h1 h2 h3
  rcases Nat.eq_or_lt_of_le h2 with heq | hlt
  · rw [heq]
  · have hlen := entries_length v b e he
    have hget : ∀ k, b ≤ k → k < e → ∃ hk : k - b < (entries v b e).length,
        (entries v b e)[k - b] = v.getD k 0 := by
      intro k hk1 hk2
      have hk : k - b < (entries v b e).length := by omega
      refine ⟨hk, ?_⟩
      have h4 : (entries v b e)[k - b]? = some (v.getD k 0) := by
        unfold entries
        rw [List.getElem?_take_of_lt (by omega), List.getElem?_drop,
          show b + (k - b) = k by omega]
        exact getD_of_lt v k (by omega)
      rw [List.getElem?_eq_getElem hk] at h4
      exact Option.some.inj h4
    obtain ⟨hk, hv⟩ := hget r h1 (by omega)
    obtain ⟨hk1, hv1⟩ := hget r1 (by omega) h3
    have := List.pairwise_iff_getElem.1 h (r - b) (r1 - b) hk hk1 (by omega)
    rw [hv, hv1] at this
    exact this

/-! ### Unsorted input at Sparse levels -/

theorem uniqueLoop_ok_bounds (v : List Int) :
    ∀ n it curr acc u, uniqueLoop v n it curr acc = .ok u → 0 < n → it + n ≤ v.length := by
  intro n
  induction n with
  | zero => intro it curr acc u _ h; omega
  | succ n ih =>
    intro it curr acc u h _
    unfold uniqueLoop at h
    split at h
    · cases h
    · rename_i x hx
      have hlt : it < v.length := (List.getElem?_eq_some.1 hx).1
      simp only at h
      split at h
      · cases n with
        | zero => omega
        | succ n =>
          split at h
          · have := ih _ _ _ _ h (Nat.succ_pos _); omega
          · have := ih _ _ _ _ h (Nat.succ_pos _); omega
      · cases h

/-- A returning call of `getUniqueEntries` has read a range inside the sequence. -/
theorem getUniqueEntries_ok_bounds (v : List Int) (b e : Nat) (u : List Int)
    (h : getUniqueEntries v b e = .ok u) : b ≤ e ∧ (b < e → e ≤ v.length) := by
  unfold getUniqueEntries at h
  split at h
  · cases h
  · rename_i hbe
    refine ⟨by omega, fun hlt => ?_⟩
    rw [if_pos (by omega)] at h
    split at h
    · cases h
    · rename_i x hx
      have hb : b < v.length := (List.getElem?_eq_some.1 hx).1
      by_cases h1 : b + 1 = e
      · omega
      · have := uniqueLoop_ok_bounds v _ _ _ _ _ h (by omega)
        omega

/-- A returning call of `getUniqueEntries` on non-negative entries has seen an ascending
range. -/
theorem getUniqueEntries_ok_ascending (v : List Int) (hv : ∀ x ∈ v, 0 ≤ x ∧ x < 2 ^ 31)
    (b e : Nat) (u : List Int) (h : getUniqueEntries v b e = .ok u) (hlt : b < e) :
    e ≤ v.length ∧ (entries v b e).Sorted (· ≤ ·) := by
  obtain ⟨hbe, he⟩ := getUniqueEntries_ok_bounds v b e u h
  have he1 := he hlt
  refine ⟨he1, ?_⟩
  rw [getUniqueEntries_eq_uniqueAdjacent v b e hbe he1] at h
  have hF : Faithful (entries v b e) := faithful_of_sameSign _ (Or.inl (fun x hx => by
    obtain ⟨r, _, _, hr⟩ := (mem_entries v b e x).1 hx
    exact hv x (List.getElem?_mem hr)))
  by_contra hns
  rw [(uniqueAdjacent_spec _ hF).2 (fun hc => hns ((sorted_iff_chain' _).2 hc))] at h
  cases h

theorem callAll_ok_mem (recurse : Nat → Nat → Indices → Except PackError Indices) :
    ∀ (rs : List (Int × Nat × Nat)) ind ind1, callAll recurse rs ind = .ok ind1 →
      ∀ x ∈ rs, ∃ a a1, recurse x.2.1 x.2.2 a = .ok a1 := by
  intro rs
  induction rs with
  | nil => intro ind ind1 _ x hx; simp at hx
  | cons y rs ih =>
    intro ind ind1 h x hx
    obtain ⟨j, cb, ce⟩ := y
    unfold callAll at h
    split at h
    · cases h
    · rename_i a1 ha
      rcases List.mem_cons.1 hx with rfl | hx
      · exact ⟨ind, a1, ha⟩
      · exact ih a1 ind1 h x hx

theorem eq_replicate_append (a : Level) :
    ∀ (d : Nat) (format : List Level), (∀ l : Nat, l ≤ d → format[l]? = some a) →
      format = List.replicate (d + 1) a ++ format.drop (d + 1) := by
  intro d
  induction d with
  | zero =>
    intro format h
    have h0 := h 0 (Nat.le_refl _)
    cases format with
    | nil => simp at h0
    | cons x xs =>
      simp only [List.getElem?_cons_zero, Option.some.injEq] at h0
      subst h0
      simp
  | succ d ih =>
    intro format h
    have h0 := h 0 (Nat.zero_le _)
    cases format with
    | nil => simp at h0
    | cons x xs =>
      simp only [List.getElem?_cons_zero, Option.some.injEq] at h0
      subst h0
      have := ih xs (fun l hl => by simpa using h (l + 1) (by omega))
      rw [List.replicate_succ, List.cons_append, List.drop_succ_cons, ← this]

/-- A returning call of `packIndices` through `m + 1` Sparse levels has seen, in its range,
adjacent tuples that ascend at the last of these levels whenever they agree at the levels
before it. -/
theorem packIndicesFrom_sparse_ascending (dims : List Nat) (coords : List (List Int))
    (hnn : NonNegative coords) :
    ∀ m (rest : List Level) i b e ind ind1 k,
      packIndicesFrom dims coords (List.replicate (m + 1) (⟨.Sparse⟩ : Level) ++ rest) i b e ind
        = .ok ind1 →
      b ≤ k → k + 1 < e →
      (∀ l, i ≤ l → l < i + m →
        (coords.getD l []).getD k 0 = (coords.getD l []).getD (k + 1) 0) →
      (coords.getD (i + m) []).getD k 0 ≤ (coords.getD (i + m) []).getD (k + 1) 0 := by
  intro m
  induction m with
  | zero =>
    intro rest i b e ind ind1 k h hbk hke _
    rw [List.replicate_succ, List.cons_append] at h
    simp only [packIndicesFrom] at h
    split at h
    · cases h
    · rename_i col hcol
      split at h
      · cases h
      · rename_i u hu
        obtain ⟨he, hasc⟩ := getUniqueEntries_ok_ascending col (hnn col (List.getElem?_mem hcol))
          b e u hu (by omega)
        have hgc : coords.getD i [] = col := by
          rw [List.getD_eq_getElem?_getD, hcol, Option.getD_some]
        rw [Nat.add_zero, hgc]
        exact sorted_entries_positions col b e he hasc k (k + 1) hbk (by omega) hke
  | succ m ih =>
    intro rest i b e ind ind1 k h hbk hke hagree
    rw [List.replicate_succ, List.cons_append] at h
    simp only [packIndicesFrom] at h
    split at h
    · cases h
    · rename_i col hcol
      split at h
      · cases h
      · rename_i u hu
        have hv := hnn col (List.getElem?_mem hcol)
        obtain ⟨he, hasc⟩ := getUniqueEntries_ok_ascending col hv b e u hu (by omega)
        obtain ⟨hus, hum⟩ := getUniqueEntries_spec col hv b e u hu
        have hgc : coords.getD i [] = col := by
          rw [List.getD_eq_getElem?_getD, hcol, Option.getD_some]
        have hH : ∀ r, b ≤ r → r < e → col.getD r 0 ∈ u := fun r h1 h2 =>
          (hum _).2 ⟨r, h1, h2, getD_of_lt col r (by omega)⟩
        obtain ⟨rs, hrs, hmap, hcons, hchar⟩ := childRanges_partition col e he u b (by omega)
          hus hH (sorted_entries_positions col b e he hasc)
        split at h
        · cases h
        · split at h
          · rw [childLoop_eq_callAll _ _ _ _ _ _ _ hrs] at h
            have hj := hH k hbk (by omega)
            rw [← hmap] at hj
            obtain ⟨x, hx, hxj⟩ := List.mem_map.1 hj
            obtain ⟨a, a1, hcall⟩ := callAll_ok_mem _ rs _ _ h x hx
            have hk0 := (hchar x hx k).2 ⟨hbk, by omega, hxj.symm⟩
            have hk1 := (hchar x hx (k + 1)).2 ⟨by omega, hke, by
              have := hagree i (Nat.le_refl _) (by omega)
              rw [hgc] at this
              rw [← this]
              exact hxj.symm⟩
            have := ih rest (i + 1) x.2.1 x.2.2 a a1 k hcall hk0.1 hk1.2
              (fun l h1 h2 => hagree l (by omega) (by omega))
            rw [show i + (m + 1) = i + 1 + m by omega]
            exact this
          · cases h

/-- With a descending pair of adjacent tuples that agree at the levels before a Sparse
level `d`, below Sparse levels only, `pack` returns no result. -/
theorem pack_descending_not_ok (dims : List Nat) (ctype : ComponentType) (format : Format)
    (coords : List (List Int)) (hnn : NonNegative coords) (d k : Nat)
    (hsp : ∀ l : Nat, l ≤ d → format[l]? = some (⟨.Sparse⟩ : Level))
    (hk : k + 1 < numCoords coords)
    (hagree : ∀ l, l < d → (coords.getD l []).getD k 0 = (coords.getD l []).getD (k + 1) 0)
    (hdesc : (coords.getD d []).getD (k + 1) 0 < (coords.getD d []).getD k 0) :
    ∀ r, pack dims ctype format coords ≠ .ok r := by
  intro r hr
  obtain ⟨ind0, nnz, _, _, _, _, hpk, _⟩ := pack_ok dims ctype format coords r hr
  rw [eq_replicate_append ⟨.Sparse⟩ d format hsp] at hpk
  have := packIndicesFrom_sparse_ascending dims coords hnn d _ 0 0 _ ind0 r.indices k hpk
    (Nat.zero_le _) hk (fun l _ h2 => hagree l (by omega))
  rw [Nat.zero_add] at this
  omega

theorem callAll_outcome (recurse : Nat → Nat → Indices → Except PackError Indices)
    (J : Indices → Nat → Prop) :
    ∀ (rs : List (Int × Nat × Nat)) ind t, J ind t →
      (∀ x ∈ rs, ∀ a t, J a t →
        (∃ a1, recurse x.2.1 x.2.2 a = .ok a1 ∧ J a1 (t + 1)) ∨
          recurse x.2.1 x.2.2 a = .error .assertion) →
      (∃ ind1, callAll recurse rs ind = .ok ind1) ∨
        callAll recurse rs ind = .error .assertion := by
  intro rs
  induction rs with
  | nil => intro ind t _ _; exact Or.inl ⟨ind, rfl⟩
  | cons y rs ih =>
    intro ind t hJ hstep
    obtain ⟨j, cb, ce⟩ := y
    rcases hstep (j, cb, ce) (List.mem_cons_self _ _) ind t hJ with ⟨a1, ha, hJ1⟩ | herr
    · simp only [callAll] at ha ⊢
      rw [ha]
      exact ih a1 (t + 1) hJ1 (fun x hx => hstep x (List.mem_cons_of_mem _ hx))
    · simp only [callAll] at herr ⊢
      rw [herr]
      exact Or.inr rfl

/-- On a table of equal-length sequences of non-negative coordinates, a call of
`packIndices` for a format of Sparse levels returns or fails with the assertion: no access
is out of bounds. -/
theorem packIndicesFrom_allSparse_outcome (dims : List Nat) (coords : List (List Int))
    (N : Nat) :
    ∀ k i b e p ind,
      (∀ l, i ≤ l → l < i + k →
        ∃ col, coords[l]? = some col ∧ col.length = N ∧ ∀ x ∈ col, 0 ≤ x ∧ x < 2 ^ 31) →
      b ≤ e → e ≤ N →
      Ready dims ind (List.replicate k (⟨.Sparse⟩ : Level) ++ [⟨.Values⟩]) i p →
      (∃ ind1, packIndicesFrom dims coords
          (List.replicate k (⟨.Sparse⟩ : Level) ++ [⟨.Values⟩]) i b e ind = .ok ind1) ∨
        packIndicesFrom dims coords
          (List.replicate k (⟨.Sparse⟩ : Level) ++ [⟨.Values⟩]) i b e ind
            = .error .assertion := by
  intro k
  induction k with
  | zero => intro i b e p ind _ _ _ _; exact Or.inl ⟨ind, by simp [packIndicesFrom]⟩
  | succ k ih =>
    intro i b e p ind hshape hbe heN hready
    obtain ⟨col, hcol, hclen, hv⟩ := hshape i (Nat.le_refl _) (by omega)
    rw [List.replicate_succ, List.cons_append] at hready ⊢
    simp only [Ready] at hready
    obtain ⟨seg, crd, hind, hp, hlast, hrdy⟩ := hready
    have he : e ≤ col.length := by omega
    have hF : Faithful (entries col b e) := faithful_of_sameSign _ (Or.inl (fun x hx => by
      obtain ⟨r, _, _, hr⟩ := (mem_entries col b e x).1 hx
      exact hv x (List.getElem?_mem hr)))
    have heq := getUniqueEntries_eq_uniqueAdjacent col b e hbe he
    by_cases hc : (entries col b e).Chain' (· ≤ ·)
    · obtain ⟨u, hu, hus, hum⟩ := (uniqueAdjacent_spec _ hF).1 hc
      rw [← heq] at hu
      have hasc := sorted_entries_positions col b e he ((sorted_iff_chain' _).2 hc)
      have hH : ∀ r, b ≤ r → r < e → col.getD r 0 ∈ u := fun r h1 h2 =>
        (hum _).2 ((mem_entries col b e _).2 ⟨r, h1, h2, getD_of_lt col r (by omega)⟩)
      obtain ⟨rs, hrs, _, hcons, _⟩ := childRanges_partition col e he u b hbe hus hH hasc
      simp only [packIndicesFrom, hcol, hu, hind, List.getElem?_cons_zero,
        List.getElem?_cons_succ]
      rw [childLoop_eq_callAll _ _ _ _ _ _ _ hrs]
      refine callAll_outcome _
        (fun a t => Ready dims a (List.replicate k (⟨.Sparse⟩ : Level) ++ [⟨.Values⟩]) (i + 1) t)
        rs _ crd.length
        (ready_congr dims ind _ _ (i + 1) _
          (fun l hl => by rw [List.getElem?_set, if_neg (by omega)]) hrdy)
        (fun x hx a t hJ => ?_)
      have hb := (consecutive_bounds rs b e hcons).2 x hx
      rcases ih (i + 1) x.2.1 x.2.2 t a (fun l h1 h2 => hshape l (by omega) (by omega))
        hb.2.1 (by omega) hJ with ⟨a1, ha⟩ | herr
      · exact Or.inl ⟨a1, ha, packIndicesFrom_ready dims coords _ (i + 1) _ _ t a a1 hJ ha⟩
      · exact Or.inr herr
    · have hu := (uniqueAdjacent_spec _ hF).2 hc
      rw [← heq] at hu
      right
      simp only [packIndicesFrom, hcol, hu]

/-- For a format of Sparse levels and a table of that rank with non-negative coordinates,
a descending pair of adjacent tuples that agree at the levels before it makes `pack` fail
with the assertion. -/
theorem pack_allSparse_descending (dims : List Nat) (ctype : ComponentType) (n : Nat)
    (coords : List (List Int)) (hrank : coords.length = n + 1) (htable : IsTable coords)
    (hnn : NonNegative coords) (d k : Nat) (hd : d ≤ n) (hk : k + 1 < numCoords coords)
    (hagree : ∀ l, l < d → (coords.getD l []).getD k 0 = (coords.getD l []).getD (k + 1) 0)
    (hdesc : (coords.getD d []).getD (k + 1) 0 < (coords.getD d []).getD k 0) :
    pack dims ctype (List.replicate (n + 1) (⟨.Sparse⟩ : Level) ++ [⟨.Values⟩]) coords
      = .error .assertion := by
  have hlv : ∀ l ∈ List.replicate (n + 1) (⟨.Sparse⟩ : Level), l.type ≠ .Values :=
    fun l hl => by rw [List.eq_of_mem_replicate hl]; decide
  obtain ⟨ind0, nnz, hinit⟩ := initIndices_total dims (numCoords coords)
    (List.replicate (n + 1) (⟨.Sparse⟩ : Level)) 0 [] 1 rfl hlv
    (fun k hk hkd => by
      rw [List.length_replicate] at hk
      rw [List.getD_eq_getElem?_getD, List.getElem?_replicate, if_pos hk] at hkd
      simp at hkd)
  have hrdy := ready_initial dims ind0 (List.replicate (n + 1) (⟨.Sparse⟩ : Level) ++ [⟨.Values⟩])
    0 (initIndices_sparse dims _ _ 0 [] 1 ind0 nnz (Nat.le_refl _) hinit).2
  have hout := packIndicesFrom_allSparse_outcome dims coords (numCoords coords) (n + 1) 0 0
    (numCoords coords) 0 ind0
    (fun l _ hl =>
      have hl2 : l < coords.length := by omega
      ⟨coords[l], List.getElem?_eq_getElem hl2,
        htable _ (List.getElem_mem _), hnn _ (List.getElem_mem _)⟩)
    (Nat.zero_le _) (Nat.le_refl _) hrdy
  rcases hout with ⟨ind1, hpk⟩ | hpk
  · exfalso
    have hfe := eq_replicate_append ⟨.Sparse⟩ d
      (List.replicate (n + 1) (⟨.Sparse⟩ : Level) ++ [(⟨.Values⟩ : Level)])
      (fun l hl => by
        rw [List.getElem?_append_left (by simp; omega), List.getElem?_replicate,
          if_pos (by omega)])
    have hpk1 : packIndicesFrom dims coords (List.replicate (d + 1) (⟨.Sparse⟩ : Level) ++
        (List.replicate (n + 1) (⟨.Sparse⟩ : Level) ++ [(⟨.Values⟩ : Level)]).drop (d + 1))
        0 0 (numCoords coords) ind0 = .ok ind1 := by
      rw [← hfe]; exact hpk
    have := packIndicesFrom_sparse_ascending dims coords hnn d _ 0 0 _ ind0 ind1 k hpk1
      (Nat.zero_le _) hk (fun l _ h2 => hagree l (by omega))
    rw [Nat.zero_add] at this
    omega
  · cases coords with
    | nil => simp at hrank
    | cons c0 cs =>
      simp only [numCoords, List.headD_cons] at hinit hpk
      simp [pack, hinit, packIndices, hpk]

/-! ### What `pack` rejects before it packs the indices -/

/-- The function `pack` is its setup followed by `packIndices` and the test of the scalar
type. -/
theorem pack_eq_setup (dims : List Nat) (ctype : ComponentType) (format : Format)
    (coords : List (List Int)) :
    pack dims ctype format coords =
      match packSetup dims format coords with
      | .error e => .error e
      | .ok (indices, nnz) =>
        match packIndices dims coords 0 (numCoords coords) format 0 indices with
        | .error e => .error e
        | .ok indices1 =>
          if ctype = .Double then .ok ⟨nnz, nnz, indices1⟩ else .error .unsupportedType := by
  cases coords with
  | nil => rfl
  | cons c0 cs =>
    simp only [pack, packSetup, numCoords, List.headD_cons]
    split
    · rfl
    · rfl

/-- The first loop of `pack` fails exactly when a Dense level has no extent or a Sparse
level comes after a Values level (or after a missing index). -/
theorem initIndices_error_iff (dims : List Nat) (N : Nat) :
    ∀ (levels : List Level) (i : Nat) (ind : Indices) (nnz : Nat), ind.length ≤ i →
      ((∃ e, initIndices dims N levels i ind nnz = .error e) ↔
        (∃ j : Nat, levels[j]? = some (⟨.Dense⟩ : Level) ∧ dims.length ≤ i + j) ∨
        (∃ j : Nat, levels[j]? = some (⟨.Sparse⟩ : Level) ∧
          (ind.length < i ∨ ∃ k : Nat, k < j ∧ levels[k]? = some (⟨.Values⟩ : Level)))) := by
  intro levels
  induction levels with
  | nil =>
    intro i ind nnz _
    simp [initIndices]
  | cons level rest ih =>
    intro i ind nnz hlen
    obtain ⟨t⟩ := level
    cases t
    · simp only [initIndices]
      cases hd : dims[i]? with
      | none =>
        have hle : dims.length ≤ i := List.getElem?_eq_none_iff.1 hd
        exact ⟨fun _ => Or.inl ⟨0, List.getElem?_cons_zero, by omega⟩, fun _ => ⟨_, rfl⟩⟩
      | some d =>
        have hlt : i < dims.length := (List.getElem?_eq_some.1 hd).1
        simp only []
        rw [ih (i + 1) (ind ++ [[]]) _ (by simp; omega)]
        constructor
        · rintro (⟨j, hj, hle⟩ | ⟨j, hj, hc⟩)
          · exact Or.inl ⟨j + 1, by simpa using hj, by omega⟩
          · refine Or.inr ⟨j + 1, by simpa using hj, ?_⟩
            rcases hc with h1 | ⟨k, hk, hkv⟩
            · left; simp at h1; omega
            · exact Or.inr ⟨k + 1, by omega, by simpa using hkv⟩
        · rintro (⟨j, hj, hle⟩ | ⟨j, hj, hc⟩)
          · cases j with
            | zero => omega
            | succ j => exact Or.inl ⟨j, by simpa using hj, by omega⟩
          · cases j with
            | zero => simp at hj
            | succ j =>
              refine Or.inr ⟨j, by simpa using hj, ?_⟩
              rcases hc with h1 | ⟨k, hk, hkv⟩
              · left; simp; omega
              · cases k with
                | zero => simp at hkv
                | succ k => exact Or.inr ⟨k, by omega, by simpa using hkv⟩
    · simp only [initIndices]
      by_cases hlt : ind.length < i
      · have hnone : (ind ++ [[[], []]])[i]? = none :=
          List.getElem?_eq_none_iff.2 (by simp; omega)
        rw [hnone]
        exact ⟨fun _ => Or.inr ⟨0, List.getElem?_cons_zero, Or.inl hlt⟩, fun _ => ⟨_, rfl⟩⟩
      · have heq : ind.length = i := by omega
        have hsome : (ind ++ [[[], []]])[i]? = some [[], []] := by
          rw [List.getElem?_append_right (by omega), heq]; simp
        rw [hsome]
        simp only [List.getElem?_cons_zero]
        rw [ih (i + 1) _ _ (by simp; omega)]
        constructor
        · rintro (⟨j, hj, hle⟩ | ⟨j, hj, hc⟩)
          · exact Or.inl ⟨j + 1, by simpa using hj, by omega⟩
          · refine Or.inr ⟨j + 1, by simpa using hj, ?_⟩
            rcases hc with h1 | ⟨k, hk, hkv⟩
            · simp at h1; omega
            · exact Or.inr ⟨k + 1, by omega, by simpa using hkv⟩
        · rintro (⟨j, hj, hle⟩ | ⟨j, hj, hc⟩)
          · cases j with
            | zero => simp at hj
            | succ j => exact Or.inl ⟨j, by simpa using hj, by omega⟩
          · cases j with
            | zero =>
              rcases hc with h1 | ⟨k, hk, _⟩
              · omega
              · omega
            | succ j =>
              refine Or.inr ⟨j, by simpa using hj, ?_⟩
              rcases hc with h1 | ⟨k, hk, hkv⟩
              · omega
              · cases k with
                | zero => simp at hkv
                | succ k => exact Or.inr ⟨k, by omega, by simpa using hkv⟩
    · simp only [initIndices]
      rw [ih (i + 1) ind _ (by omega)]
      constructor
      · rintro (⟨j, hj, hle⟩ | ⟨j, hj, hc⟩)
        · exact Or.inl ⟨j + 1, by simpa using hj, by omega⟩
        · exact Or.inr ⟨j + 1, by simpa using hj, Or.inr ⟨0, by omega, List.getElem?_cons_zero⟩⟩
      · rintro (⟨j, hj, hle⟩ | ⟨j, hj, hc⟩)
        · cases j with
          | zero => simp at hj
          | succ j => exact Or.inl ⟨j, by simpa using hj, by omega⟩
        · cases j with
          | zero => simp at hj
          | succ j => exact Or.inr ⟨j, by simpa using hj, Or.inl (by omega)⟩

/-! ### The count after the last Sparse level, and the frame of `packIndices` -/

/-- The Dense extents of the levels from `i` on depend on the extents at the positions
from `i` on only. -/
theorem denseExtents_congr (dims dims2 : List Nat) :
    ∀ (levels : List Level) (i : Nat), (∀ l, i ≤ l → dims2.getD l 0 = dims.getD l 0) →
      denseExtents dims2 levels i = denseExtents dims levels i := by
  intro levels
  induction levels with
  | nil => intro i _; rfl
  | cons level rest ih =>
    intro i h
    simp only [denseExtents]
    rw [ih (i + 1) (fun l hl => h l (by omega)), h i (Nat.le_refl _)]

theorem grows_refl (a : Indices) : Grows a a :=
  fun _ index hl => ⟨index, hl, rfl, fun _ arr hk => ⟨arr, hk, List.prefix_refl _⟩⟩

theorem grows_trans (a b c : Indices) (h1 : Grows a b) (h2 : Grows b c) : Grows a c := by
  intro l index hl
  obtain ⟨x1, hb, hlen1, hp1⟩ := h1 l index hl
  obtain ⟨x2, hc, hlen2, hp2⟩ := h2 l x1 hb
  refine ⟨x2, hc, hlen2.trans hlen1, fun k arr hk => ?_⟩
  obtain ⟨a1, hk1, hpre1⟩ := hp1 k arr hk
  obtain ⟨a2, hk2, hpre2⟩ := hp2 k a1 hk1
  exact ⟨a2, hk2, hpre1.trans hpre2⟩

/-- The Sparse update grows the index it changes. -/
theorem sparseStep_grows (ind : Indices) (i : Nat) (index : Index) (seg crd u : List Int)
    (hindex : ind[i]? = some index) (hseg : index[0]? = some seg)
    (hcrd : index[1]? = some crd) :
    Grows ind (ind.set i (sparseStep index seg crd u)) := by
  intro l index0 hl
  have hlt : i < ind.length := (List.getElem?_eq_some.1 hindex).1
  have h0 : 0 < index.length := (List.getElem?_eq_some.1 hseg).1
  have h1 : 1 < index.length := (List.getElem?_eq_some.1 hcrd).1
  by_cases hli : i = l
  · subst hli
    rw [hindex] at hl
    cases hl
    refine ⟨sparseStep index seg crd u, by rw [List.getElem?_set, if_pos rfl, if_pos hlt],
      by simp [sparseStep], fun k arr hk => ?_⟩
    simp only [sparseStep]
    by_cases hk1 : k = 1
    · subst hk1
      rw [hcrd] at hk
      cases hk
      exact ⟨crd ++ u, by rw [List.getElem?_set, if_pos rfl, if_pos (by simpa using h1)],
        List.prefix_append _ _⟩
    · by_cases hk0 : k = 0
      · subst hk0
        rw [hseg] at hk
        cases hk
        refine ⟨seg ++ [((crd.length + u.length : Nat) : Int)], ?_, List.prefix_append _ _⟩
        rw [List.getElem?_set, if_neg (by omega), List.getElem?_set, if_pos rfl, if_pos h0]
      · refine ⟨arr, ?_, List.prefix_refl _⟩
        rw [List.getElem?_set, if_neg (by omega), List.getElem?_set, if_neg (by omega)]
        exact hk
  · exact ⟨index0, by rw [List.getElem?_set, if_neg hli]; exact hl, rfl,
      fun k arr hk => ⟨arr, hk, List.prefix_refl _⟩⟩

/-- A returning call of `packIndices` grows the indices. -/
theorem packIndicesFrom_grows (dims : List Nat) (coords : List (List Int))
    (levels : List Level) (i b e : Nat) (ind ind1 : Indices)
    (h : packIndicesFrom dims coords levels i b e ind = .ok ind1) : Grows ind ind1 :=
  packIndicesFrom_induct dims coords Grows grows_refl grows_trans 0
    (fun i ind _ _ _ u index seg crd _ _ _ hindex hseg hcrd =>
      sparseStep_grows ind i index seg crd u hindex hseg hcrd)
    levels i b e ind ind1 (Nat.zero_le _) h

/-! ### The subscripts evaluated at the Values level -/

theorem childLoop_checked (recC recF : Nat → Nat → Indices → Except PackError Indices)
    (lc : Option (List Int)) (e : Nat)
    (h : ∀ cb ce ind, recC cb ce ind = recF cb ce ind ∨ recC cb ce ind = .error .outOfBounds) :
    ∀ js cb ind, childLoop recC lc e js cb ind = childLoop recF lc e js cb ind ∨
      childLoop recC lc e js cb ind = .error .outOfBounds := by
  intro js
  induction js with
  | nil => intro cb ind; exact Or.inl rfl
  | cons j js ih =>
    intro cb ind
    simp only [childLoop]
    cases scan lc j (e - cb) cb with
    | error err => exact Or.inl rfl
    | ok ce =>
      rcases h cb ce ind with heq | herr
      · simp only [heq]
        cases recF cb ce ind with
        | error err => exact Or.inl rfl
        | ok ind1 => exact ih ce ind1
      · simp only [herr]
        exact Or.inr trivial

/-- The tested `packIndices` gives the result of `packIndices`, or it fails on a subscript
out of bounds. -/
theorem packIndicesChecked_sim (dims : List Nat) (coords : List (List Int)) :
    ∀ levels i b e ind,
      packIndicesChecked dims coords levels i b e ind
        = packIndicesFrom dims coords levels i b e ind ∨
      packIndicesChecked dims coords levels i b e ind = .error .outOfBounds := by
  intro levels
  induction levels with
  | nil => intro i b e ind; exact Or.inl rfl
  | cons level rest ih =>
    intro i b e ind
    obtain ⟨t⟩ := level
    cases hc : coords[i]? with
    | none => right; simp [packIndicesChecked, hc]
    | some col =>
      cases hi : ind[i]? with
      | none => right; simp [packIndicesChecked, hc, hi]
      | some index =>
        cases t
        · simp only [packIndicesChecked, packIndicesFrom, hc, hi]
          cases dims[i]? with
          | none => exact Or.inl rfl
          | some d => exact childLoop_checked _ _ _ _ (fun cb ce a => ih (i + 1) cb ce a) _ _ _
        · simp only [packIndicesChecked, packIndicesFrom, hc, hi]
          cases getUniqueEntries col b e with
          | error err => exact Or.inl rfl
          | ok u =>
            cases h0 : index[0]? with
            | none => exact Or.inl rfl
            | some seg =>
              cases h1 : index[1]? with
              | none => exact Or.inl rfl
              | some crd =>
                exact childLoop_checked _ _ _ _ (fun cb ce a => ih (i + 1) cb ce a) _ _ _
        · left
          simp [packIndicesChecked, packIndicesFrom, hc, hi]

/-- A child loop whose values contain the entry at `cb` reaches a non-empty child range. -/
theorem childLoop_not_ok (recurse : Nat → Nat → Indices → Except PackError Indices)
    (col : List Int) (e : Nat) (he : e ≤ col.length)
    (hrec : ∀ cb ce ind r, cb < ce → ce ≤ e → recurse cb ce ind ≠ .ok r) :
    ∀ js cb ind r, cb < e → col.getD cb 0 ∈ js →
      childLoop recurse (some col) e js cb ind ≠ .ok r := by
  intro js
  induction js with
  | nil => intro cb ind r _ hmem; simp at hmem
  | cons j js ih =>
    intro cb ind r hcb hmem h
    unfold childLoop at h
    split at h
    · cases h
    · rename_i ce hs
      obtain ⟨h1, h2, h3, h4⟩ := scan_spec col j (e - cb) cb ce (by omega) hs
      split at h
      · cases h
      · rename_i ind1 hr
        by_cases hj : col.getD cb 0 = j
        · have hlt : cb < ce := by
            by_contra hn
            have hce : ce = cb := by omega
            rw [hce] at h4
            exact h4 (by omega) hj
          exact hrec cb ce ind ind1 hlt (by omega) hr
        · have hce : ce = cb := by
            by_contra hn
            exact hj (h3 cb (Nat.le_refl _) (by omega))
          rw [hce] at h
          rcases List.mem_cons.1 hmem with hm | hm
          · exact hj hm
          · exact ih cb ind1 r hcb hm h

/-- On a non-empty range of tuples with coordinates inside the extents, the tested
`packIndices` does not return: the recursion reaches the Values level, where `coords[i]`
has no element. -/
theorem packIndicesChecked_not_ok (dims : List Nat) (coords : List (List Int)) (N : Nat)
    (hnn : NonNegative coords) (htable : ∀ col ∈ coords, col.length = N) :
    ∀ (lv : List Level) (i b e : Nat) (ind r : Indices), (∀ l ∈ lv, l.type ≠ .Values) →
      coords.length = i + lv.length → b < e → e ≤ N →
      (∀ k : Nat, k < lv.length → (lv.getD k ⟨.Values⟩).type = .Dense →
        ∀ d, dims[i + k]? = some d → d < 2 ^ 31 ∧ ∀ x ∈ coords.getD (i + k) [], x < (d : Int)) →
      packIndicesChecked dims coords (lv ++ [⟨.Values⟩]) i b e ind ≠ .ok r := by
  intro lv
  induction lv with
  | nil =>
    intro i b e ind r _ hlen _ _ _ h
    simp only [List.nil_append, packIndicesChecked] at h
    rw [List.getElem?_eq_none (by simp at hlen; omega)] at h
    simp at h
  | cons level rest ih =>
    intro i b e ind r hlv hlen hbe he hdense h
    have hrest : ∀ l ∈ rest, l.type ≠ .Values := fun l hl => hlv l (List.mem_cons_of_mem _ hl)
    have hl0 := hlv level (List.mem_cons_self _ _)
    have hlen1 : coords.length = i + 1 + rest.length := by simp at hlen; omega
    have hd1 : ∀ k : Nat, k < rest.length → (rest.getD k ⟨.Values⟩).type = .Dense →
        ∀ d, dims[i + 1 + k]? = some d →
          d < 2 ^ 31 ∧ ∀ x ∈ coords.getD (i + 1 + k) [], x < (d : Int) := by
      intro k hk hkd d hd
      have hik : i + (k + 1) = i + 1 + k := by omega
      have := hdense (k + 1) (by simp; omega) (by simpa using hkd) d (by rw [hik]; exact hd)
      rw [hik] at this
      exact this
    have hrec : ∀ cb ce a r1, cb < ce → ce ≤ e →
        packIndicesChecked dims coords (rest ++ [⟨.Values⟩]) (i + 1) cb ce a ≠ .ok r1 :=
      fun cb ce a r1 h1 h2 => ih (i + 1) cb ce a r1 hrest hlen1 h1 (by omega) hd1
    obtain ⟨t⟩ := level
    rw [List.cons_append] at h
    unfold packIndicesChecked at h
    split at h
    · rename_i col index hc hi
      have hmem : col ∈ coords := List.getElem?_mem hc
      have hcl : col.length = N := htable col hmem
      have hgetD : coords.getD i [] = col := by
        rw [List.getD_eq_getElem?_getD, hc, Option.getD_some]
      cases t
      · simp only at h
        split at h
        · cases h
        · rename_i d hd
          obtain ⟨hd31, hlt⟩ := hdense 0 (by simp) (by simp) d (by simpa using hd)
          rw [Nat.add_zero, hgetD] at hlt
          have hx : col.getD b 0 ∈ col := List.getElem?_mem (getD_of_lt col b (by omega))
          have h0 := (hnn col hmem _ hx).1
          have h1 := hlt _ hx
          refine childLoop_not_ok _ col e (by omega) hrec _ b ind r hbe ?_ h
          rw [toInt_of_lt d hd31]
          simp only [denseValues, List.mem_map, List.mem_range]
          exact ⟨(col.getD b 0).toNat, by omega, by omega⟩
      · simp only at h
        split at h
        · cases h
        · rename_i u hu
          have hx : col.getD b 0 ∈ u :=
            ((getUniqueEntries_spec col (hnn col hmem) b e u hu).2 _).2
              ⟨b, Nat.le_refl _, hbe, getD_of_lt col b (by omega)⟩
          split at h
          · exact childLoop_not_ok _ col e (by omega) hrec _ b _ r hbe hx h
          · cases h
      · exact hl0 rfl
    · cases h

/-- The setup of a returning call of `pack`. -/
theorem pack_ok_setup (dims : List Nat) (ctype : ComponentType) (format : Format)
    (coords : List (List Int)) (r : PackedTensor) (h : pack dims ctype format coords = .ok r) :
    ∃ ind0, packSetup dims format coords = .ok (ind0, r.nnz) ∧
      packIndicesFrom dims coords format 0 0 (numCoords coords) ind0 = .ok r.indices := by
  obtain ⟨ind0, nnz, hc, hf, _, hinit, hpk, hnnz⟩ := pack_ok dims ctype format coords r h
  refine ⟨ind0, ?_, hpk⟩
  cases coords with
  | nil => exact absurd rfl hc
  | cons c0 cs =>
    have hlen : format.length ≠ 0 := fun h0 => hf (List.length_eq_zero.1 h0)
    simp only [numCoords, List.headD_cons] at hinit
    simp only [packSetup, if_neg hlen, hinit, hnnz]

/-- On every input with at least one tuple and coordinates inside the extents on which
`pack` returns, the tested `pack` fails on a subscript out of bounds. -/
theorem packChecked_out_of_bounds (dims : List Nat) (ctype : ComponentType)
    (lv : List Level) (coords : List (List Int)) (r : PackedTensor)
    (hlv : ∀ l ∈ lv, l.type ≠ .Values) (hrank : coords.length = lv.length)
    (htable : IsTable coords) (hpos : 0 < numCoords coords) (hnn : NonNegative coords)
    (hdb : DenseBounded dims lv coords)
    (h : pack dims ctype (lv ++ [⟨.Values⟩]) coords = .ok r) :
    packChecked dims ctype (lv ++ [⟨.Values⟩]) coords = .error .outOfBounds := by
  obtain ⟨ind0, hsetup, hpk⟩ := pack_ok_setup dims ctype _ coords r h
  have hno := packIndicesChecked_not_ok dims coords (numCoords coords) hnn htable lv 0 0
    (numCoords coords) ind0 r.indices hlv (by omega) hpos (Nat.le_refl _)
    (fun k hk hkd d hd => by
      obtain ⟨h1, h2, h3⟩ := hdb k hk hkd
      rw [Nat.zero_add] at hd ⊢
      have hdk : dims.getD k 0 = d := by
        rw [List.getD_eq_getElem?_getD, hd, Option.getD_some]
      rw [hdk] at h2 h3
      exact ⟨h2, h3⟩)
  rcases packIndicesChecked_sim dims coords (lv ++ [⟨.Values⟩]) 0 0 (numCoords coords) ind0
    with heq | herr
  · rw [hpk] at heq
    exact absurd heq hno
  · simp only [packChecked, hsetup, herr]

/-! ### The other subscripts are inside their containers -/

theorem uniqueLoop_in_bounds (v : List Int) :
    ∀ n it curr acc, it + n ≤ v.length →
      uniqueLoop v n it curr acc ≠ .error .outOfBounds := by
  intro n
  induction n with
  | zero => intro it curr acc _ h; simp [uniqueLoop] at h
  | succ n ih =>
    intro it curr acc hlen h
    have hit : it < v.length := by omega
    unfold uniqueLoop at h
    simp only [List.getElem?_eq_getElem hit] at h
    split at h
    · split at h
      · exact ih _ _ _ (by omega) h
      · exact ih _ _ _ (by omega) h
    · cases h

/-- On a range inside the sequence `getUniqueEntries` reads no entry out of bounds. -/
theorem getUniqueEntries_in_bounds (v : List Int) (b e : Nat) (hbe : b ≤ e)
    (he : e ≤ v.length) : getUniqueEntries v b e ≠ .error .outOfBounds := by
  intro h
  unfold getUniqueEntries at h
  rw [if_neg (by omega)] at h
  split at h
  · have hb : b < v.length := by omega
    simp only [List.getElem?_eq_getElem hb] at h
    exact uniqueLoop_in_bounds v _ _ _ _ (by omega) h
  · cases h

theorem childLoop_in_bounds (recurse : Nat → Nat → Indices → Except PackError Indices)
    (col : List Int) (e : Nat) (he : e ≤ col.length) (J : Indices → Nat → Prop)
    (hrec : ∀ cb ce a t, cb ≤ ce → ce ≤ e → J a t →
      recurse cb ce a ≠ .error .outOfBounds ∧ ∀ a1, recurse cb ce a = .ok a1 → J a1 (t + 1)) :
    ∀ js cb ind t, cb ≤ e → J ind t →
      childLoop recurse (some col) e js cb ind ≠ .error .outOfBounds := by
  intro js
  induction js with
  | nil => intro cb ind t _ _ h; simp [childLoop] at h
  | cons j js ih =>
    intro cb ind t hcb hJ h
    obtain ⟨ce, hs⟩ := scan_total col j (e - cb) cb (by omega)
    have hb := scan_bounds (some col) j _ _ _ hs
    obtain ⟨h1, h2⟩ := hrec cb ce ind t hb.1 (by omega) hJ
    simp only [childLoop, hs] at h
    split at h
    · rename_i err hr
      cases h
      exact h1 hr
    · rename_i a1 hr
      exact ih ce a1 (t + 1) (by omega) (h2 a1 hr) h

/-- With as many coordinate sequences and extents as there are levels before Values, all
sequences of the same length, `packIndices` evaluates no subscript out of bounds in its
switch. -/
theorem packIndicesFrom_in_bounds (dims : List Nat) (coords : List (List Int)) (N : Nat)
    (htable : ∀ col ∈ coords, col.length = N) :
    ∀ (lv : List Level) (i b e p : Nat) (ind : Indices), (∀ l ∈ lv, l.type ≠ .Values) →
      coords.length = i + lv.length → dims.length = i + lv.length → b ≤ e → e ≤ N →
      Ready dims ind (lv ++ [⟨.Values⟩]) i p →
      packIndicesFrom dims coords (lv ++ [⟨.Values⟩]) i b e ind ≠ .error .outOfBounds := by
  intro lv
  induction lv with
  | nil => intro i b e p ind _ _ _ _ _ _ h; simp [packIndicesFrom] at h
  | cons level rest ih =>
    intro i b e p ind hlv hclen hdlen hbe he hready h
    have hrest : ∀ l ∈ rest, l.type ≠ .Values := fun l hl => hlv l (List.mem_cons_of_mem _ hl)
    have hl0 := hlv level (List.mem_cons_self _ _)
    have hic : i < coords.length := by simp at hclen; omega
    have hid : i < dims.length := by simp at hdlen; omega
    have hcl : coords[i].length = N := htable _ (List.getElem_mem _)
    have hrec : ∀ cb ce a t, cb ≤ ce → ce ≤ e →
        Ready dims a (rest ++ [⟨.Values⟩]) (i + 1) t →
        packIndicesFrom dims coords (rest ++ [⟨.Values⟩]) (i + 1) cb ce a
            ≠ .error .outOfBounds ∧
          ∀ a1, packIndicesFrom dims coords (rest ++ [⟨.Values⟩]) (i + 1) cb ce a = .ok a1 →
            Ready dims a1 (rest ++ [⟨.Values⟩]) (i + 1) (t + 1) :=
      fun cb ce a t h1 h2 hJ =>
        ⟨ih (i + 1) cb ce t a hrest (by simp at hclen; omega) (by simp at hdlen; omega) h1
            (by omega) hJ,
          fun a1 ha => packIndicesFrom_ready dims coords _ (i + 1) cb ce t a a1 hJ ha⟩
    obtain ⟨t⟩ := level
    rw [List.cons_append] at h hready
    cases t
    · simp only [packIndicesFrom, List.getElem?_eq_getElem hid,
        List.getElem?_eq_getElem hic] at h
      simp only [Ready] at hready
      exact childLoop_in_bounds _ coords[i] e (by omega) _ hrec _ b ind _ hbe hready h
    · simp only [packIndicesFrom, List.getElem?_eq_getElem hic] at h
      simp only [Ready] at hready
      obtain ⟨seg, crd, hind, _, _, hrdy⟩ := hready
      split at h
      · rename_i err hu
        cases h
        exact getUniqueEntries_in_bounds coords[i] b e hbe (by omega) hu
      · rename_i u hu
        simp only [hind, List.getElem?_cons_zero, List.getElem?_cons_succ] at h
        exact childLoop_in_bounds _ coords[i] e (by omega) _ hrec _ b _ crd.length hbe
          (ready_congr dims ind _ _ (i + 1) _
            (fun l hl => by rw [List.getElem?_set, if_neg (by omega)]) hrdy) h
    · exact hl0 rfl

/-- Under the same conditions `pack` evaluates no subscript out of bounds, the two at the
head of `packIndices` set aside. -/
theorem pack_in_bounds (dims : List Nat) (ctype : ComponentType) (lv : List Level)
    (coords : List (List Int)) (hlv : ∀ l ∈ lv, l.type ≠ .Values)
    (hrank : coords.length = lv.length) (hdims : dims.length = lv.length)
    (htable : IsTable coords) :
    pack dims ctype (lv ++ [⟨.Values⟩]) coords ≠ .error .outOfBounds := by
  intro h
  obtain ⟨ind0, nnz, hinit⟩ := initIndices_total dims (numCoords coords) lv 0 [] 1 rfl hlv
    (fun k hk _ => by omega)
  have hrdy := ready_initial dims ind0 (lv ++ [⟨.Values⟩]) 0
    (initIndices_sparse dims _ _ 0 [] 1 ind0 nnz (Nat.le_refl _) hinit).2
  have hpk := packIndicesFrom_in_bounds dims coords (numCoords coords) htable lv 0 0
    (numCoords coords) 0 ind0 hlv (by omega) (by omega) (Nat.zero_le _) (Nat.le_refl _) hrdy
  cases coords with
  | nil => simp [pack] at h
  | cons c0 cs =>
    simp only [numCoords, List.headD_cons] at hinit hpk
    simp only [pack, hinit, packIndices, List.drop_zero] at h
    rw [if_neg (by simp)] at h
    split at h
    · rename_i err hr
      cases h
      exact hpk hr
    · split at h
      · cases h
      · cases h

/-! ### A descending pair inside a segment -/

/-- When the child loop returns on an ascending range, two adjacent positions with the same
coordinate lie in one child range, on which the recursive call has returned. -/
theorem childLoop_ok_child (recurse : Nat → Nat → Indices → Except PackError Indices)
    (col : List Int) (e : Nat) (he : e ≤ col.length) (js : List Int) (b : Nat)
    (hjs : js.Sorted (· < ·)) (hH : ∀ r, b ≤ r → r < e → col.getD r 0 ∈ js)
    (hasc : ∀ r r1, b ≤ r → r ≤ r1 → r1 < e → col.getD r 0 ≤ col.getD r1 0)
    (ind ind1 : Indices) (h : childLoop recurse (some col) e js b ind = .ok ind1) (k : Nat)
    (hbk : b ≤ k) (hke : k + 1 < e) (heq : col.getD k 0 = col.getD (k + 1) 0) :
    ∃ cb ce a a1, recurse cb ce a = .ok a1 ∧ cb ≤ k ∧ k + 1 < ce ∧ b ≤ cb ∧ ce ≤ e ∧
      ∀ r, cb ≤ r → r < ce → col.getD r 0 = col.getD k 0 := by
  obtain ⟨rs, hrs, hmap, hcons, hchar⟩ := childRanges_partition col e he js b (by omega)
    hjs hH hasc
  rw [childLoop_eq_callAll _ _ _ _ _ _ _ hrs] at h
  have hj := hH k hbk (by omega)
  rw [← hmap] at hj
  obtain ⟨x, hx, hxj⟩ := List.mem_map.1 hj
  obtain ⟨a, a1, hcall⟩ := callAll_ok_mem _ rs _ _ h x hx
  have hk0 := (hchar x hx k).2 ⟨hbk, by omega, hxj.symm⟩
  have hk1 := (hchar x hx (k + 1)).2 ⟨by omega, hke, by rw [← heq]; exact hxj.symm⟩
  have hb := (consecutive_bounds rs b e hcons).2 x hx
  exact ⟨x.2.1, x.2.2, a, a1, hcall, hk0.1, hk1.2, hb.1, hb.2.2,
    fun r h1 h2 => by rw [((hchar x hx r).1 ⟨h1, h2⟩).2.2]; exact hxj⟩

/-- A call of `packIndices` whose range holds a descending pair of adjacent tuples at a
Sparse level below it does not return, when the two tuples agree at the levels in between
and every Dense level in between is in order for the tuples of their segment. -/
theorem packIndicesFrom_descent_not_ok (dims : List Nat) (coords : List (List Int))
    (hnn : NonNegative coords) (k : Nat) :
    ∀ (pre rest : List Level) (i b e : Nat) (ind ind1 : Indices),
      (∀ l ∈ pre, l.type ≠ .Values) → b ≤ k → k + 1 < e → e ≤ numCoords coords →
      (∀ r, b ≤ r → r < e → AgreeBefore coords i r k) →
      (∀ l, i ≤ l → l < i + pre.length →
        (coords.getD l []).getD k 0 = (coords.getD l []).getD (k + 1) 0) →
      (∀ t : Nat, t < pre.length → (pre.getD t ⟨.Values⟩).type = .Dense →
        DenseRun dims coords (i + t) k) →
      (coords.getD (i + pre.length) []).getD (k + 1) 0
        < (coords.getD (i + pre.length) []).getD k 0 →
      packIndicesFrom dims coords (pre ++ (⟨.Sparse⟩ : Level) :: rest) i b e ind
        ≠ .ok ind1 := by
  intro pre
  induction pre with
  | nil =>
    intro rest i b e ind ind1 _ hbk hke _ _ _ _ hdesc h
    rw [List.nil_append] at h
    simp only [packIndicesFrom] at h
    split at h
    · cases h
    · rename_i col hcol
      split at h
      · cases h
      · rename_i u hu
        obtain ⟨he, hasc⟩ := getUniqueEntries_ok_ascending col (hnn col (List.getElem?_mem hcol))
          b e u hu (by omega)
        have hgc : coords.getD i [] = col := by
          rw [List.getD_eq_getElem?_getD, hcol, Option.getD_some]
        rw [List.length_nil, Nat.add_zero, hgc] at hdesc
        have := sorted_entries_positions col b e he hasc k (k + 1) hbk (by omega) hke
        omega
  | cons level pre ih =>
    intro rest i b e ind ind1 hpre hbk hke heN hrange hagree hdense hdesc h
    have hpre1 : ∀ l ∈ pre, l.type ≠ .Values := fun l hl => hpre l (List.mem_cons_of_mem _ hl)
    have hl0 := hpre level (List.mem_cons_self _ _)
    have hag0 := hagree i (Nat.le_refl _) (by simp)
    have hnext : ∀ cb ce a a1, cb ≤ k → k + 1 < ce → b ≤ cb → ce ≤ e →
        (∀ r, cb ≤ r → r < ce → (coords.getD i []).getD r 0 = (coords.getD i []).getD k 0) →
        packIndicesFrom dims coords (pre ++ (⟨.Sparse⟩ : Level) :: rest) (i + 1) cb ce a
          ≠ .ok a1 := by
      intro cb ce a a1 h1 h2 h3 h4 hrun
      refine ih rest (i + 1) cb ce a a1 hpre1 h1 h2 (by omega) ?_ ?_ ?_ ?_
      · intro r hr1 hr2 m hm
        rcases Nat.lt_succ_iff_lt_or_eq.1 hm with hlt | heq
        · exact hrange r (by omega) (by omega) m hlt
        · rw [heq]; exact hrun r hr1 hr2
      · intro l hl1 hl2
        exact hagree l (by omega) (by simp; omega)
      · intro t ht htd
        have := hdense (t + 1) (by simp; omega) (by simpa using htd)
        rw [show i + (t + 1) = i + 1 + t by omega] at this
        exact this
      · have hlen : i + (level :: pre).length = i + 1 + pre.length := by simp; omega
        rw [hlen] at hdesc
        exact hdesc
    obtain ⟨t⟩ := level
    rw [List.cons_append] at h
    cases t
    · obtain ⟨hdl, hd31, hlen, hlt, hasc⟩ := hdense 0 (by simp) (by simp)
      rw [Nat.add_zero] at hdl hd31 hlen hlt hasc
      have hdi : dims[i]? = some (dims.getD i 0) := by
        rw [List.getD_eq_getElem?_getD, List.getElem?_eq_getElem hdl, Option.getD_some]
      have hci : i < coords.length := by
        by_contra hn
        rw [List.getD_eq_getElem?_getD, List.getElem?_eq_none (by omega)] at hlen
        simp at hlen
        omega
      have hcol : coords[i]? = some (coords.getD i []) := by
        rw [List.getD_eq_getElem?_getD, List.getElem?_eq_getElem hci, Option.getD_some]
      have hmem : coords.getD i [] ∈ coords := List.getElem?_mem hcol
      simp only [packIndicesFrom, hdi, hcol, toInt_of_lt _ hd31] at h
      obtain ⟨cb, ce, a, a1, hcall, h1, h2, h3, h4, hrun⟩ := childLoop_ok_child _
        (coords.getD i []) e (by omega) _ b (denseValues_sorted _)
        (fun r hr1 hr2 => by
          have hx : (coords.getD i []).getD r 0 ∈ coords.getD i [] :=
            List.getElem?_mem (getD_of_lt _ r (by omega))
          have h0 := (hnn _ hmem _ hx).1
          have h5 := hlt r (by omega) (hrange r hr1 hr2)
          refine List.getElem?_mem (n := ((coords.getD i []).getD r 0).toNat) ?_
          rw [denseValues_getElem?]
          omega)
        (fun r r1 hr1 hr2 hr3 => hasc r1 (by omega) r hr2 (hrange r hr1 (by omega))
          (hrange r1 (by omega) hr3))
        ind ind1 h k hbk hke hag0
      exact hnext cb ce a a1 h1 h2 h3 h4 hrun hcall
    · simp only [packIndicesFrom] at h
      split at h
      · cases h
      · rename_i col hcol
        split at h
        · cases h
        · rename_i u hu
          have hv := hnn col (List.getElem?_mem hcol)
          obtain ⟨he, hasc⟩ := getUniqueEntries_ok_ascending col hv b e u hu (by omega)
          obtain ⟨hus, hum⟩ := getUniqueEntries_spec col hv b e u hu
          have hgc : coords.getD i [] = col := by
            rw [List.getD_eq_getElem?_getD, hcol, Option.getD_some]
          rw [hgc] at hag0 hnext
          split at h
          · cases h
          · split at h
            · obtain ⟨cb, ce, a, a1, hcall, h1, h2, h3, h4, hrun⟩ := childLoop_ok_child _
                col e he u b hus
                (fun r hr1 hr2 => (hum _).2 ⟨r, hr1, hr2, getD_of_lt col r (by omega)⟩)
                (sorted_entries_positions col b e he hasc) _ ind1 h k hbk hke hag0
              exact hnext cb ce a a1 h1 h2 h3 h4 hrun hcall
            · cases h
    · exact hl0 rfl

/-! ### The kinds of failure of `packIndices` -/

theorem scan_error_kind (lc : Option (List Int)) (j : Int) :
    ∀ n cend err, scan lc j n cend = .error err → err = .outOfBounds := by
  intro n
  induction n with
  | zero => intro cend err h; simp [scan] at h
  | succ n ih =>
    intro cend err h
    unfold scan at h
    split at h
    · cases h; rfl
    · split at h
      · cases h; rfl
      · split at h
        · exact ih _ _ h
        · cases h

theorem uniqueLoop_error_kind (v : List Int) :
    ∀ n it curr acc err, uniqueLoop v n it curr acc = .error err →
      err = .outOfBounds ∨ err = .assertion := by
  intro n
  induction n with
  | zero => intro it curr acc err h; simp [uniqueLoop] at h
  | succ n ih =>
    intro it curr acc err h
    unfold uniqueLoop at h
    split at h
    · cases h; exact Or.inl rfl
    · simp only at h
      split at h
      · split at h
        · exact ih _ _ _ _ h
        · exact ih _ _ _ _ h
      · cases h; exact Or.inr rfl

theorem getUniqueEntries_error_kind (v : List Int) (b e : Nat) (err : PackError)
    (h : getUniqueEntries v b e = .error err) : err = .outOfBounds ∨ err = .assertion := by
  unfold getUniqueEntries at h
  split at h
  · cases h; exact Or.inl rfl
  · split at h
    · split at h
      · cases h; exact Or.inl rfl
      · exact uniqueLoop_error_kind v _ _ _ _ _ h
    · cases h

theorem childLoop_error_kind (recurse : Nat → Nat → Indices → Except PackError Indices)
    (lc : Option (List Int)) (e : Nat)
    (hrec : ∀ cb ce a err, recurse cb ce a = .error err →
      err = .outOfBounds ∨ err = .assertion) :
    ∀ js cb ind err, childLoop recurse lc e js cb ind = .error err →
      err = .outOfBounds ∨ err = .assertion := by
  intro js
  induction js with
  | nil => intro cb ind err h; simp [childLoop] at h
  | cons j js ih =>
    intro cb ind err h
    unfold childLoop at h
    split at h
    · rename_i err1 hs
      cases h
      exact Or.inl (scan_error_kind lc j _ _ _ hs)
    · split at h
      · rename_i err1 hr
        cases h
        exact hrec _ _ _ _ hr
      · exact ih _ _ _ h

/-- A call of `packIndices` fails on a subscript out of bounds or on the assertion of
`getUniqueEntries`, in no other way. -/
theorem packIndicesFrom_error_kind (dims : List Nat) (coords : List (List Int)) :
    ∀ levels i b e ind err, packIndicesFrom dims coords levels i b e ind = .error err →
      err = .outOfBounds ∨ err = .assertion := by
  intro levels
  induction levels with
  | nil => intro i b e ind err h; simp only [packIndicesFrom] at h; cases h; exact Or.inl rfl
  | cons level rest ih =>
    intro i b e ind err h
    obtain ⟨t⟩ := level
    cases t
    · simp only [packIndicesFrom] at h
      split at h
      · cases h; exact Or.inl rfl
      · exact childLoop_error_kind _ _ _ (fun cb ce a err1 hr => ih _ _ _ _ _ hr) _ _ _ _ h
    · simp only [packIndicesFrom] at h
      split at h
      · cases h; exact Or.inl rfl
      · split at h
        · rename_i err1 hu
          cases h
          exact getUniqueEntries_error_kind _ _ _ _ hu
        · split at h
          · cases h; exact Or.inl rfl
          · split at h
            · exact childLoop_error_kind _ _ _ (fun cb ce a err1 hr => ih _ _ _ _ _ hr)
                _ _ _ _ h
            · cases h; exact Or.inl rfl
    · simp only [packIndicesFrom] at h
      cases h

/-- For a Format of Dense and Sparse levels followed by Values, with as many coordinate
sequences and extents as there are levels before Values and sequences of equal length, a
call of `pack` whose `packIndices` does not return fails with the assertion. -/
theorem pack_assertion_of_packIndices (dims : List Nat) (ctype : ComponentType)
    (lv : List Level) (coords : List (List Int)) (hlv : ∀ l ∈ lv, l.type ≠ .Values)
    (hrank : coords.length = lv.length) (hdims : dims.length = lv.length)
    (htable : IsTable coords) (hne : coords ≠ [])
    (hno : ∀ ind ind1, packIndicesFrom dims coords (lv ++ [⟨.Values⟩]) 0 0 (numCoords coords) ind
      ≠ .ok ind1) :
    pack dims ctype (lv ++ [⟨.Values⟩]) coords = .error .assertion := by
  obtain ⟨ind0, nnz, hinit⟩ := initIndices_total dims (numCoords coords) lv 0 [] 1 rfl hlv
    (fun k hk _ => by omega)
  have hrdy := ready_initial dims ind0 (lv ++ [⟨.Values⟩]) 0
    (initIndices_sparse dims _ _ 0 [] 1 ind0 nnz (Nat.le_refl _) hinit).2
  have hpk := packIndicesFrom_in_bounds dims coords (numCoords coords) htable lv 0 0
    (numCoords coords) 0 ind0 hlv (by omega) (by omega) (Nat.zero_le _) (Nat.le_refl _) hrdy
  have hno0 := hno ind0
  cases coords with
  | nil => exact absurd rfl hne
  | cons c0 cs =>
    simp only [numCoords, List.headD_cons] at hinit hpk hno0
    simp only [pack, hinit, packIndices, List.drop_zero]
    rw [if_neg (by simp)]
    cases hres : packIndicesFrom dims (c0 :: cs) (lv ++ [⟨.Values⟩]) 0 0 c0.length ind0 with
    | ok ind1 => exact absurd hres (hno0 ind1)
    | error err =>
      rcases packIndicesFrom_error_kind _ _ _ _ _ _ _ _ hres with h1 | h1
      · rw [h1] at hres
        exact absurd hres hpk
      · rw [h1]

/-- With a descending pair of adjacent tuples at a Sparse level `d` that agree at the levels
before it, the Dense levels before `d` being in order for the tuples of their segment,
`packIndices` does not return from the root call. -/
theorem packIndicesFrom_root_descent (dims : List Nat) (format : Format)
    (coords : List (List Int)) (hnn : NonNegative coords) (d k : Nat)
    (hd : format[d]? = some (⟨.Sparse⟩ : Level))
    (hpre : ∀ l : Nat, l < d → format[l]? ≠ some (⟨.Values⟩ : Level))
    (hdense : ∀ l : Nat, l < d → format[l]? = some (⟨.Dense⟩ : Level) → DenseRun dims coords l k)
    (hk : k + 1 < numCoords coords)
    (hagree : ∀ l, l < d → (coords.getD l []).getD k 0 = (coords.getD l []).getD (k + 1) 0)
    (hdesc : (coords.getD d []).getD (k + 1) 0 < (coords.getD d []).getD k 0) :
    ∀ ind ind1, packIndicesFrom dims coords format 0 0 (numCoords coords) ind ≠ .ok ind1 := by
  intro ind ind1
  have hdl : d < format.length := (List.getElem?_eq_some.1 hd).1
  have hfd : format[d] = (⟨.Sparse⟩ : Level) := by
    have := List.getElem?_eq_getElem hdl
    rw [hd] at this
    exact (Option.some.inj this).symm
  have hsplit : format = format.take d ++ (⟨.Sparse⟩ : Level) :: format.drop (d + 1) := by
    rw [← hfd, ← List.drop_eq_getElem_cons hdl, List.take_append_drop]
  have hlen : (format.take d).length = d := by
    rw [List.length_take]; omega
  have hget : ∀ t : Nat, t < d → (format.take d)[t]? = format[t]? := fun t ht =>
    List.getElem?_take_of_lt ht
  rw [hsplit]
  refine packIndicesFrom_descent_not_ok dims coords hnn k (format.take d) _ 0 0 _ ind ind1
    ?_ (Nat.zero_le _) hk (Nat.le_refl _) (fun r _ _ m hm => by omega) ?_ ?_ ?_
  · intro l hl hv
    obtain ⟨t, ht⟩ := List.mem_iff_getElem?.1 hl
    have htd : t < d := by
      have := (List.getElem?_eq_some.1 ht).1
      omega
    rw [hget t htd] at ht
    obtain ⟨lt⟩ := l
    simp only at hv
    subst hv
    exact hpre t htd ht
  · intro l _ hl
    exact hagree l (by omega)
  · intro t ht htd
    rw [hlen] at ht
    rw [Nat.zero_add]
    refine hdense t ht ?_
    rw [List.getD_eq_getElem?_getD, hget t ht, List.getElem?_eq_getElem (by omega),
      Option.getD_some] at htd
    rw [List.getElem?_eq_getElem (by omega)]
    generalize format[t] = lev at htd
    obtain ⟨lt⟩ := lev
    simp only at htd
    rw [htd]
  · rw [hlen, Nat.zero_add]
    exact hdesc

/-! ### The recursive calls of one level -/

/-- At a Dense level the call of `packIndices` is the sequence of recursive calls on the
ranges that the scans of its loop yield. -/
theorem packIndicesFrom_dense_calls (dims : List Nat) (coords : List (List Int))
    (rest : List Level) (i b e d : Nat) (ind : Indices) (rs : List (Int × Nat × Nat))
    (hd : dims[i]? = some d)
    (hrs : childRanges coords[i]? e (denseValues (toInt d)) b = .ok rs) :
    packIndicesFrom dims coords ((⟨.Dense⟩ : Level) :: rest) i b e ind
      = callAll (fun cb ce x => packIndicesFrom dims coords rest (i + 1) cb ce x) rs ind := by
  simp only [packIndicesFrom, hd]
  exact childLoop_eq_callAll _ _ _ _ _ _ _ hrs

/-- At a Sparse level the call of `packIndices` appends the unique entries to its index and
is then the sequence of recursive calls on the ranges that the scans of its loop yield. -/
theorem packIndicesFrom_sparse_calls (dims : List Nat) (coords : List (List Int))
    (rest : List Level) (i b e : Nat) (ind : Indices) (col u : List Int) (index : Index)
    (seg crd : List Int) (rs : List (Int × Nat × Nat)) (hcol : coords[i]? = some col)
    (hu : getUniqueEntries col b e = .ok u) (hrs : childRanges (some col) e u b = .ok rs)
    (hind : ind[i]? = some index) (hseg : index[0]? = some seg) (hcrd : index[1]? = some crd) :
    packIndicesFrom dims coords ((⟨.Sparse⟩ : Level) :: rest) i b e ind
      = callAll (fun cb ce x => packIndicesFrom dims coords rest (i + 1) cb ce x) rs
          (ind.set i (sparseStep index seg crd u)) := by
  simp only [packIndicesFrom, hcol, hu, hind, hseg, hcrd]
  exact childLoop_eq_callAll _ _ _ _ _ _ _ hrs

/-- The first loop of `pack` raises no failure of its own: it can only leave through a
subscript out of bounds. -/
theorem initIndices_error_kind (dims : List Nat) (N : Nat) :
    ∀ (levels : List Level) (i : Nat) (ind : Indices) (nnz : Nat) (err : PackError),
      initIndices dims N levels i ind nnz = .error err → err = .outOfBounds := by
  intro levels
  induction levels with
  | nil => intro i ind nnz err h; simp [initIndices] at h
  | cons level rest ih =>
    intro i ind nnz err h
    obtain ⟨t⟩ := level
    cases t
    · simp only [initIndices] at h
      split at h
      · cases h; rfl
      · exact ih _ _ _ _ h
    · simp only [initIndices] at h
      split at h
      · cases h; rfl
      · split at h
        · cases h; rfl
        · exact ih _ _ _ _ h
    · simp only [initIndices] at h
      exact ih _ _ _ _ h

/-! ## The claims -/

/-- C1: for every Format of `n+1` Sparse levels followed by Values and every coordinate
table of that rank with non-negative coordinates, sorted lexicographically, `pack` returns a
result, and traversing its indices from the root position 0 (at a Sparse level the
children of parent position `p` are the coordinates stored at the positions `k` with
`segment-ends[p] ≤ k < segment-ends[p+1]`, child position `k`) yields exactly the input
tuples: none is missing, none is added. -/
theorem C1_all_sparse_exact (n : Nat) (dims : List Nat) (coords : List (List Int))
    (hrank : coords.length = n + 1) (htable : IsTable coords) (hnn : NonNegative coords)
    (hsorted : LexSorted coords) :
    ∃ r, pack dims .Double (List.replicate (n + 1) (⟨.Sparse⟩ : Level) ++ [⟨.Values⟩]) coords
        = .ok r ∧
      ∀ t, t ∈ traverse dims r.indices
          (List.replicate (n + 1) (⟨.Sparse⟩ : Level) ++ [⟨.Values⟩]) 0 0 ↔ t ∈ rows coords := by
  obtain ⟨r, hr, hcov, hsnd⟩ := pack_sorted dims (List.replicate (n + 1) (⟨.Sparse⟩ : Level))
    coords (by simp [List.replicate_succ])
    (fun l hl => by rw [List.eq_of_mem_replicate hl]; decide)
    (by rw [hrank, List.length_replicate]) htable hnn hsorted
    (denseBounded_allSparse dims coords (n + 1))
  refine ⟨r, hr, fun t => ⟨hsnd (soundFmt_allSparse (n + 1)) ?_ t, hcov t⟩⟩
  rw [List.replicate_succ, List.cons_append]
  simp [Strict]

/-- The theorem of C1 applied to a concrete input. -/
theorem C1_all_sparse_exact_witness :
    ([[0, 0, 1, 1], [1, 2, 0, 5]] : List (List Int)).length = 1 + 1 ∧
    IsTable [[0, 0, 1, 1], [1, 2, 0, 5]] ∧ NonNegative [[0, 0, 1, 1], [1, 2, 0, 5]] ∧
    LexSorted [[0, 0, 1, 1], [1, 2, 0, 5]] ∧
    ∃ r, pack [] .Double (List.replicate (1 + 1) (⟨.Sparse⟩ : Level) ++ [⟨.Values⟩])
        [[0, 0, 1, 1], [1, 2, 0, 5]] = .ok r ∧
      ∀ t, t ∈ traverse [] r.indices
          (List.replicate (1 + 1) (⟨.Sparse⟩ : Level) ++ [⟨.Values⟩]) 0 0 ↔
        t ∈ rows [[0, 0, 1, 1], [1, 2, 0, 5]] :=
  ⟨by decide, by decide, by decide, by decide,
    C1_all_sparse_exact 1 [] [[0, 0, 1, 1], [1, 2, 0, 5]] (by decide) (by decide) (by decide)
      (by decide)⟩

/-- C3: for every input with non-negative coordinates on which `pack` returns a result, and
every Sparse level, each coordinate segment (the slice of the coordinate array between two
consecutive segment ends) is strictly ascending, hence has no duplicates. -/
theorem C3_segments_strictly_ascending (dims : List Nat) (ctype : ComponentType)
    (format : Format) (coords : List (List Int)) (r : PackedTensor)
    (hnn : NonNegative coords) (h : pack dims ctype format coords = .ok r)
    (i : Nat) (hi : format[i]? = some (⟨.Sparse⟩ : Level)) :
    (∃ seg crd : List Int, r.indices[i]? = some [seg, crd]) ∧
    ∀ p s e, (segArray r.indices i)[p]? = some s → (segArray r.indices i)[p + 1]? = some e →
      (segment (crdArray r.indices i) s e).Sorted (· < ·) ∧
        (segment (crdArray r.indices i) s e).Nodup := by
  obtain ⟨index, hindex, seg, crd, rfl, _, _, _, _, hsegs⟩ :=
    pack_segInv dims ctype format coords r (fun u => u.Sorted (· < ·))
      (fun col hcol b e u hu => (getUniqueEntries_spec col (hnn col hcol) b e u hu).1) h i hi
  refine ⟨⟨seg, crd, hindex⟩, ?_⟩
  intro p s e hs he
  have h1 : segArray r.indices i = seg := by
    simp [segArray, List.getD_eq_getElem?_getD, hindex]
  have h2 : crdArray r.indices i = crd := by
    simp [crdArray, List.getD_eq_getElem?_getD, hindex]
  rw [h1] at hs he
  rw [h2]
  exact ⟨hsegs p s e hs he, (hsegs p s e hs he).nodup⟩

/-- The theorem of C3 applied to a concrete input. -/
theorem C3_segments_strictly_ascending_witness :
    NonNegative [[0, 0, 1], [0, 1, 1]] ∧
    pack [2, 2] .Double [⟨.Dense⟩, ⟨.Sparse⟩, ⟨.Values⟩] [[0, 0, 1], [0, 1, 1]]
      = .ok ⟨3, 3, [[], [[0, 2, 3], [0, 1, 1]]]⟩ ∧
    ([⟨.Dense⟩, ⟨.Sparse⟩, ⟨.Values⟩] : Format)[1]? = some (⟨.Sparse⟩ : Level) ∧
    (segArray [[], [[0, 2, 3], [0, 1, 1]]] 1)[0]? = some 0 ∧
    (segArray [[], [[0, 2, 3], [0, 1, 1]]] 1)[0 + 1]? = some 2 ∧
    (segment (crdArray [[], [[0, 2, 3], [0, 1, 1]]] 1) 0 2).Sorted (· < ·) ∧
    (segment (crdArray [[], [[0, 2, 3], [0, 1, 1]]] 1) 0 2).Nodup :=
  ⟨by decide, by decide, by decide, by decide, by decide,
    (C3_segments_strictly_ascending [2, 2] .Double [⟨.Dense⟩, ⟨.Sparse⟩, ⟨.Values⟩]
      [[0, 0, 1], [0, 1, 1]] ⟨3, 3, [[], [[0, 2, 3], [0, 1, 1]]]⟩ (by decide) (by decide) 1
      (by decide)).2 0 0 2 (by decide) (by decide)⟩

/-- C4: for every input on which `pack` returns a result and every Sparse level, the
segment-end array starts with 0, is nondecreasing, and its last value is the length of the
coordinate array of that level; so the lengths of the segments sum to that length. -/
theorem C4_segment_ends (dims : List Nat) (ctype : ComponentType) (format : Format)
    (coords : List (List Int)) (r : PackedTensor)
    (h : pack dims ctype format coords = .ok r)
    (i : Nat) (hi : format[i]? = some (⟨.Sparse⟩ : Level)) :
    (segArray r.indices i).head? = some 0 ∧
      (segArray r.indices i).Sorted (· ≤ ·) ∧
      (segArray r.indices i).getLast? = some ((crdArray r.indices i).length : Int) ∧
      ((segments (segArray r.indices i) (crdArray r.indices i)).map List.length).sum
        = (crdArray r.indices i).length := by
  obtain ⟨index, hindex, seg, crd, rfl, hhead, hsorted, hlast, hbound, _⟩ :=
    pack_segInv dims ctype format coords r (fun _ => True) (fun _ _ _ _ _ _ => trivial) h i hi
  have h1 : segArray r.indices i = seg := by
    simp [segArray, List.getD_eq_getElem?_getD, hindex]
  have h2 : crdArray r.indices i = crd := by
    simp [crdArray, List.getD_eq_getElem?_getD, hindex]
  rw [h1, h2]
  refine ⟨hhead, hsorted, hlast, ?_⟩
  cases seg with
  | nil => simp at hhead
  | cons a0 t =>
    have := segments_length_sum crd t a0 hsorted hbound
    rw [hlast] at this
    simp only [List.head?_cons, Option.some.injEq] at hhead
    subst hhead
    simp only [Option.getD_some, sub_zero] at this
    exact_mod_cast this

/-- The theorem of C4 applied to a concrete input. -/
theorem C4_segment_ends_witness :
    pack [2, 2] .Double [⟨.Dense⟩, ⟨.Sparse⟩, ⟨.Values⟩] [[0, 0, 1], [0, 1, 1]]
      = .ok ⟨3, 3, [[], [[0, 2, 3], [0, 1, 1]]]⟩ ∧
    ([⟨.Dense⟩, ⟨.Sparse⟩, ⟨.Values⟩] : Format)[1]? = some (⟨.Sparse⟩ : Level) ∧
    (segArray [[], [[0, 2, 3], [0, 1, 1]]] 1).head? = some 0 ∧
    (segArray [[], [[0, 2, 3], [0, 1, 1]]] 1).Sorted (· ≤ ·) ∧
    (segArray [[], [[0, 2, 3], [0, 1, 1]]] 1).getLast?
      = some ((crdArray [[], [[0, 2, 3], [0, 1, 1]]] 1).length : Int) ∧
    ((segments (segArray [[], [[0, 2, 3], [0, 1, 1]]] 1)
        (crdArray [[], [[0, 2, 3], [0, 1, 1]]] 1)).map List.length).sum
      = (crdArray [[], [[0, 2, 3], [0, 1, 1]]] 1).length :=
  ⟨by decide, by decide,
    C4_segment_ends [2, 2] .Double [⟨.Dense⟩, ⟨.Sparse⟩, ⟨.Values⟩] [[0, 0, 1], [0, 1, 1]]
      ⟨3, 3, [[], [[0, 2, 3], [0, 1, 1]]]⟩ (by decide) 1 (by decide)⟩

/-- C5, as stated, fails: for Format [Dense, Sparse, Values] with extents [2^31, 1] the
segment-end array of level 1 has length 1, while 1 + P(1) is 1 + 2^31. -/
theorem C5_dense_extent_counterexample :
    ∃ r, pack [2 ^ 31, 1] .Double [⟨.Dense⟩, ⟨.Sparse⟩, ⟨.Values⟩] [[0], [0]] = .ok r ∧
      (segArray r.indices 1).length = 1 ∧
      (segArray r.indices 1).length
        ≠ 1 + parentEntries id [2 ^ 31, 1] r.indices [⟨.Dense⟩, ⟨.Sparse⟩, ⟨.Values⟩] 1 :=
  ⟨⟨1, 1, [[], [[0], []]]⟩, by decide, by decide, by decide⟩

/-- C5, amended: for every input on which `pack` returns a result and every Sparse level
`i`, the segment-end array has length `1 + P(i)`, where `P(0) = 1`, `P(i+1)` is the length
of the coordinate array of level `i` when level `i` is Sparse, and `P(i+1) = P(i) * n(i)`
when level `i` is Dense, `n(i)` being the number of iterations of the Dense loop: the
extent converted to `int` (the extent itself when it is below 2^31), 0 if that is
negative. -/
theorem C5_segment_end_count (dims : List Nat) (ctype : ComponentType) (format : Format)
    (coords : List (List Int)) (r : PackedTensor)
    (h : pack dims ctype format coords = .ok r)
    (i : Nat) (hi : format[i]? = some (⟨.Sparse⟩ : Level)) :
    (segArray r.indices i).length
        = 1 + parentEntries denseCount dims r.indices format i ∧
      ∀ d, d < 2 ^ 31 → denseCount d = d := by
  obtain ⟨ind0, nnz, _, _, _, hinit, _, _⟩ := pack_ok dims ctype format coords r h
  have hpre := (initIndices_noValuesBefore dims _ format 0 [] 1 ind0 nnz (Nat.le_refl _) hinit
    i hi).2
  have hr := ready_parentEntries dims r.indices format i hpre
    (pack_ready dims ctype format coords r h)
  obtain ⟨hlt, hlj⟩ := List.getElem?_eq_some.1 hi
  rw [List.drop_eq_getElem_cons hlt, hlj] at hr
  simp only [Ready] at hr
  obtain ⟨seg, crd, h1, h2, _, _⟩ := hr
  constructor
  · simp only [segArray, List.getD_eq_getElem?_getD, h1, Option.getD_some,
      List.getElem?_cons_zero]
    omega
  · intro d hd
    rw [denseCount, toInt_of_lt d hd, Int.toNat_natCast]

/-- The theorem of C5 applied to a concrete input. -/
theorem C5_segment_end_count_witness :
    pack [2, 2] .Double [⟨.Dense⟩, ⟨.Sparse⟩, ⟨.Values⟩] [[0, 0, 1], [0, 1, 1]]
      = .ok ⟨3, 3, [[], [[0, 2, 3], [0, 1, 1]]]⟩ ∧
    ([⟨.Dense⟩, ⟨.Sparse⟩, ⟨.Values⟩] : Format)[1]? = some (⟨.Sparse⟩ : Level) ∧
    (segArray [[], [[0, 2, 3], [0, 1, 1]]] 1).length
        = 1 + parentEntries denseCount [2, 2] [[], [[0, 2, 3], [0, 1, 1]]]
          [⟨.Dense⟩, ⟨.Sparse⟩, ⟨.Values⟩] 1 ∧
      ∀ d, d < 2 ^ 31 → denseCount d = d :=
  ⟨by decide, by decide,
    C5_segment_end_count [2, 2] .Double [⟨.Dense⟩, ⟨.Sparse⟩, ⟨.Values⟩] [[0, 0, 1], [0, 1, 1]]
      ⟨3, 3, [[], [[0, 2, 3], [0, 1, 1]]]⟩ (by decide) 1 (by decide)⟩

/-- C6, as stated, fails: for Format [Dense, Sparse, Values] with extents [2^31, 1] and the
one-tuple table (0, 0) the segment-end array of level 1 is [0], of length 1 and not
2^31 + 1. -/
theorem C6_dense_extent_counterexample :
    LexSorted [[0], [0]] ∧ (∀ x ∈ ([0] : List Int), 0 ≤ x ∧ x < ((2 ^ 31 : Nat) : Int)) ∧
    ∃ r, pack [2 ^ 31, 1] .Double [⟨.Dense⟩, ⟨.Sparse⟩, ⟨.Values⟩] [[0], [0]] = .ok r ∧
      segArray r.indices 1 = [0] ∧ (segArray r.indices 1).length ≠ 2 ^ 31 + 1 :=
  ⟨by decide, by decide, ⟨1, 1, [[], [[0], []]]⟩, by decide, by decide, by decide⟩

/-- C6, amended: for Format [Dense, Sparse, Values] with extents `[n, m]`, `n` below 2^31,
and every lexicographically sorted coordinate table with dim0 values in `0..n-1` and
non-negative dim1 values, `pack` gives level 0 no index and level 1 a segment-end array of
length `n+1` such that, for each parent `k < n`, the coordinates between `segment-ends[k]`
and `segment-ends[k+1]` are exactly the distinct dim1 values of the tuples whose dim0 is
`k`, in ascending order. -/
theorem C6_dense_sparse_segments (n m : Nat) (dim0 dim1 : List Int) (hn : n < 2 ^ 31)
    (hlen : dim1.length = dim0.length) (hsorted : LexSorted [dim0, dim1])
    (h0 : ∀ x ∈ dim0, 0 ≤ x ∧ x < (n : Int)) (h1 : ∀ x ∈ dim1, 0 ≤ x ∧ x < 2 ^ 31) :
    ∃ r seg crd,
      pack [n, m] .Double [⟨.Dense⟩, ⟨.Sparse⟩, ⟨.Values⟩] [dim0, dim1] = .ok r ∧
      r.indices = [[], [seg, crd]] ∧ seg.length = n + 1 ∧
      ∀ k, k < n → ∃ s e, seg[k]? = some s ∧ seg[k + 1]? = some e ∧
        (segment crd s e).Sorted (· < ·) ∧
        ∀ v, v ∈ segment crd s e ↔
          ∃ r, r < dim0.length ∧ dim0.getD r 0 = (k : Int) ∧ dim1.getD r 0 = v := by
  have hnn : NonNegative [dim0, dim1] := by
    intro col hcol x hx
    simp only [List.mem_cons, List.mem_singleton, List.not_mem_nil, or_false] at hcol
    rcases hcol with rfl | rfl
    · have := h0 x hx
      omega
    · exact h1 x hx
  have htable : IsTable [dim0, dim1] := by
    intro col hcol
    simp only [List.mem_cons, List.mem_singleton, List.not_mem_nil, or_false] at hcol
    rcases hcol with rfl | rfl
    · rfl
    · exact hlen
  have hdense : DenseBounded [n, m] [⟨.Dense⟩, ⟨.Sparse⟩] [dim0, dim1] := by
    intro i hi hd
    have hi0 : i = 0 := by
      match i, hi, hd with
      | 0, _, _ => rfl
      | 1, _, hd => simp at hd
    subst hi0
    exact ⟨by simp, by simpa using hn, fun x hx => by simpa using (h0 x (by simpa using hx)).2⟩
  obtain ⟨r, hr, hcov, hsnd⟩ := pack_sorted [n, m] [⟨.Dense⟩, ⟨.Sparse⟩] [dim0, dim1]
    (by simp) (by decide) rfl htable hnn hsorted hdense
  have hsnd1 := hsnd (by simp [SoundFmt, Strict]) (by simp [Strict])
  simp only [List.cons_append, List.nil_append] at hr hcov hsnd1
  obtain ⟨ind0, nnz, _, _, _, hinit, hpk, _⟩ := pack_ok _ _ _ _ r hr
  have hind0 : ind0 = [[], [[0], []]] := by
    simp [initIndices] at hinit
    exact hinit.1.symm
  subst hind0
  have hlen2 := (packIndicesFrom_frame _ _ 0 _ 0 0 _ _ _ (Nat.le_refl _) hpk).1
  have hidx0 := packIndicesFrom_empty _ _ _ 0 0 _ _ _ hpk 0 rfl
  have hrdy := pack_ready _ _ _ _ r hr
  have hdc : denseCount n = n := by rw [denseCount, toInt_of_lt n hn, Int.toNat_natCast]
  simp only [Ready, List.getD_cons_zero, hdc, Nat.one_mul] at hrdy
  obtain ⟨seg, crd, hidx1, hseglen, _, _⟩ := hrdy
  obtain ⟨index, hindex, seg1, crd1, heq, _, _, _, _, hsegs⟩ :=
    pack_segInv _ _ _ _ r (fun u => u.Sorted (· < ·))
      (fun col hcol b e u hu => (getUniqueEntries_spec col (hnn col hcol) b e u hu).1) hr 1 rfl
  rw [hidx1] at hindex
  cases hindex
  simp only [List.cons.injEq, and_true] at heq
  obtain ⟨rfl, rfl⟩ := heq
  have hshape : r.indices = [[], [seg, crd]] := by
    match hri : r.indices, hlen2, hidx0, hidx1 with
    | [a, b], _, h0, h1 =>
      simp only [List.getElem?_cons_zero, Option.some.injEq, List.getElem?_cons_succ] at h0 h1
      rw [h0, h1]
  refine ⟨r, seg, crd, hr, hshape, hseglen, fun k hk => ?_⟩
  have hks : seg[k]? = some seg[k] := List.getElem?_eq_getElem (by omega)
  have hke : seg[k + 1]? = some seg[k + 1] := List.getElem?_eq_getElem (by omega)
  refine ⟨seg[k], seg[k + 1], hks, hke, hsegs k _ _ hks hke, fun v => ?_⟩
  rw [← mem_sparseChildren_segment r.indices 1 k seg crd _ _ hidx1 hks hke v]
  have hrow : ∀ r0, rowFrom [dim0, dim1] 0 r0 = [dim0.getD r0 0, dim1.getD r0 0] := by
    intro r0; simp [rowFrom]
  constructor
  · rintro ⟨kk, hkk⟩
    have hmem : [(k : Int), v] ∈
        traverse [n, m] r.indices [⟨.Dense⟩, ⟨.Sparse⟩, ⟨.Values⟩] 0 0 := by
      rw [mem_traverse_dense]
      refine ⟨k, by simpa using hk, [v], ?_, rfl⟩
      rw [mem_traverse_sparse]
      refine ⟨kk, v, by simpa using hkk, [], by simp [traverse], rfl⟩
    obtain ⟨r0, hr0, hrr⟩ := (mem_rows _ _).1 (hsnd1 _ hmem)
    rw [hrow] at hrr
    simp only [List.cons.injEq, and_true] at hrr
    exact ⟨r0, by simpa [numCoords] using hr0, hrr.1, hrr.2⟩
  · rintro ⟨r0, hr0, hd0, hd1⟩
    have hmem := hcov [(k : Int), v]
      ((mem_rows _ _).2 ⟨r0, by simpa [numCoords] using hr0, by rw [hrow, hd0, hd1]⟩)
    rw [mem_traverse_dense] at hmem
    obtain ⟨j, _, tl, htl, hjt⟩ := hmem
    simp only [List.cons.injEq, Nat.cast_inj] at hjt
    obtain ⟨rfl, rfl⟩ := hjt
    rw [mem_traverse_sparse] at htl
    obtain ⟨kk, x, hkx, tl1, _, hxt⟩ := htl
    simp only [List.cons.injEq] at hxt
    obtain ⟨rfl, _⟩ := hxt
    exact ⟨kk, by simpa using hkx⟩

/-- The theorem of C6 applied to a concrete input. -/
theorem C6_dense_sparse_segments_witness :
    (2 : Nat) < 2 ^ 31 ∧ ([0, 1, 1] : List Int).length = ([0, 0, 1] : List Int).length ∧
    LexSorted [[0, 0, 1], [0, 1, 1]] ∧
    (∀ x ∈ ([0, 0, 1] : List Int), 0 ≤ x ∧ x < ((2 : Nat) : Int)) ∧
    (∀ x ∈ ([0, 1, 1] : List Int), 0 ≤ x ∧ x < 2 ^ 31) ∧
    pack [2, 2] .Double [⟨.Dense⟩, ⟨.Sparse⟩, ⟨.Values⟩] [[0, 0, 1], [0, 1, 1]]
      = .ok ⟨3, 3, [[], [[0, 2, 3], [0, 1, 1]]]⟩ ∧
    ∃ r seg crd,
      pack [2, 2] .Double [⟨.Dense⟩, ⟨.Sparse⟩, ⟨.Values⟩] [[0, 0, 1], [0, 1, 1]] = .ok r ∧
      r.indices = [[], [seg, crd]] ∧ seg.length = 2 + 1 ∧
      ∀ k : Nat, k < 2 → ∃ s e, seg[k]? = some s ∧ seg[k + 1]? = some e ∧
        (segment crd s e).Sorted (· < ·) ∧
        ∀ v, v ∈ segment crd s e ↔
          ∃ r, r < ([0, 0, 1] : List Int).length ∧
            ([0, 0, 1] : List Int).getD r 0 = (k : Int) ∧ ([0, 1, 1] : List Int).getD r 0 = v :=
  ⟨by decide, by decide, by decide, by decide, by decide, by decide,
    C6_dense_sparse_segments 2 2 [0, 0, 1] [0, 1, 1] (by decide) (by decide) (by decide)
      (by decide) (by decide)⟩

/-- C8, as stated, fails: for Format [Sparse, Values] and dim0 coordinates [0,0,2] no result
of `pack` has the segment-end array [0,3]. -/
theorem C8_segment_end_not_three :
    ¬ ∃ r, pack [3] .Double [⟨.Sparse⟩, ⟨.Values⟩] [[0, 0, 2]] = .ok r ∧
      r.indices = [[[0, 3], [0, 2]]] ∧ r.nnz = 3 := by
  rintro ⟨r, h, hi, _⟩
  have h2 : pack [3] .Double [⟨.Sparse⟩, ⟨.Values⟩] [[0, 0, 2]]
      = .ok ⟨3, 3, [[[0, 2], [0, 2]]]⟩ := by decide
  rw [h2] at h
  cases h
  revert hi
  decide

/-- C8, amended: packing Format [Sparse, Values] with dim0 coordinates [0,0,2] gives level 0
the segment-end array [0,2] (the end is the number of distinct coordinates) and the
coordinate array [0,2], and a stored-value count of 3, whatever the extents. -/
theorem C8_sparse_example (dimensions : List Nat) :
    pack dimensions .Double [⟨.Sparse⟩, ⟨.Values⟩] [[0, 0, 2]]
      = .ok ⟨3, 3, [[[0, 2], [0, 2]]]⟩ := by
  rfl

/-- C9, as stated, fails: Format [Sparse, Dense, Values] with extents [2,3] and one tuple
has a stored-value count of 3, not 1; and the all-Dense Format with extents [2^32, 2^32] has
the count 0, not the product 2^64. -/
theorem C9_count_counterexample :
    (∃ r, pack [2, 3] .Double [⟨.Sparse⟩, ⟨.Dense⟩, ⟨.Values⟩] [[0], [0]] = .ok r ∧
      r.nnz = 3 ∧ r.nnz ≠ numCoords [[0], [0]]) ∧
    (∃ r, pack [2 ^ 32, 2 ^ 32] .Double [⟨.Dense⟩, ⟨.Dense⟩, ⟨.Values⟩] [[0], [0]] = .ok r ∧
      r.nnz = 0 ∧
      r.nnz ≠ (denseExtents [2 ^ 32, 2 ^ 32] [⟨.Dense⟩, ⟨.Dense⟩, ⟨.Values⟩] 0).prod) := by
  refine ⟨⟨⟨3, 3, [[[0, 1], [0]], []]⟩, by decide, by decide, by decide⟩,
    ⟨⟨0, 0, [[], []]⟩, by decide, by decide, by decide⟩⟩

/-- C9, amended: when `pack` returns a result, the stored-value count is, modulo 2^64, the
number of input tuples times the product of the extents of the Dense levels after the last
Sparse level if the Format has a Sparse level, and the product of all Dense extents
otherwise. -/
theorem C9_count_by_format (dims : List Nat) (ctype : ComponentType) (format : Format)
    (coords : List (List Int)) (r : PackedTensor)
    (h : pack dims ctype format coords = .ok r) (hn : numCoords coords < 2 ^ 64) :
    ((∀ l ∈ format, l.type ≠ .Sparse) →
      r.nnz = (denseExtents dims format 0).prod % 2 ^ 64) ∧
    (∀ pre post, format = pre ++ (⟨.Sparse⟩ : Level) :: post →
      (∀ l ∈ post, l.type ≠ .Sparse) →
      r.nnz = numCoords coords * (denseExtents dims post (pre.length + 1)).prod % 2 ^ 64) := by
  have hr := pack_nnz dims ctype format coords r h
  constructor
  · intro hns
    rw [hr, runningCount_noSparse dims _ format 0 1 hns (by norm_num), Nat.one_mul]
  · intro pre post hf hns
    rw [hr, hf, runningCount_afterSparse, runningCount_noSparse dims _ post _ _ hns hn,
      Nat.zero_add]

/-- The theorem of C9 applied to a concrete input. -/
theorem C9_count_by_format_witness :
    pack [2, 3] .Double [⟨.Sparse⟩, ⟨.Dense⟩, ⟨.Values⟩] [[0], [0]]
      = .ok ⟨3, 3, [[[0, 1], [0]], []]⟩ ∧
    numCoords [[0], [0]] < 2 ^ 64 ∧
    (∀ pre post, [(⟨.Sparse⟩ : Level), ⟨.Dense⟩, ⟨.Values⟩] = pre ++ (⟨.Sparse⟩ : Level) :: post →
      (∀ l ∈ post, l.type ≠ .Sparse) →
      (3 : Nat) = numCoords [[0], [0]] * (denseExtents [2, 3] post (pre.length + 1)).prod
        % 2 ^ 64) :=
  ⟨by decide, by decide,
    (C9_count_by_format [2, 3] .Double [⟨.Sparse⟩, ⟨.Dense⟩, ⟨.Values⟩] [[0], [0]]
      ⟨3, 3, [[[0, 1], [0]], []]⟩ (by decide) (by decide)).2⟩

/-- C10, as stated, fails: for Format [Sparse, Dense, Sparse, Values] with extents [1,3,1]
and one tuple the stored-value count is 1, while the running value that is reset at the
first Sparse level only is 3. -/
theorem C10_reset_counterexample :
    ∃ r, pack [1, 3, 1] .Double [⟨.Sparse⟩, ⟨.Dense⟩, ⟨.Sparse⟩, ⟨.Values⟩] [[0], [0], [0]]
        = .ok r ∧ r.nnz = 1 ∧
      runningCountFirstSparse [1, 3, 1] (numCoords [[0], [0], [0]])
        [⟨.Sparse⟩, ⟨.Dense⟩, ⟨.Sparse⟩, ⟨.Values⟩] 0 false 1 = 3 ∧
      r.nnz ≠ runningCountFirstSparse [1, 3, 1] (numCoords [[0], [0], [0]])
        [⟨.Sparse⟩, ⟨.Dense⟩, ⟨.Sparse⟩, ⟨.Values⟩] 0 false 1 :=
  ⟨⟨1, 1, [[[0, 1], [0]], [], [[0, 1, 1, 1], [0]]]⟩, by decide, by decide, by decide,
    by decide⟩

/-- C10, amended: when `pack` returns a result, the stored-value count is the running value
computed over the levels in order starting from 1, multiplied modulo 2^64 by the extent at
each Dense level and reset to the tuple count at every Sparse level. -/
theorem C10_running_count (dims : List Nat) (ctype : ComponentType) (format : Format)
    (coords : List (List Int)) (r : PackedTensor)
    (h : pack dims ctype format coords = .ok r) :
    r.nnz = runningCount dims (numCoords coords) format 0 1 :=
  pack_nnz dims ctype format coords r h

/-- The theorem of C10 applied to a concrete input. -/
theorem C10_running_count_witness :
    pack [1, 3, 1] .Double [⟨.Sparse⟩, ⟨.Dense⟩, ⟨.Sparse⟩, ⟨.Values⟩] [[0], [0], [0]]
      = .ok ⟨1, 1, [[[0, 1], [0]], [], [[0, 1, 1, 1], [0]]]⟩ ∧
    (1 : Nat) = runningCount [1, 3, 1] (numCoords [[0], [0], [0]])
      [⟨.Sparse⟩, ⟨.Dense⟩, ⟨.Sparse⟩, ⟨.Values⟩] 0 1 :=
  ⟨by decide,
    C10_running_count [1, 3, 1] .Double [⟨.Sparse⟩, ⟨.Dense⟩, ⟨.Sparse⟩, ⟨.Values⟩]
      [[0], [0], [0]] ⟨1, 1, [[[0, 1], [0]], [], [[0, 1, 1, 1], [0]]]⟩ (by decide)⟩

/-- C11, as stated, fails: the sequence [-1, 0] is in ascending order and `getUniqueEntries`
fails on it, because -1 is compared as the `size_t` value 2^64 - 1. -/
theorem C11_mixed_sign_counterexample :
    ([-1, 0] : List Int).Sorted (· ≤ ·) ∧
      getUniqueEntries [-1, 0] 0 ([-1, 0] : List Int).length = .error .assertion := by
  constructor
  · decide
  · decide

/-- C11, amended: for every range of `int` values in ascending (not necessarily strict)
order that are all non-negative or all negative, `getUniqueEntries` returns without
failing, and its result is the strictly ascending sequence of the distinct values of the
range, each exactly once; for the empty range the result is empty. -/
theorem C11_unique_entries (v : List Int) (b e : Nat) (hbe : b ≤ e) (he : e ≤ v.length)
    (hasc : (entries v b e).Sorted (· ≤ ·)) (hsign : SameSign (entries v b e)) :
    ∃ u, getUniqueEntries v b e = .ok u ∧ u.Sorted (· < ·) ∧ u.Nodup ∧
      (∀ y, y ∈ u ↔ y ∈ entries v b e) ∧ (b = e → u = []) := by
  obtain ⟨u, hu, hs, hmem⟩ := getUniqueEntries_range_spec v b e hbe he hasc hsign
  refine ⟨u, hu, hs, hs.nodup, hmem, fun hbe => ?_⟩
  subst hbe
  rw [entries_self] at hmem
  exact List.eq_nil_iff_forall_not_mem.2 (fun y hy => by simpa using (hmem y).1 hy)

/-- The theorem of C11 applied to a concrete input. -/
theorem C11_unique_entries_witness :
    0 ≤ 4 ∧ 4 ≤ ([0, 0, 2, 5] : List Int).length ∧
    (entries [0, 0, 2, 5] 0 4).Sorted (· ≤ ·) ∧ SameSign (entries [0, 0, 2, 5] 0 4) ∧
    getUniqueEntries [0, 0, 2, 5] 0 4 = .ok [0, 2, 5] ∧
    ∃ u, getUniqueEntries [0, 0, 2, 5] 0 4 = .ok u ∧ u.Sorted (· < ·) ∧ u.Nodup ∧
      (∀ y, y ∈ u ↔ y ∈ entries [0, 0, 2, 5] 0 4) ∧ (0 = 4 → u = []) :=
  ⟨by decide, by decide, by decide, by decide, by decide,
    C11_unique_entries [0, 0, 2, 5] 0 4 (by decide) (by decide) (by decide) (by decide)⟩

/-- C16: for every range of non-negative `int` values, `getUniqueEntries` fails, and then
with its sortedness assertion, if and only if the range has an adjacent descending pair
`x[k] > x[k+1]`; the value it compares each entry against is always the immediately
preceding entry: it is the adjacent-pair computation `uniqueAdjacent`. -/
theorem C16_fails_iff_adjacent_descent (v : List Int) (b e : Nat) (hbe : b ≤ e)
    (he : e ≤ v.length) (hnn : ∀ x ∈ entries v b e, 0 ≤ x ∧ x < 2 ^ 31) :
    ((∃ err, getUniqueEntries v b e = .error err) ↔
      ∃ k, k + 1 < (entries v b e).length ∧
        (entries v b e).getD (k + 1) 0 < (entries v b e).getD k 0) ∧
    (∀ err, getUniqueEntries v b e = .error err → err = .assertion) ∧
    getUniqueEntries v b e = uniqueAdjacent (entries v b e) := by
  have heq := getUniqueEntries_eq_uniqueAdjacent v b e hbe he
  obtain ⟨h1, h2⟩ := uniqueAdjacent_spec _ (faithful_of_sameSign _ (Or.inl hnn))
  rw [heq]
  by_cases hc : (entries v b e).Chain' (· ≤ ·)
  · obtain ⟨u, hu, _⟩ := h1 hc
    rw [hu]
    refine ⟨⟨fun ⟨err, h⟩ => (by cases h), fun hd => ?_⟩, fun err h => (by cases h), rfl⟩
    exact absurd hd ((chain'_iff_no_descent _).1 hc)
  · rw [h2 hc]
    refine ⟨⟨fun _ => ?_, fun _ => ⟨_, rfl⟩⟩, fun err h => (by cases h; rfl), rfl⟩
    by_contra hd
    exact hc ((chain'_iff_no_descent _).2 hd)

/-- The theorem of C16 applied to a concrete input. -/
theorem C16_fails_iff_adjacent_descent_witness :
    0 ≤ 3 ∧ 3 ≤ ([0, 2, 1] : List Int).length ∧
    (∀ x ∈ entries [0, 2, 1] 0 3, 0 ≤ x ∧ x < 2 ^ 31) ∧
    getUniqueEntries [0, 2, 1] 0 3 = .error .assertion ∧
    ((∃ err, getUniqueEntries [0, 2, 1] 0 3 = .error err) ↔
      ∃ k, k + 1 < (entries [0, 2, 1] 0 3).length ∧
        (entries [0, 2, 1] 0 3).getD (k + 1) 0 < (entries [0, 2, 1] 0 3).getD k 0) ∧
    (∀ err, getUniqueEntries [0, 2, 1] 0 3 = .error err → err = .assertion) ∧
    getUniqueEntries [0, 2, 1] 0 3 = uniqueAdjacent (entries [0, 2, 1] 0 3) :=
  ⟨by decide, by decide, by decide, by decide,
    C16_fails_iff_adjacent_descent [0, 2, 1] 0 3 (by decide) (by decide) (by decide)⟩

/-- C20: for Format [Dense, Sparse, Values], extents [2,3], dim0 = [0,5], dim1 = [1,2],
where the coordinate 5 is not smaller than the extent 2, `pack` does not fail and returns
indices in which the tuple (5, 2) is absent: its position 1 lies in no child range of
level 0, the tuple is not reached by traversing the indices, and its deeper coordinate 2
is stored nowhere (segment ends [0,1,1], coordinates [1]). -/
theorem C20_out_of_extent_dropped :
    ¬ ((5 : Int) < ((2 : Nat) : Int)) ∧
    pack [2, 3] .Double [⟨.Dense⟩, ⟨.Sparse⟩, ⟨.Values⟩] [[0, 5], [1, 2]]
      = .ok ⟨2, 2, [[], [[0, 1, 1], [1]]]⟩ ∧
    rowFrom [[0, 5], [1, 2]] 0 1 = [5, 2] ∧
    levelChildRanges [2, 3] [[0, 5], [1, 2]] ⟨.Dense⟩ 0 0 2 = .ok [(0, 0, 1), (1, 1, 1)] ∧
    (∀ x ∈ [((0 : Int), 0, 1), (1, 1, 1)], ¬ (x.2.1 ≤ 1 ∧ 1 < x.2.2)) ∧
    [5, 2] ∉ traverse [2, 3] [[], [[0, 1, 1], [1]]] [⟨.Dense⟩, ⟨.Sparse⟩, ⟨.Values⟩] 0 0 ∧
    (2 : Int) ∉ crdArray [[], [[0, 1, 1], [1]]] 1 := by
  refine ⟨by decide, by decide, by decide, by decide, by decide, by decide, by decide⟩

/-- C13, as stated, fails: `pack` has no test of the number of Format levels. With one
extent 1, Format [Dense, Values] (2 levels) and a table of rank 2, and Format
[Dense, Values, Values] (3 levels) and a table of rank 1, the setup before `packIndices`
succeeds and `pack` returns a result. -/
theorem C13_length_mismatch_counterexample :
    ([⟨.Dense⟩, ⟨.Values⟩] : Format).length ≠ ([[0], [0]] : List (List Int)).length + 1 ∧
    packSetup [1] [⟨.Dense⟩, ⟨.Values⟩] [[0], [0]] = .ok ([[]], 1) ∧
    pack [1] .Double [⟨.Dense⟩, ⟨.Values⟩] [[0], [0]] = .ok ⟨1, 1, [[]]⟩ ∧
    ([⟨.Dense⟩, ⟨.Values⟩, ⟨.Values⟩] : Format).length ≠ ([[0]] : List (List Int)).length + 1 ∧
    packSetup [1] [⟨.Dense⟩, ⟨.Values⟩, ⟨.Values⟩] [[0]] = .ok ([[]], 1) ∧
    pack [1] .Double [⟨.Dense⟩, ⟨.Values⟩, ⟨.Values⟩] [[0]] = .ok ⟨1, 1, [[]]⟩ := by
  refine ⟨by decide, by decide, by decide, by decide, by decide, by decide⟩

/-- C14: `pack` fails, returning no PackedTensor, whenever the coordinate table is empty and
whenever the scalar-type tag is not Double, whatever the other arguments are. -/
theorem C14_empty_table_or_unsupported_type (dims : List Nat) (ctype : ComponentType)
    (format : Format) (coords : List (List Int)) (h : coords = [] ∨ ctype ≠ .Double) :
    ∃ e, pack dims ctype format coords = .error e := by
  cases hp : pack dims ctype format coords with
  | error e => exact ⟨e, rfl⟩
  | ok r =>
    obtain ⟨_, _, hc, _, hct, _⟩ := pack_ok dims ctype format coords r hp
    rcases h with h | h
    · exact absurd h hc
    · exact absurd hct h

/-- The theorem of C14 applied to an empty table and to the scalar type Float. -/
theorem C14_empty_table_or_unsupported_type_witness :
    (([] : List (List Int)) = [] ∨ ComponentType.Double ≠ .Double) ∧
    (∃ e, pack [2] .Double [⟨.Dense⟩, ⟨.Values⟩] [] = .error e) ∧
    pack [2] .Double [⟨.Dense⟩, ⟨.Values⟩] [] = .error .assertion ∧
    (([[0, 1]] : List (List Int)) = [] ∨ ComponentType.Float ≠ .Double) ∧
    (∃ e, pack [2] .Float [⟨.Dense⟩, ⟨.Values⟩] [[0, 1]] = .error e) ∧
    pack [2] .Float [⟨.Dense⟩, ⟨.Values⟩] [[0, 1]] = .error .unsupportedType :=
  ⟨Or.inl rfl,
    C14_empty_table_or_unsupported_type [2] .Double [⟨.Dense⟩, ⟨.Values⟩] [] (Or.inl rfl),
    by decide, Or.inr (by decide),
    C14_empty_table_or_unsupported_type [2] .Float [⟨.Dense⟩, ⟨.Values⟩] [[0, 1]]
      (Or.inr (by decide)),
    by decide⟩

/-- C18, as stated, fails: for Format [Sparse, Dense, Dense, Values] with extents
[1, 2^32, 2^32] and one tuple `pack` returns the stored-value count 0, not the number of
tuples times the product 2^64 of the extents of the Dense levels after the Sparse level. -/
theorem C18_count_overflow_counterexample :
    ∃ r, pack [1, 2 ^ 32, 2 ^ 32] .Double [⟨.Sparse⟩, ⟨.Dense⟩, ⟨.Dense⟩, ⟨.Values⟩]
        [[0], [0], [0]] = .ok r ∧
      r.nnz = 0 ∧
      r.nnz ≠ numCoords [[0], [0], [0]] *
        (denseExtents [1, 2 ^ 32, 2 ^ 32] [⟨.Dense⟩, ⟨.Dense⟩, ⟨.Values⟩] 1).prod :=
  ⟨⟨0, 0, [[[0, 1], [0]], [], []]⟩, by decide, by decide, by decide⟩

/-- C18, amended: when `pack` returns a result for a Format with a Sparse level, the
stored-value count is, modulo 2^64, the number of input tuples times the product of the
extents of the Dense levels after the last Sparse level, and it is that product itself when
the product is below 2^64; a second returning call with the same Format, the same number of
tuples and the same extents after the last Sparse level has the same count, whatever its
coordinates, its scalar type and its extents up to the last Sparse level are. -/
theorem C18_count_after_last_sparse (dims dims2 : List Nat) (ctype ctype2 : ComponentType)
    (pre post : List Level) (coords coords2 : List (List Int)) (r r2 : PackedTensor)
    (h : pack dims ctype (pre ++ (⟨.Sparse⟩ : Level) :: post) coords = .ok r)
    (h2 : pack dims2 ctype2 (pre ++ (⟨.Sparse⟩ : Level) :: post) coords2 = .ok r2)
    (hns : ∀ l ∈ post, l.type ≠ .Sparse) (hn : numCoords coords < 2 ^ 64)
    (htuples : numCoords coords2 = numCoords coords)
    (hdims : ∀ l, pre.length < l → dims2.getD l 0 = dims.getD l 0) :
    r.nnz = numCoords coords * (denseExtents dims post (pre.length + 1)).prod % 2 ^ 64 ∧
    (numCoords coords * (denseExtents dims post (pre.length + 1)).prod < 2 ^ 64 →
      r.nnz = numCoords coords * (denseExtents dims post (pre.length + 1)).prod) ∧
    r2.nnz = r.nnz := by
  have hr := pack_nnz dims ctype _ coords r h
  have hr2 := pack_nnz dims2 ctype2 _ coords2 r2 h2
  rw [runningCount_afterSparse, runningCount_noSparse dims _ post _ _ hns hn,
    Nat.zero_add] at hr
  rw [runningCount_afterSparse, runningCount_noSparse dims2 _ post _ _ hns (by omega),
    Nat.zero_add, htuples,
    denseExtents_congr dims dims2 post (pre.length + 1) (fun l hl => hdims l (by omega))]
    at hr2
  exact ⟨hr, fun hlt => by rw [hr, Nat.mod_eq_of_lt hlt], hr2.trans hr.symm⟩

/-- The theorem of C18 applied to two concrete inputs. -/
theorem C18_count_after_last_sparse_witness :
    pack [2, 3] .Double ([] ++ (⟨.Sparse⟩ : Level) :: [⟨.Dense⟩, ⟨.Values⟩]) [[0, 1], [0, 2]]
      = .ok ⟨6, 6, [[[0, 2], [0, 1]], []]⟩ ∧
    pack [5, 3] .Double ([] ++ (⟨.Sparse⟩ : Level) :: [⟨.Dense⟩, ⟨.Values⟩]) [[1, 4], [2, 2]]
      = .ok ⟨6, 6, [[[0, 2], [1, 4]], []]⟩ ∧
    (∀ l ∈ ([⟨.Dense⟩, ⟨.Values⟩] : List Level), l.type ≠ .Sparse) ∧
    numCoords [[0, 1], [0, 2]] < 2 ^ 64 ∧
    numCoords [[1, 4], [2, 2]] = numCoords [[0, 1], [0, 2]] ∧
    (∀ l, ([] : List Level).length < l → ([5, 3] : List Nat).getD l 0 = ([2, 3] : List Nat).getD l 0) ∧
    ((6 : Nat) = numCoords [[0, 1], [0, 2]] *
        (denseExtents [2, 3] [⟨.Dense⟩, ⟨.Values⟩] (([] : List Level).length + 1)).prod % 2 ^ 64 ∧
      (numCoords [[0, 1], [0, 2]] *
          (denseExtents [2, 3] [⟨.Dense⟩, ⟨.Values⟩] (([] : List Level).length + 1)).prod < 2 ^ 64 →
        (6 : Nat) = numCoords [[0, 1], [0, 2]] *
          (denseExtents [2, 3] [⟨.Dense⟩, ⟨.Values⟩] (([] : List Level).length + 1)).prod) ∧
      (6 : Nat) = 6) :=
  have hd : ∀ l, ([] : List Level).length < l →
      ([5, 3] : List Nat).getD l 0 = ([2, 3] : List Nat).getD l 0 := fun l hl => by
    cases l with
    | zero => exact absurd hl (by decide)
    | succ l =>
      cases l with
      | zero => rfl
      | succ l => rfl
  ⟨by decide, by decide, by decide, by decide, by decide, hd,
    C18_count_after_last_sparse [2, 3] [5, 3] .Double .Double [] [⟨.Dense⟩, ⟨.Values⟩]
      [[0, 1], [0, 2]] [[1, 4], [2, 2]] ⟨6, 6, [[[0, 2], [0, 1]], []]⟩
      ⟨6, 6, [[[0, 2], [1, 4]], []]⟩ (by decide) (by decide) (by decide) (by decide)
      (by decide) hd⟩

/-- C19: a call of `packIndices` at level `i` that returns keeps the number of indices,
leaves the index of every level below `i` unchanged, and only appends elsewhere: every index
keeps its number of arrays, and each array as it was before the call (segment ends and
coordinates) is a prefix of the same array after the call. -/
theorem C19_frame_and_append (dims : List Nat) (coords : List (List Int))
    (levels : List Level) (i b e : Nat) (ind ind1 : Indices)
    (h : packIndices dims coords b e levels i ind = .ok ind1) :
    ind1.length = ind.length ∧ (∀ l, l < i → ind1[l]? = ind[l]?) ∧ Grows ind ind1 ∧
    (∀ (l : Nat) (seg crd : List Int), ind[l]? = some [seg, crd] →
      ∃ seg1 crd1 : List Int, ind1[l]? = some [seg1, crd1] ∧ seg <+: seg1 ∧ crd <+: crd1) := by
  have hf := packIndicesFrom_frame dims coords i (levels.drop i) i b e ind ind1
    (Nat.le_refl _) h
  exact ⟨hf.1, hf.2, packIndicesFrom_grows dims coords _ i b e ind ind1 h,
    packIndicesFrom_ext dims coords _ i b e ind ind1 h⟩

/-- The theorem of C19 applied to a call at level 1 of Format [Sparse, Sparse, Values]. -/
theorem C19_frame_and_append_witness :
    packIndices [2, 3] [[0, 0], [1, 2]] 0 2 [⟨.Sparse⟩, ⟨.Sparse⟩, ⟨.Values⟩] 1
        [[[0, 1], [0]], [[0], []]]
      = .ok [[[0, 1], [0]], [[0, 2], [1, 2]]] ∧
    ([[[0, 1], [0]], [[0, 2], [1, 2]]] : Indices).length
      = ([[[0, 1], [0]], [[0], []]] : Indices).length ∧
    (∀ l, l < 1 → ([[[0, 1], [0]], [[0, 2], [1, 2]]] : Indices)[l]?
      = ([[[0, 1], [0]], [[0], []]] : Indices)[l]?) ∧
    Grows [[[0, 1], [0]], [[0], []]] [[[0, 1], [0]], [[0, 2], [1, 2]]] ∧
    (∀ (l : Nat) (seg crd : List Int),
      ([[[0, 1], [0]], [[0], []]] : Indices)[l]? = some [seg, crd] →
      ∃ seg1 crd1 : List Int, ([[[0, 1], [0]], [[0, 2], [1, 2]]] : Indices)[l]?
        = some [seg1, crd1] ∧ seg <+: seg1 ∧ crd <+: crd1) :=
  ⟨by decide,
    C19_frame_and_append [2, 3] [[0, 0], [1, 2]] [⟨.Sparse⟩, ⟨.Sparse⟩, ⟨.Values⟩] 1 0 2
      [[[0, 1], [0]], [[0], []]] [[[0, 1], [0]], [[0, 2], [1, 2]]] (by decide)⟩

/-- C17, refuted by the code: `packIndices` evaluates `coords[i]` and `(*indices)[i]`
before it looks at the level type, and at the Values level `i` is the rank, the size of
both containers. For every Format of Dense and Sparse levels followed by Values, every
coordinate table of that rank with sequences of equal length, at least one tuple and
non-negative coordinates below the extents of the Dense levels, if `pack` returns a result
then `pack` with its subscripts tested fails on a subscript out of bounds; a call of
`packIndices` at the Values level always does. -/
theorem C17_values_level_out_of_bounds (dims : List Nat) (ctype : ComponentType)
    (lv : List Level) (coords : List (List Int)) (r : PackedTensor)
    (hlv : ∀ l ∈ lv, l.type ≠ .Values) (hrank : coords.length = lv.length)
    (htable : IsTable coords) (hpos : 0 < numCoords coords) (hnn : NonNegative coords)
    (hdb : DenseBounded dims lv coords)
    (h : pack dims ctype (lv ++ [⟨.Values⟩]) coords = .ok r) :
    packChecked dims ctype (lv ++ [⟨.Values⟩]) coords = .error .outOfBounds ∧
    ∀ b e ind, packIndicesChecked dims coords ((lv ++ [(⟨.Values⟩ : Level)]).drop lv.length)
      lv.length b e ind = .error .outOfBounds := by
  refine ⟨packChecked_out_of_bounds dims ctype lv coords r hlv hrank htable hpos hnn hdb h,
    fun b e ind => ?_⟩
  rw [List.drop_left, ← hrank]
  simp [packIndicesChecked]

/-- The theorem of C17 applied to Format [Dense, Values] with extent 1 and the one tuple
(0). -/
theorem C17_values_level_out_of_bounds_witness :
    (∀ l ∈ ([⟨.Dense⟩] : List Level), l.type ≠ .Values) ∧
    ([[0]] : List (List Int)).length = ([⟨.Dense⟩] : List Level).length ∧
    IsTable [[0]] ∧ 0 < numCoords [[0]] ∧ NonNegative [[0]] ∧
    DenseBounded [1] [⟨.Dense⟩] [[0]] ∧
    pack [1] .Double ([⟨.Dense⟩] ++ [⟨.Values⟩]) [[0]] = .ok ⟨1, 1, [[]]⟩ ∧
    (packChecked [1] .Double ([⟨.Dense⟩] ++ [⟨.Values⟩]) [[0]] = .error .outOfBounds ∧
    ∀ b e ind, packIndicesChecked [1] [[0]]
      (([⟨.Dense⟩] ++ [(⟨.Values⟩ : Level)] : List Level).drop ([⟨.Dense⟩] : List Level).length)
      ([⟨.Dense⟩] : List Level).length b e ind = .error .outOfBounds) :=
  ⟨by decide, by decide, by decide, by decide, by decide, by decide, by decide,
    C17_values_level_out_of_bounds [1] .Double [⟨.Dense⟩] [[0]] ⟨1, 1, [[]]⟩ (by decide)
      (by decide) (by decide) (by decide) (by decide) (by decide) (by decide)⟩

/-- C12, as stated, fails. For Format [Sparse, Sparse, Values] the lexicographically sorted
table (0,5), (1,0) has the adjacent descending pair 5 > 0 in its second sequence, in two
different segments, and `pack` returns a result. For Format [Sparse, Values] the table (0),
(-1) has the descending pair 0 > -1, which is ascending as `size_t`, and `pack` returns. At
a Dense level no order is tested: for Format [Dense, Values] with extent 2 the table (1),
(0) has the descending pair 1 > 0 and `pack` returns, and for Format
[Dense, Sparse, Values] with extents [2, 1] the table (1,0), (0,0) has it and `pack` returns
indices from which the tuple (0,0) is missing. Below a Dense level whose coordinates are
not smaller than the extent, the descending pair 5 > 0 of the tuples (7,5), (7,0) at the
Sparse level is never looked at and `pack` returns. -/
theorem C12_descending_pair_counterexample :
    (([[0, 1], [5, 0]] : List (List Int)).getD 1 []).getD (0 + 1) 0
      < (([[0, 1], [5, 0]] : List (List Int)).getD 1 []).getD 0 0 ∧
    pack [2, 6] .Double [⟨.Sparse⟩, ⟨.Sparse⟩, ⟨.Values⟩] [[0, 1], [5, 0]]
      = .ok ⟨2, 2, [[[0, 2], [0, 1]], [[0, 1, 2], [5, 0]]]⟩ ∧
    (([[0, -1]] : List (List Int)).getD 0 []).getD (0 + 1) 0
      < (([[0, -1]] : List (List Int)).getD 0 []).getD 0 0 ∧
    pack [1] .Double [⟨.Sparse⟩, ⟨.Values⟩] [[0, -1]] = .ok ⟨2, 2, [[[0, 2], [0, -1]]]⟩ ∧
    (([[1, 0]] : List (List Int)).getD 0 []).getD (0 + 1) 0
      < (([[1, 0]] : List (List Int)).getD 0 []).getD 0 0 ∧
    pack [2] .Double [⟨.Dense⟩, ⟨.Values⟩] [[1, 0]] = .ok ⟨2, 2, [[]]⟩ ∧
    (([[1, 0], [0, 0]] : List (List Int)).getD 0 []).getD (0 + 1) 0
      < (([[1, 0], [0, 0]] : List (List Int)).getD 0 []).getD 0 0 ∧
    pack [2, 1] .Double [⟨.Dense⟩, ⟨.Sparse⟩, ⟨.Values⟩] [[1, 0], [0, 0]]
      = .ok ⟨2, 2, [[], [[0, 0, 1], [0]]]⟩ ∧
    rowFrom [[1, 0], [0, 0]] 0 1 = [0, 0] ∧
    [0, 0] ∉ traverse [2, 1] [[], [[0, 0, 1], [0]]] [⟨.Dense⟩, ⟨.Sparse⟩, ⟨.Values⟩] 0 0 ∧
    (([[7, 7], [5, 0]] : List (List Int)).getD 1 []).getD (0 + 1) 0
      < (([[7, 7], [5, 0]] : List (List Int)).getD 1 []).getD 0 0 ∧
    pack [2, 6] .Double [⟨.Dense⟩, ⟨.Sparse⟩, ⟨.Values⟩] [[7, 7], [5, 0]]
      = .ok ⟨2, 2, [[], [[0, 0, 0], []]]⟩ := by
  refine ⟨by decide, by decide, by decide, by decide, by decide, by decide, by decide,
    by decide, by decide, by decide, by decide, by decide⟩

/-- C12, amended: for every Format with a Sparse level `d` below Dense and Sparse levels
only, and every coordinate table of non-negative coordinates in which two adjacent tuples
`k`, `k+1` agree at the levels before `d` and descend at level `d`
(`coords[d][k] > coords[d][k+1]`), `pack` fails and returns no PackedTensor, provided every
Dense level before `d` is in order for the tuples that agree with tuple `k` before it
(extent below 2^31, coordinates ascending and below the extent); when the Format is such
levels followed by Values and the table and the extents have that rank, the failure is the
sortedness assertion. -/
theorem C12_descending_pair_in_segment (dims : List Nat) (ctype : ComponentType)
    (format : Format) (coords : List (List Int)) (hnn : NonNegative coords) (d k : Nat)
    (hd : format[d]? = some (⟨.Sparse⟩ : Level))
    (hpre : ∀ l : Nat, l < d → format[l]? ≠ some (⟨.Values⟩ : Level))
    (hdense : ∀ l : Nat, l < d → format[l]? = some (⟨.Dense⟩ : Level) → DenseRun dims coords l k)
    (hk : k + 1 < numCoords coords)
    (hagree : ∀ l, l < d → (coords.getD l []).getD k 0 = (coords.getD l []).getD (k + 1) 0)
    (hdesc : (coords.getD d []).getD (k + 1) 0 < (coords.getD d []).getD k 0) :
    (∃ err, pack dims ctype format coords = .error err) ∧
    (∀ lv : List Level, format = lv ++ [⟨.Values⟩] → (∀ l ∈ lv, l.type ≠ .Values) →
      coords.length = lv.length → dims.length = lv.length → IsTable coords →
      pack dims ctype format coords = .error .assertion) := by
  have hno := packIndicesFrom_root_descent dims format coords hnn d k hd hpre hdense hk hagree
    hdesc
  constructor
  · cases hp : pack dims ctype format coords with
    | error err => exact ⟨err, rfl⟩
    | ok r =>
      obtain ⟨ind0, _, _, _, _, _, hpk, _⟩ := pack_ok dims ctype format coords r hp
      exact absurd hpk (hno ind0 r.indices)
  · intro lv hf hlv hrank hdims htable
    subst hf
    refine pack_assertion_of_packIndices dims ctype lv coords hlv hrank hdims htable ?_ hno
    intro hnil
    rw [hnil] at hk
    simp [numCoords] at hk

/-- The theorem of C12 applied to Format [Dense, Sparse, Values] and the tuples (0,5),
(0,0): they share their Dense coordinate and descend at the Sparse level. -/
theorem C12_descending_pair_in_segment_witness :
    NonNegative [[0, 0], [5, 0]] ∧
    ([⟨.Dense⟩, ⟨.Sparse⟩, ⟨.Values⟩] : Format)[1]? = some (⟨.Sparse⟩ : Level) ∧
    (∀ l : Nat, l < 1 →
      ([⟨.Dense⟩, ⟨.Sparse⟩, ⟨.Values⟩] : Format)[l]? ≠ some (⟨.Values⟩ : Level)) ∧
    (∀ l : Nat, l < 1 →
      ([⟨.Dense⟩, ⟨.Sparse⟩, ⟨.Values⟩] : Format)[l]? = some (⟨.Dense⟩ : Level) →
      DenseRun [2, 6] [[0, 0], [5, 0]] l 0) ∧
    0 + 1 < numCoords [[0, 0], [5, 0]] ∧
    (∀ l, l < 1 → (([[0, 0], [5, 0]] : List (List Int)).getD l []).getD 0 0
      = (([[0, 0], [5, 0]] : List (List Int)).getD l []).getD (0 + 1) 0) ∧
    (([[0, 0], [5, 0]] : List (List Int)).getD 1 []).getD (0 + 1) 0
      < (([[0, 0], [5, 0]] : List (List Int)).getD 1 []).getD 0 0 ∧
    pack [2, 6] .Double [⟨.Dense⟩, ⟨.Sparse⟩, ⟨.Values⟩] [[0, 0], [5, 0]]
      = .error .assertion ∧
    (∃ err, pack [2, 6] .Double [⟨.Dense⟩, ⟨.Sparse⟩, ⟨.Values⟩] [[0, 0], [5, 0]]
      = .error err) ∧
    (∀ lv : List Level, ([⟨.Dense⟩, ⟨.Sparse⟩, ⟨.Values⟩] : Format) = lv ++ [⟨.Values⟩] →
      (∀ l ∈ lv, l.type ≠ .Values) → ([[0, 0], [5, 0]] : List (List Int)).length = lv.length →
      ([2, 6] : List Nat).length = lv.length → IsTable [[0, 0], [5, 0]] →
      pack [2, 6] .Double [⟨.Dense⟩, ⟨.Sparse⟩, ⟨.Values⟩] [[0, 0], [5, 0]]
        = .error .assertion) :=
  ⟨by decide, by decide, by decide, by decide, by decide, by decide, by decide, by decide,
    C12_descending_pair_in_segment [2, 6] .Double [⟨.Dense⟩, ⟨.Sparse⟩, ⟨.Values⟩]
      [[0, 0], [5, 0]] (by decide) 1 0 (by decide) (by decide) (by decide) (by decide)
      (by decide) (by decide)⟩

/-- C15, as stated, fails: at a Dense level with extent 2^31 the range [0, 1) with the
coordinate 0 (ascending, non-negative, smaller than the extent) gets no recursive call at
all. The call returns even when there is no next level, where every recursive call fails
(with extent 1 the call on [0, 1) is made and fails); above a Sparse level it leaves the
indices untouched, where every recursive call appends a segment end (with extent 1 it
does); so no list of ranges that holds position 0 is the list of ranges passed to the
recursive calls. -/
theorem C15_dense_extent_counterexample :
    (entries [0] 0 1).Sorted (· ≤ ·) ∧
    (∀ x ∈ entries [0] 0 1, 0 ≤ x ∧ x < 2 ^ 31 ∧ x < ((2 ^ 31 : Nat) : Int)) ∧
    packIndicesFrom [2 ^ 31] [[0]] [⟨.Dense⟩] 0 0 1 [] = .ok [] ∧
    packIndicesFrom [1] [[0]] [⟨.Dense⟩] 0 0 1 [] = .error .outOfBounds ∧
    packIndicesFrom [2 ^ 31, 1] [[0], [0]] [⟨.Dense⟩, ⟨.Sparse⟩, ⟨.Values⟩] 0 0 1
      [[], [[0], []]] = .ok [[], [[0], []]] ∧
    packIndicesFrom [1, 1] [[0], [0]] [⟨.Dense⟩, ⟨.Sparse⟩, ⟨.Values⟩] 0 0 1
      [[], [[0], []]] = .ok [[], [[0, 1], [0]]] ∧
    ¬ ∃ rs : List (Int × Nat × Nat), (∃ x ∈ rs, x.2.1 ≤ 0 ∧ 0 < x.2.2) ∧
      ∀ rest ind, packIndicesFrom [2 ^ 31] [[0]] ((⟨.Dense⟩ : Level) :: rest) 0 0 1 ind
        = callAll (fun cb ce x => packIndicesFrom [2 ^ 31] [[0]] rest (0 + 1) cb ce x) rs
            ind := by
  refine ⟨by decide, by decide, by decide, by decide, by decide, by decide, ?_⟩
  rintro ⟨rs, ⟨x, hx, _⟩, heq⟩
  have h := heq [] []
  have h0 : packIndicesFrom [2 ^ 31] [[0]] [⟨.Dense⟩] 0 0 1 [] = .ok [] := by decide
  rw [h0] at h
  cases rs with
  | nil => simp at hx
  | cons y ys =>
    obtain ⟨j, cb, ce⟩ := y
    simp [callAll, packIndicesFrom] at h

/-- C15, amended: in `packIndices` at a Sparse level, or at a Dense level whose extent is
below 2^31, for every active range `[begin, end)` whose coordinates at that level are
ascending and non-negative (and smaller than the extent when the level is Dense), the
child ranges passed to the recursive calls are consecutive and pairwise disjoint, their
union is exactly `[begin, end)`, and the child range made for value `j` contains exactly
the positions of `[begin, end)` whose coordinate at this level equals `j`. The ranges `rs`
are the ones passed: whatever the levels below and the indices are, the call is the
sequence of the calls of `packIndices` at level `i+1` on the ranges of `rs`, in order, one
for each child value (`0..extent-1`, or the unique entries of the range). -/
theorem C15_child_ranges_partition (dims : List Nat) (coords : List (List Int))
    (level : Level) (i b e : Nat) (col : List Int)
    (hlevel : level.type ≠ .Values) (hcol : coords[i]? = some col) (hbe : b ≤ e)
    (he : e ≤ col.length) (hnn : ∀ x ∈ entries col b e, 0 ≤ x ∧ x < 2 ^ 31)
    (hasc : (entries col b e).Sorted (· ≤ ·))
    (hdense : level.type = .Dense →
      ∃ d, dims[i]? = some d ∧ d < 2 ^ 31 ∧ ∀ x ∈ entries col b e, x < (d : Int)) :
    ∃ rs : List (Int × Nat × Nat),
      Consecutive b e rs ∧ rs.Pairwise (fun x y => x.2.2 ≤ y.2.1) ∧
      (∀ x ∈ rs, b ≤ x.2.1 ∧ x.2.1 ≤ x.2.2 ∧ x.2.2 ≤ e) ∧
      (∀ r, b ≤ r → r < e → ∃ x ∈ rs, x.2.1 ≤ r ∧ r < x.2.2) ∧
      (∀ x ∈ rs, ∀ r, (x.2.1 ≤ r ∧ r < x.2.2) ↔ (b ≤ r ∧ r < e ∧ col.getD r 0 = x.1)) ∧
      (level.type = .Dense →
        (∀ d, dims[i]? = some d → rs.map (fun x => x.1) = denseValues (toInt d)) ∧
        ∀ rest ind, packIndicesFrom dims coords (level :: rest) i b e ind
          = callAll (fun cb ce x => packIndicesFrom dims coords rest (i + 1) cb ce x) rs
              ind) ∧
      (level.type = .Sparse →
        ∃ u, getUniqueEntries col b e = .ok u ∧ rs.map (fun x => x.1) = u ∧
          ∀ rest ind index seg crd, ind[i]? = some index → index[0]? = some seg →
            index[1]? = some crd →
            packIndicesFrom dims coords (level :: rest) i b e ind
              = callAll (fun cb ce x => packIndicesFrom dims coords rest (i + 1) cb ce x) rs
                  (ind.set i (sparseStep index seg crd u))) := by
  have hpos := sorted_entries_positions col b e he hasc
  have hmem : ∀ r, b ≤ r → r < e → col.getD r 0 ∈ entries col b e := fun r h1 h2 =>
    (mem_entries col b e _).2 ⟨r, h1, h2, getD_of_lt col r (by omega)⟩
  have key : ∀ js, js.Sorted (· < ·) → (∀ r, b ≤ r → r < e → col.getD r 0 ∈ js) →
      ∃ rs, childRanges (some col) e js b = .ok rs ∧ rs.map (fun x => x.1) = js ∧
        Consecutive b e rs ∧ rs.Pairwise (fun x y => x.2.2 ≤ y.2.1) ∧
        (∀ x ∈ rs, b ≤ x.2.1 ∧ x.2.1 ≤ x.2.2 ∧ x.2.2 ≤ e) ∧
        (∀ r, b ≤ r → r < e → ∃ x ∈ rs, x.2.1 ≤ r ∧ r < x.2.2) ∧
        (∀ x ∈ rs, ∀ r, (x.2.1 ≤ r ∧ r < x.2.2) ↔ (b ≤ r ∧ r < e ∧ col.getD r 0 = x.1)) := by
    intro js hjs hH
    obtain ⟨rs, hrs, hmap, hcons, hchar⟩ := childRanges_partition col e he js b hbe hjs hH hpos
    refine ⟨rs, hrs, hmap, hcons, consecutive_pairwise rs b e hcons,
      (consecutive_bounds rs b e hcons).2, fun r h1 h2 => ?_, hchar⟩
    have hj := hH r h1 h2
    rw [← hmap] at hj
    obtain ⟨x, hx, hxj⟩ := List.mem_map.1 hj
    exact ⟨x, hx, ((hchar x hx r).2 ⟨h1, h2, hxj.symm⟩)⟩
  obtain ⟨t⟩ := level
  cases t
  · obtain ⟨d, hd, hdlt, hlt⟩ := hdense rfl
    obtain ⟨rs, hrs, hmap, h1, h2, h3, h4, h5⟩ := key (denseValues (d : Int))
      (denseValues_sorted d) (fun r h1 h2 => by
        have hx := hmem r h1 h2
        have h0 := (hnn _ hx).1
        have h3 := hlt _ hx
        refine List.getElem?_mem (n := (col.getD r 0).toNat) ?_
        rw [denseValues_getElem?]
        omega)
    refine ⟨rs, h1, h2, h3, h4, h5, fun _ => ⟨fun d1 hd1 => ?_, fun rest ind => ?_⟩,
      fun hs => (by cases hs)⟩
    · rw [hd] at hd1
      cases hd1
      rw [toInt_of_lt d hdlt]
      exact hmap
    · refine packIndicesFrom_dense_calls dims coords rest i b e d ind rs hd ?_
      rw [hcol, toInt_of_lt d hdlt]
      exact hrs
  · obtain ⟨u, hu, hus, hum⟩ := getUniqueEntries_range_spec col b e hbe he hasc (Or.inl hnn)
    obtain ⟨rs, hrs, hmap, h1, h2, h3, h4, h5⟩ := key u hus
      (fun r h1 h2 => (hum _).2 (hmem r h1 h2))
    exact ⟨rs, h1, h2, h3, h4, h5, fun hs => (by cases hs),
      fun _ => ⟨u, hu, hmap, fun rest ind index seg crd hind hseg hcrd =>
        packIndicesFrom_sparse_calls dims coords rest i b e ind col u index seg crd rs hcol hu
          hrs hind hseg hcrd⟩⟩
  · exact absurd rfl hlevel

/-- The theorem of C15 applied to the Sparse level 0 of Format [Sparse, Sparse, Values] and
the tuples (0,0), (0,1), (1,1): the ranges are [0,2) for the value 0 and [2,3) for the
value 1. -/
theorem C15_child_ranges_partition_witness :
    (⟨.Sparse⟩ : Level).type ≠ .Values ∧
    ([[0, 0, 1], [0, 1, 1]] : List (List Int))[0]? = some [0, 0, 1] ∧ 0 ≤ 3 ∧
    3 ≤ ([0, 0, 1] : List Int).length ∧
    (∀ x ∈ entries [0, 0, 1] 0 3, 0 ≤ x ∧ x < 2 ^ 31) ∧
    (entries [0, 0, 1] 0 3).Sorted (· ≤ ·) ∧
    packIndicesFrom [2, 2] [[0, 0, 1], [0, 1, 1]] [⟨.Sparse⟩, ⟨.Sparse⟩, ⟨.Values⟩] 0 0 3
      [[[0], []], [[0], []]] = .ok [[[0, 2], [0, 1]], [[0, 2, 3], [0, 1, 1]]] ∧
    callAll (fun cb ce x =>
        packIndicesFrom [2, 2] [[0, 0, 1], [0, 1, 1]] [⟨.Sparse⟩, ⟨.Values⟩] (0 + 1) cb ce x)
      [(0, 0, 2), (1, 2, 3)] [[[0, 2], [0, 1]], [[0], []]]
      = .ok [[[0, 2], [0, 1]], [[0, 2, 3], [0, 1, 1]]] ∧
    ∃ rs : List (Int × Nat × Nat),
      Consecutive 0 3 rs ∧ rs.Pairwise (fun x y => x.2.2 ≤ y.2.1) ∧
      (∀ x ∈ rs, 0 ≤ x.2.1 ∧ x.2.1 ≤ x.2.2 ∧ x.2.2 ≤ 3) ∧
      (∀ r, 0 ≤ r → r < 3 → ∃ x ∈ rs, x.2.1 ≤ r ∧ r < x.2.2) ∧
      (∀ x ∈ rs, ∀ r, (x.2.1 ≤ r ∧ r < x.2.2) ↔
        (0 ≤ r ∧ r < 3 ∧ ([0, 0, 1] : List Int).getD r 0 = x.1)) ∧
      ((⟨.Sparse⟩ : Level).type = .Dense →
        (∀ d, ([2, 2] : List Nat)[0]? = some d →
          rs.map (fun x => x.1) = denseValues (toInt d)) ∧
        ∀ rest ind,
          packIndicesFrom [2, 2] [[0, 0, 1], [0, 1, 1]] ((⟨.Sparse⟩ : Level) :: rest) 0 0 3 ind
            = callAll (fun cb ce x =>
                packIndicesFrom [2, 2] [[0, 0, 1], [0, 1, 1]] rest (0 + 1) cb ce x) rs ind) ∧
      ((⟨.Sparse⟩ : Level).type = .Sparse →
        ∃ u, getUniqueEntries [0, 0, 1] 0 3 = .ok u ∧ rs.map (fun x => x.1) = u ∧
          ∀ rest ind index seg crd, ind[0]? = some index → index[0]? = some seg →
            index[1]? = some crd →
            packIndicesFrom [2, 2] [[0, 0, 1], [0, 1, 1]] ((⟨.Sparse⟩ : Level) :: rest) 0 0 3 ind
              = callAll (fun cb ce x =>
                  packIndicesFrom [2, 2] [[0, 0, 1], [0, 1, 1]] rest (0 + 1) cb ce x) rs
                  (ind.set 0 (sparseStep index seg crd u))) :=
  ⟨by decide, by decide, by decide, by decide, by decide, by decide, by decide, by decide,
    C15_child_ranges_partition [2, 2] [[0, 0, 1], [0, 1, 1]] ⟨.Sparse⟩ 0 0 3 [0, 0, 1]
      (by decide) (by decide) (by decide) (by decide) (by decide) (by decide)
      (fun h => absurd h (by decide))⟩

/-- C13, amended: for every call to `pack` in which the number of Format levels differs from
rank + 1, `pack` rejects the input before `packIndices` is invoked if and only if the
coordinate table is empty (the assertion) or the Format has no level (the reservation of
`size() - 1` entries throws); the number of levels is not compared with the rank, and no
other mismatch is rejected. An unchecked subscript out of bounds is not a rejection. -/
theorem C13_mismatch_rejected_iff (dims : List Nat) (ctype : ComponentType)
    (format : Format) (coords : List (List Int))
    (hmis : format.length ≠ coords.length + 1) :
    ((∃ e, packSetup dims format coords = .error e ∧ e ≠ .outOfBounds) ↔
      coords = [] ∨ format = []) ∧
    (coords = [] → pack dims ctype format coords = .error .assertion) ∧
    (coords ≠ [] → format = [] → pack dims ctype format coords = .error .lengthError) := by
  refine ⟨?_, fun h => by subst h; rfl, fun hc hf => ?_⟩
  · cases coords with
    | nil => simp [packSetup]
    | cons c0 cs =>
      by_cases hf : format = []
      · subst hf
        simp [packSetup]
      · have hlen : format.length ≠ 0 := fun h => hf (List.length_eq_zero.1 h)
        simp only [packSetup, if_neg hlen]
        constructor
        · rintro ⟨e, he, hne⟩
          exact absurd (initIndices_error_kind _ _ _ _ _ _ _ he) hne
        · rintro (h | h)
          · cases h
          · exact absurd h hf
  · subst hf
    cases coords with
    | nil => exact absurd rfl hc
    | cons c0 cs => rfl

/-- The theorem of C13 applied to Format [Dense, Values] (2 levels) and a table of rank 2,
where the mismatch is not rejected and the setup completes, and to the same Format and
the empty table, which is rejected. -/
theorem C13_mismatch_rejected_iff_witness :
    ([⟨.Dense⟩, ⟨.Values⟩] : Format).length ≠ ([[0], [0]] : List (List Int)).length + 1 ∧
    packSetup [1] [⟨.Dense⟩, ⟨.Values⟩] [[0], [0]] = .ok ([[]], 1) ∧
    (((∃ e, packSetup [1] [⟨.Dense⟩, ⟨.Values⟩] [[0], [0]] = .error e ∧ e ≠ .outOfBounds) ↔
      ([[0], [0]] : List (List Int)) = [] ∨ ([⟨.Dense⟩, ⟨.Values⟩] : Format) = []) ∧
    (([[0], [0]] : List (List Int)) = [] →
      pack [1] .Double [⟨.Dense⟩, ⟨.Values⟩] [[0], [0]] = .error .assertion) ∧
    (([[0], [0]] : List (List Int)) ≠ [] → ([⟨.Dense⟩, ⟨.Values⟩] : Format) = [] →
      pack [1] .Double [⟨.Dense⟩, ⟨.Values⟩] [[0], [0]] = .error .lengthError)) ∧
    ([⟨.Dense⟩, ⟨.Values⟩] : Format).length ≠ ([] : List (List Int)).length + 1 ∧
    pack [1] .Double [⟨.Dense⟩, ⟨.Values⟩] [] = .error .assertion :=
  ⟨by decide, by decide,
    C13_mismatch_rejected_iff [1] .Double [⟨.Dense⟩, ⟨.Values⟩] [[0], [0]] (by decide),
    by decide,
    (C13_mismatch_rejected_iff [1] .Double [⟨.Dense⟩, ⟨.Values⟩] [] (by decide)).2.1 rfl⟩

end taco
